import Mathlib

/-!
SIMPL memory pool (`src/src/simpl.c`): shallow embedding.

The C functions of `simpl.c` are transcribed one by one as Lean functions.

* `uint32_t` arithmetic is arithmetic on `Nat` reduced modulo `2 ^ 32`;
  `size_t` / `uintptr_t` arithmetic is reduced modulo `2 ^ (8 * P)`, where `P`
  is `sizeof(uintptr_t)` (`simplc_bytes_per_ptr`), a parameter of every
  definition that depends on the target: `P = 8` on an LP64 target, `P = 4` on
  an ILP32 target.  The `offsetof` / `sizeof` values of the two structs are
  those of these targets.
* A pointer is the natural number of its address, `0` is `NULL`.  Arithmetic on
  typed pointers (`(uint8_t *)chunk + n`, `&chunk->payload`) is plain addition;
  only what the source computes on `uintptr_t` is reduced.
* The chunk region is a memory of pointer-sized cells keyed by their byte
  address.  A `struct simpl_chunk` at address `c` has `phys_prev` in the cell at
  `c`, the 32-bit `size` word in the low half of the cell at `c + P`
  (little-endian), `free_prev` at `c + 2 * P` and `free_next` at `c + 3 * P`;
  the payload starts at `c + 2 * P`.  Fields of different chunks that the C
  layout overlays share a cell here as well.
* The pool header is a record; the two tables `sl_bitmaps[]` and `freelists[]`
  are maps from the index to the entry.
* `assert_msg` expands to nothing unless `_DEBUG` is defined; the functions are
  those of a build without it.
* Where a property is about the accesses of a function rather than its result,
  the accesses are transcribed as a list in program order: the stores of
  `simpl_init` (`simpl_init_stores`) and the table indices `simpl_malloc` reads
  (`simpl_malloc_sl_reads`, `simpl_malloc_freelists_reads`).
-/

namespace Simpl

/-! ## Bit scans and alignment (simpl.c 85-119) -/

/-- The modulus of `uint32_t` arithmetic. -/
def u32 : Nat := 2 ^ 32

/-- The modulus of `size_t` and `uintptr_t` arithmetic on a target with `P`-byte pointers. -/
def uptr (P : Nat) : Nat := 2 ^ (8 * P)

/-- Bitwise complement of a 32-bit word (`~x` on `uint32_t`). -/
def not32 (x : Nat) : Nat := (u32 - 1) ^^^ (x % u32)

/-- Bitwise complement of a pointer-sized word (`~x` on `size_t`). -/
def notptr (P x : Nat) : Nat := (uptr P - 1) ^^^ (x % uptr P)

/-- One line of `fls_generic`: `if (!(dw & mask)) { dw <<= sh; bit -= sh; }`. -/
def fls_step (mask sh : Nat) (s : Nat × Nat) : Nat × Nat :=
  if s.1 &&& mask = 0 then ((s.1 <<< sh) % u32, s.2 - sh) else s

/-- The portable `fls_generic` of simpl.c 85-96 (the compiler intrinsics of the
other two variants compute the same function). -/
def fls_generic (dw : Nat) : Nat :=
  (fls_step 0x80000000 1
    (fls_step 0xc0000000 2
      (fls_step 0xf0000000 4
        (fls_step 0xff000000 8
          (fls_step 0xffff0000 16 (dw, if dw = 0 then 32 - 1 else 32)))))).2

/-- Position (1-based) of the lowest set bit: `fls_generic(dw & (~dw + 1))`. -/
def ffs (dw : Nat) : Nat := fls_generic (dw &&& ((not32 dw + 1) % u32))

/-- Position (1-based) of the highest set bit, `0` for `0`. -/
def fls (dw : Nat) : Nat := fls_generic dw

/-- The function `align_up` on `size_t`: `val + mask & ~mask` with `mask = align - 1`. -/
def align_up (P val align : Nat) : Nat :=
  let mask := (align + uptr P - 1) % uptr P
  ((val + mask) % uptr P) &&& notptr P mask

/-- The function `ptr_align_up`: the same computation on `uintptr_t`. -/
def ptr_align_up (P ptr align : Nat) : Nat :=
  let mask := (align + uptr P - 1) % uptr P
  ((ptr + mask) % uptr P) &&& notptr P mask

/-- The function `ptr_align_down`: `ptr & ~(align - 1)`. -/
def ptr_align_down (P ptr align : Nat) : Nat :=
  (ptr % uptr P) &&& notptr P ((align + uptr P - 1) % uptr P)

/-! ## Constants (simpl.c 149-226) -/

def chunk_flag_free_mask : Nat := 0x1
def chunk_flag_prev_free_mask : Nat := 0x2
def chunk_flags_mask : Nat := 0x3

def simplc_fl_shift : Nat := 0x3
def simplc_sl_mask : Nat := 0x7
def get_fl_index (fi : Nat) : Nat := fi >>> simplc_fl_shift
def get_sl_index (fi : Nat) : Nat := fi &&& simplc_sl_mask
def get_freelist_index (fli sli : Nat) : Nat := ((fli <<< simplc_fl_shift) % u32) ||| sli

def simplc_bits_per_byte : Nat := 8
def simplc_4B_shift : Nat := 2
def simplc_4kB_shift : Nat := 12
def simplc_4MB_shift : Nat := 22
def simplc_4kB_size : Nat := 1 <<< simplc_4kB_shift
def simplc_4MB_size : Nat := 1 <<< simplc_4MB_shift
def simplc_max_flsize : Nat := 24
def simplc_max_freelists : Nat := simplc_max_flsize * simplc_bits_per_byte
def simplc_chunk_max_size : Nat := u32 - 1

/-- The value of `offsetof(struct simpl_chunk, size)`: the `phys_prev` pointer comes first. -/
def simplc_chunk_overlap_size (P : Nat) : Nat := P

/-- The value of `offsetof(struct simpl_chunk, payload)`: the 32-bit `size` is
padded to the alignment of the pointers of the union that follows. -/
def offsetof_payload (P : Nat) : Nat := 2 * P

/-- The value of `sizeof(struct simpl_chunk)`: `phys_prev`, `size` (padded), `free_prev`, `free_next`. -/
def sizeof_simpl_chunk (P : Nat) : Nat := 4 * P

/-- The value of `sizeof(struct simpl_pool)`: two `uint32_t` and two pointers. -/
def sizeof_simpl_pool (P : Nat) : Nat := 8 + 2 * P

def simplc_chunk_overhead (P : Nat) : Nat := offsetof_payload P - simplc_chunk_overlap_size P
def simplc_chunk_min_size (P : Nat) : Nat := sizeof_simpl_chunk P - simplc_chunk_overhead P

/-! ## Size adjustment and the class mapping (simpl.c 228-333) -/

/-- The function `adjust_alloc_size` (simpl.c 228-240). -/
def adjust_alloc_size (P alloc_size align : Nat) : Nat :=
  if alloc_size > simplc_chunk_max_size then 0
  else
    let adj_size := alloc_size % u32
    let adj_size := if adj_size < simplc_chunk_min_size P then simplc_chunk_min_size P else adj_size
    let adj_size := align_up P adj_size align % u32
    if adj_size < alloc_size then 0 else adj_size

/-- The function `mapping_size` (simpl.c 277-295): the lower bound of class `fi`. -/
def mapping_size (fi : Nat) : Nat :=
  let fli := get_fl_index fi
  let fli_local := if fli < 8 then fli else if fli < 16 then fli - 8 else fli - 16
  let size_shift := if fli < 8 then 0 else if fli < 16 then 10 else 20
  let size := if fli_local ≠ 0 then (32 <<< (fli_local - 1)) % u32 else 0
  let size := (size + get_sl_index fi * (if size ≠ 0 then size >>> 3 else 4)) % u32
  (size <<< size_shift) % u32

/-- The function `freelists_mapping` (simpl.c 302-327): the class of a size. -/
def freelists_mapping (size : Nat) : Nat :=
  let fli := if size < simplc_4kB_size then 0 else if size < simplc_4MB_size then 8 else 16
  let size :=
    if size < simplc_4kB_size then size >>> simplc_4B_shift
    else if size < simplc_4MB_size then size >>> simplc_4kB_shift
    else size >>> simplc_4MB_shift
  let ls := fls size
  if ls > 3 then
    get_freelist_index (fli + (ls - 3)) ((size >>> (ls - 4)) &&& simplc_sl_mask)
  else
    get_freelist_index fli (size &&& simplc_sl_mask)

/-- The function `size_roundup` (simpl.c 329-333). -/
def size_roundup (size : Nat) : Nat :=
  let fi := freelists_mapping size
  if size > mapping_size fi then mapping_size ((fi + 1) % u32) else size

/-! ## Memory and the pool record -/

/-- Chunk memory: one pointer-sized cell per (pointer-aligned) byte address. -/
abbrev Mem := Nat → Nat

/-- Load of a pointer. -/
def read_ptr (m : Mem) (a : Nat) : Nat := m a

/-- Store of a pointer. -/
def write_ptr (m : Mem) (a v : Nat) : Mem := fun x => if x = a then v else m x

/-- Load of a `uint32_t`: the low 32 bits of the cell (little-endian). -/
def read_u32 (m : Mem) (a : Nat) : Nat := m a % u32

/-- Store of a `uint32_t`: replaces the low 32 bits of the cell and keeps the rest
(the padding after `size` when pointers are wider than 32 bits). -/
def write_u32 (m : Mem) (a v : Nat) : Mem :=
  fun x => if x = a then (m a / u32) * u32 + v % u32 else m x

/-- The pool: the fields `available` and `fl_bitmap` of `struct simpl_pool`, the
contents of the tables its two pointer fields address, and the chunk region. -/
structure simpl_pool where
  available : Nat
  fl_bitmap : Nat
  sl_bitmaps : Nat → Nat
  freelists : Nat → Nat
  mem : Mem

/-- Difference of two addresses truncated to `uint32_t`, as in `(uint32_t)(end - p)`. -/
def sub32 (a b : Nat) : Nat := (a % u32 + u32 - b % u32) % u32

/-- Address of the field `size` of the chunk at `chunk`. -/
def size_addr (P chunk : Nat) : Nat := chunk + simplc_chunk_overlap_size P

/-- Address of the field `free_prev` (first word of the payload union). -/
def free_prev_addr (P chunk : Nat) : Nat := chunk + offsetof_payload P

/-- Address of the field `free_next` (second word of the payload union). -/
def free_next_addr (P chunk : Nat) : Nat := chunk + offsetof_payload P + P

def is_chunk_free (P : Nat) (m : Mem) (chunk : Nat) : Nat :=
  read_u32 m (size_addr P chunk) &&& chunk_flag_free_mask

def is_chunk_prev_free (P : Nat) (m : Mem) (chunk : Nat) : Nat :=
  read_u32 m (size_addr P chunk) &&& chunk_flag_prev_free_mask

def get_chunk_flags (P : Nat) (m : Mem) (chunk : Nat) : Nat :=
  read_u32 m (size_addr P chunk) &&& chunk_flags_mask

def get_chunk_size (P : Nat) (m : Mem) (chunk : Nat) : Nat :=
  read_u32 m (size_addr P chunk) &&& not32 chunk_flags_mask

/-! ## Chunk helpers (simpl.c 242-272) -/

def set_chunk_size (P : Nat) (m : Mem) (chunk size : Nat) : Mem :=
  write_u32 m (size_addr P chunk) (size ||| get_chunk_flags P m chunk)

def prev_phys_chunk (m : Mem) (chunk : Nat) : Nat := read_ptr m chunk

def next_phys_chunk (P : Nat) (m : Mem) (chunk : Nat) : Nat :=
  chunk + simplc_chunk_overhead P + get_chunk_size P m chunk

def set_chunk_free (P : Nat) (m : Mem) (chunk : Nat) : Mem :=
  let m1 := write_u32 m (size_addr P chunk) (read_u32 m (size_addr P chunk) ||| chunk_flag_free_mask)
  let next := next_phys_chunk P m1 chunk
  write_u32 m1 (size_addr P next) (read_u32 m1 (size_addr P next) ||| chunk_flag_prev_free_mask)

def set_chunk_used (P : Nat) (m : Mem) (chunk : Nat) : Mem :=
  let m1 := write_u32 m (size_addr P chunk)
    (read_u32 m (size_addr P chunk) &&& not32 chunk_flag_free_mask)
  let next := next_phys_chunk P m1 chunk
  write_u32 m1 (size_addr P next)
    (read_u32 m1 (size_addr P next) &&& not32 chunk_flag_prev_free_mask)

def get_chunk_payload (P chunk : Nat) : Nat := chunk + offsetof_payload P

/-- The macro `container_of(payload, struct simpl_chunk, payload)`, computed on `uintptr_t`. -/
def get_payload_chunk (P payload : Nat) : Nat :=
  (payload % uptr P + uptr P - offsetof_payload P) % uptr P

/-! ## Freelists and bitmaps (simpl.c 335-389) -/

def set_bitmap (pool : simpl_pool) (fi : Nat) : simpl_pool :=
  let fli := get_fl_index fi
  { pool with
    fl_bitmap := pool.fl_bitmap ||| ((1 <<< fli) % u32)
    sl_bitmaps := fun i =>
      if i = fli then (pool.sl_bitmaps fli ||| ((1 <<< get_sl_index fi) % u32)) % 256
      else pool.sl_bitmaps i }

/-- The function `push_free_chunk` (simpl.c 344-359). -/
def push_free_chunk (P : Nat) (pool : simpl_pool) (chunk : Nat) : simpl_pool :=
  let chunk_size := get_chunk_size P pool.mem chunk
  let fi := freelists_mapping chunk_size
  let head := pool.freelists fi
  let m1 := if head ≠ 0 then write_ptr pool.mem (free_prev_addr P head) chunk else pool.mem
  let m2 := write_ptr m1 (free_prev_addr P chunk) 0
  let m3 := write_ptr m2 (free_next_addr P chunk) head
  let pool1 := { pool with
    mem := m3
    freelists := fun i => if i = fi then chunk else pool.freelists i }
  let pool2 := set_bitmap pool1 fi
  { pool2 with available := (pool2.available + chunk_size) % u32 }

def clr_bitmap (pool : simpl_pool) (fi : Nat) : simpl_pool :=
  let fli := get_fl_index fi
  let sl := (pool.sl_bitmaps fli &&& not32 ((1 <<< get_sl_index fi) % u32)) % 256
  { pool with
    sl_bitmaps := fun i => if i = fli then sl else pool.sl_bitmaps i
    fl_bitmap := if sl = 0 then pool.fl_bitmap &&& not32 ((1 <<< fli) % u32) else pool.fl_bitmap }

/-- The function `pop_free_chunk` (simpl.c 371-389). -/
def pop_free_chunk (P : Nat) (pool : simpl_pool) (chunk : Nat) : simpl_pool :=
  let chunk_size := get_chunk_size P pool.mem chunk
  let fi := freelists_mapping chunk_size
  let prev := read_ptr pool.mem (free_prev_addr P chunk)
  let next := read_ptr pool.mem (free_next_addr P chunk)
  let pool1 :=
    if prev ≠ 0 then { pool with mem := write_ptr pool.mem (free_next_addr P prev) next }
    else { pool with freelists := fun i => if i = fi then next else pool.freelists i }
  let pool2 :=
    if next ≠ 0 then { pool1 with mem := write_ptr pool1.mem (free_prev_addr P next) prev }
    else clr_bitmap pool1 fi
  { pool2 with available := (pool2.available + u32 - chunk_size % u32) % u32 }

/-! ## Initialisation (simpl.c 391-437) -/

/-- The function `simpl_init` (simpl.c 391-437).  `old` is the content of the
buffer before the call; the result is the returned handle (`0` for `NULL`) and
the content afterwards.  The two pointer fields of the header, which the C code
stores before its size checks, are not part of the record. -/
def simpl_init (P : Nat) (old : simpl_pool) (buffer buffer_size : Nat) : Nat × simpl_pool :=
  let end_ := ptr_align_down P (buffer + buffer_size) P
  if buffer = 0 ∨ buffer_size = 0 ∨ buffer_size > simplc_chunk_max_size then (0, old)
  else
    let p := ptr_align_up P buffer P
    let pool := p
    let p := p + sizeof_simpl_pool P
    let est := (freelists_mapping (sub32 end_ p) + 1) % u32
    let sl_size := ((est + simplc_bits_per_byte - 1) % u32) / simplc_bits_per_byte
    let p := ptr_align_up P (p + sl_size) P
    let p := ptr_align_up P (p + (est * P) % u32) P
    if p > end_ then (0, old)
    else
      let size := sub32 end_ p
      if size < simplc_chunk_overhead P * 2 + simplc_chunk_min_size P then (0, old)
      else
        let chunk := p - simplc_chunk_overlap_size P
        let m1 := write_u32 old.mem (size_addr P chunk) (sub32 size (simplc_chunk_overhead P * 2))
        let m2 := write_u32 m1 (size_addr P (next_phys_chunk P m1 chunk)) 0
        let m3 := set_chunk_free P m2 chunk
        let pool0 : simpl_pool :=
          { available := 0
            fl_bitmap := 0
            sl_bitmaps := fun i => if i < sl_size then 0 else old.sl_bitmaps i
            freelists := fun i => if i < est then 0 else old.freelists i
            mem := m3 }
        (pool, push_free_chunk P pool0 chunk)

/-! ## Search, merge, trim (simpl.c 445-545) -/

/-- The function `search_freelists` (simpl.c 445-472); `0` means "not found". -/
def search_freelists (pool : simpl_pool) (size : Nat) : Nat :=
  let fi := freelists_mapping size
  let fli := get_fl_index fi
  let sli := get_sl_index fi
  let fs := ffs (pool.sl_bitmaps fli &&& ((not32 0 <<< sli) % u32))
  if fs ≠ 0 then get_freelist_index fli (fs - 1)
  else
    let fs := ffs (pool.fl_bitmap &&& ((not32 0 <<< (fli + 1)) % u32))
    if fs = 0 then 0
    else
      let fli := fs - 1
      let sli := (ffs (pool.sl_bitmaps fli) + u32 - 1) % u32
      get_freelist_index fli sli

/-- The function `merge_free_neighbor_chunk` (simpl.c 478-508): the merged chunk and the new pool. -/
def merge_free_neighbor_chunk (P : Nat) (pool : simpl_pool) (chunk : Nat) : Nat × simpl_pool :=
  let r1 : Nat × simpl_pool :=
    if is_chunk_prev_free P pool.mem chunk ≠ 0 then
      let neighbor := prev_phys_chunk pool.mem chunk
      let pool1 := pop_free_chunk P pool neighbor
      let m1 := write_ptr pool1.mem (next_phys_chunk P pool1.mem chunk) neighbor
      let chunk_size :=
        (get_chunk_size P m1 neighbor + simplc_chunk_overhead P + get_chunk_size P m1 chunk) % u32
      (neighbor, { pool1 with mem := set_chunk_size P m1 neighbor chunk_size })
    else (chunk, pool)
  let chunk := r1.1
  let pool := r1.2
  let neighbor := next_phys_chunk P pool.mem chunk
  if is_chunk_free P pool.mem neighbor ≠ 0 then
    let pool1 := pop_free_chunk P pool neighbor
    let m1 := write_ptr pool1.mem (next_phys_chunk P pool1.mem neighbor) chunk
    let chunk_size :=
      (get_chunk_size P m1 chunk + simplc_chunk_overhead P + get_chunk_size P m1 neighbor) % u32
    (chunk, { pool1 with mem := set_chunk_size P m1 chunk chunk_size })
  else (chunk, pool)

/-- The function `trim_chunk_to_use` (simpl.c 517-545): the chunk to use and the new pool. -/
def trim_chunk_to_use (P : Nat) (pool : simpl_pool) (chunk trim_size : Nat) : Nat × simpl_pool :=
  let chunk_size := get_chunk_size P pool.mem chunk
  let remain := sub32 chunk_size trim_size
  if remain ≥ simplc_chunk_overhead P + simplc_chunk_min_size P then
    let chunk_size := sub32 chunk_size remain
    let m1 := set_chunk_size P pool.mem chunk chunk_size
    let trim := next_phys_chunk P m1 chunk
    let m2 := write_u32 m1 (size_addr P trim) (sub32 remain (simplc_chunk_overhead P))
    let m3 := write_ptr m2 (next_phys_chunk P m2 trim) trim
    let m4 := set_chunk_used P m3 chunk
    let m5 := set_chunk_free P m4 trim
    let r := merge_free_neighbor_chunk P { pool with mem := m5 } trim
    (chunk, push_free_chunk P r.2 r.1)
  else
    (chunk, { pool with mem := set_chunk_used P pool.mem chunk })

/-! ## Public operations (simpl.c 547-584, 646-688) -/

/-- The function `simpl_malloc` (simpl.c 547-568): the returned payload (`0` for `NULL`) and the new pool. -/
def simpl_malloc (P simp : Nat) (pool : simpl_pool) (alloc_size : Nat) : Nat × simpl_pool :=
  if simp = 0 ∨ alloc_size = 0 then (0, pool)
  else
    let adj_size := adjust_alloc_size P alloc_size P
    if adj_size = 0 ∨ adj_size > pool.available then (0, pool)
    else
      let adj_size := size_roundup adj_size
      let fi := search_freelists pool adj_size
      if fi = 0 then (0, pool)
      else
        let chunk := pool.freelists fi
        let pool1 := pop_free_chunk P pool chunk
        let r := trim_chunk_to_use P pool1 chunk adj_size
        (get_chunk_payload P r.1, r.2)

/-- The function `simpl_free` (simpl.c 570-584). -/
def simpl_free (P simp : Nat) (pool : simpl_pool) (simple : Nat) : simpl_pool :=
  if simp = 0 ∨ simple = 0 then pool
  else
    let chunk := get_payload_chunk P simple
    let m1 := set_chunk_free P pool.mem chunk
    let m2 := write_ptr m1 (next_phys_chunk P m1 chunk) chunk
    let r := merge_free_neighbor_chunk P { pool with mem := m2 } chunk
    push_free_chunk P r.2 r.1

/-- The function `simpl_memalign` (simpl.c 646-688): the returned payload (`0` for `NULL`) and the new pool. -/
def simpl_memalign (P simp : Nat) (pool : simpl_pool) (align alloc_size : Nat) : Nat × simpl_pool :=
  let align := if align < P then P else align
  let mask := (align + uptr P - 1) % uptr P
  if simp = 0 ∨ alloc_size = 0 ∨ align &&& mask ≠ 0 ∨ alloc_size &&& mask ≠ 0 then (0, pool)
  else
    let adj_size := adjust_alloc_size P alloc_size align
    if adj_size = 0 ∨ adj_size > pool.available then (0, pool)
    else
      let adj_size := size_roundup adj_size
      let fi := search_freelists pool ((simplc_chunk_min_size P + align % u32 + adj_size) % u32)
      if fi = 0 then (0, pool)
      else
        let chunk := pool.freelists fi
        let pool1 := pop_free_chunk P pool chunk
        let chunk_size := get_chunk_size P pool1.mem chunk
        let p := get_chunk_payload P chunk
        let q := ptr_align_up P p align
        let aligned_chunk := get_payload_chunk P q
        let pool2 : simpl_pool :=
          if q = p then { pool1 with mem := set_chunk_size P pool1.mem aligned_chunk chunk_size }
          else
            let size := sub32 (sub32 q p) (simplc_chunk_overhead P)
            let m1 := set_chunk_size P pool1.mem chunk size
            let m2 := set_chunk_free P m1 chunk
            let pool3 := push_free_chunk P { pool1 with mem := m2 } chunk
            let m3 := write_ptr pool3.mem aligned_chunk chunk
            let m4 := set_chunk_size P m3 aligned_chunk
              (sub32 (sub32 chunk_size size) (simplc_chunk_overhead P))
            { pool3 with mem := m4 }
        let r := trim_chunk_to_use P pool2 aligned_chunk adj_size
        (get_chunk_payload P r.1, r.2)

/-! ## Reallocation (simpl.c 586-644) -/

/-- The library function `memmove` on the chunk region: the `n` bytes starting at
`src` are read before any of them is stored at `dst`. -/
def memmove (m : Mem) (dst src n : Nat) : Mem :=
  fun x => if dst ≤ x ∧ x < dst + n then m (src + (x - dst)) else m x

/-- The library function `memcpy` (the regions the source passes do not overlap). -/
def memcpy (m : Mem) (dst src n : Nat) : Mem := memmove m dst src n

/-- The function `simpl_realloc` (simpl.c 586-644): the returned payload (`0` for `NULL`) and the new pool. -/
def simpl_realloc (P simp : Nat) (pool : simpl_pool) (simple realloc_size : Nat) :
    Nat × simpl_pool :=
  if simple = 0 then simpl_malloc P simp pool realloc_size
  else if simp = 0 ∨ realloc_size = 0 then (0, pool)
  else
    let adj_size := adjust_alloc_size P realloc_size P
    if adj_size = 0 then (0, pool)
    else
      let adj_size := size_roundup adj_size
      let chunk := get_payload_chunk P simple
      let chunk_size := get_chunk_size P pool.mem chunk
      if adj_size ≤ chunk_size then
        let r := trim_chunk_to_use P pool chunk adj_size
        (get_chunk_payload P r.1, r.2)
      else
        let next := next_phys_chunk P pool.mem chunk
        let chunk_size1 :=
          if is_chunk_free P pool.mem next ≠ 0 then
            (chunk_size + simplc_chunk_overhead P + get_chunk_size P pool.mem next) % u32
          else chunk_size
        if is_chunk_free P pool.mem next ≠ 0 ∧ adj_size ≤ chunk_size1 then
          let pool1 := pop_free_chunk P pool next
          let pool2 := { pool1 with mem := set_chunk_size P pool1.mem chunk chunk_size1 }
          let r := trim_chunk_to_use P pool2 chunk adj_size
          (get_chunk_payload P r.1, r.2)
        else
          let prev := prev_phys_chunk pool.mem chunk
          let chunk_size2 :=
            (chunk_size1 + get_chunk_size P pool.mem prev + simplc_chunk_overhead P) % u32
          if is_chunk_prev_free P pool.mem chunk ≠ 0 ∧ adj_size ≤ chunk_size2 then
            let pool1 := pop_free_chunk P pool prev
            let pool2 :=
              if is_chunk_free P pool1.mem next ≠ 0 then pop_free_chunk P pool1 next else pool1
            let m1 := set_chunk_size P pool2.mem prev chunk_size2
            let m2 := memmove m1 (get_chunk_payload P prev) (get_chunk_payload P chunk)
              (get_chunk_size P m1 chunk)
            let r := trim_chunk_to_use P { pool2 with mem := m2 } prev adj_size
            (get_chunk_payload P r.1, r.2)
          else
            let r := simpl_malloc P simp pool adj_size
            if r.1 ≠ 0 then
              let m := memcpy r.2.mem r.1 simple (get_chunk_size P r.2.mem chunk)
              (r.1, simpl_free P simp { r.2 with mem := m } simple)
            else (r.1, r.2)

/-! ## Free lists as lists of chunks -/

/-- The chunks of a free list: read from `head` along `free_next` until a null
link, or until `fuel` chunks have been read. -/
def freelist_walk (P : Nat) (m : Mem) : Nat → Nat → List Nat
  | 0, _ => []
  | fuel + 1, head =>
    if head = 0 then []
    else head :: freelist_walk P m fuel (read_ptr m (free_next_addr P head))

/-- The `free_prev` link of every chunk of the list is the chunk before it, and
`prev` for the first one. -/
def back_linked (P : Nat) (m : Mem) : Nat → List Nat → Bool
  | _, [] => true
  | prev, x :: xs => decide (read_ptr m (free_prev_addr P x) = prev) && back_linked P m x xs

/-- The chunk headers (four pointer-sized cells each) at `x` and at `y` do not overlap. -/
def apart (P x y : Nat) : Prop := x + sizeof_simpl_chunk P ≤ y ∨ y + sizeof_simpl_chunk P ≤ x

instance (P x y : Nat) : Decidable (apart P x y) := by
  unfold apart
  exact inferInstance

/-- The chunk header at `x` lies before the address `lo` or from the address `hi` on. -/
def outside (P x lo hi : Nat) : Prop := x + sizeof_simpl_chunk P ≤ lo ∨ hi ≤ x

instance (P x lo hi : Nat) : Decidable (outside P x lo hi) := by
  unfold outside
  exact inferInstance

/-! ## Concrete pools -/

/-- A buffer whose bytes are all zero before `simpl_init`. -/
def zero_pool : simpl_pool :=
  { available := 0, fl_bitmap := 0, sl_bitmaps := fun _ => 0, freelists := fun _ => 0,
    mem := fun _ => 0 }

/-- The physical chain: walks from `chunk` by `next_phys_chunk` until the address
`tail` of the tail marker is reached or passed, and sums the sizes of the chunks
whose F flag is set.  `none` when more than `fuel` chunks are met before `tail`. -/
def free_bytes (P : Nat) (m : Mem) : Nat → Nat → Nat → Option Nat
  | 0, _, _ => none
  | fuel + 1, chunk, tail =>
    if chunk ≥ tail then some 0
    else
      (free_bytes P m fuel (next_phys_chunk P m chunk) tail).map
        (fun rest => (if is_chunk_free P m chunk ≠ 0 then get_chunk_size P m chunk else 0) + rest)

/-- An LP64 target; a zeroed buffer of 8 KiB at address 4096, initialised. -/
def pool_8k : Nat × simpl_pool := simpl_init 8 zero_pool 4096 8192

/-- The first chunk of `pool_8k`: after `simpl_init` it is the only free chunk. -/
def pool_8k_first : Nat := pool_8k.2.freelists (freelists_mapping pool_8k.2.available)

/-- The tail marker of `pool_8k`. -/
def pool_8k_tail : Nat := next_phys_chunk 8 pool_8k.2.mem pool_8k_first

/-- The call `p = simpl_malloc(pool, 4000)` on `pool_8k`. -/
def pool_8k_malloc : Nat × simpl_pool := simpl_malloc 8 pool_8k.1 pool_8k.2 4000

/-- The call `simpl_free(pool, p)` after `pool_8k_malloc`. -/
def pool_8k_free : simpl_pool := simpl_free 8 pool_8k.1 pool_8k_malloc.2 pool_8k_malloc.1

/-- An LP64 target; a zeroed buffer of 64 KiB at address 4096, initialised. -/
def pool_64k : Nat × simpl_pool := simpl_init 8 zero_pool 4096 65536

/-- The first chunk of `pool_64k`. -/
def pool_64k_first : Nat := pool_64k.2.freelists (freelists_mapping pool_64k.2.available)

/-- Five calls `simpl_malloc(pool, 64)` on `pool_64k`: the payloads A, B, C, D, E
(in this order) and the pool after the fifth. -/
def five_blocks : List Nat × simpl_pool :=
  let a := simpl_malloc 8 pool_64k.1 pool_64k.2 64
  let b := simpl_malloc 8 pool_64k.1 a.2 64
  let c := simpl_malloc 8 pool_64k.1 b.2 64
  let d := simpl_malloc 8 pool_64k.1 c.2 64
  let e := simpl_malloc 8 pool_64k.1 d.2 64
  ([a.1, b.1, c.1, d.1, e.1], e.2)

/-- After `five_blocks`: `simpl_free` of B, then of D, then of A. -/
def five_blocks_free_BDA : simpl_pool :=
  let s1 := simpl_free 8 pool_64k.1 five_blocks.2 (five_blocks.1.getD 1 0)
  let s2 := simpl_free 8 pool_64k.1 s1 (five_blocks.1.getD 3 0)
  simpl_free 8 pool_64k.1 s2 (five_blocks.1.getD 0 0)

/-- The call `q = simpl_memalign(pool, 32, 32)` on `pool_64k`. -/
def pool_64k_memalign : Nat × simpl_pool := simpl_memalign 8 pool_64k.1 pool_64k.2 32 32

/-- The call `simpl_free(pool, q)` after `pool_64k_memalign`. -/
def pool_64k_memalign_free : simpl_pool :=
  simpl_free 8 pool_64k.1 pool_64k_memalign.2 pool_64k_memalign.1

/-- An LP64 target; a zeroed buffer of 64 KiB at address 4104, initialised. -/
def pool_4104 : Nat × simpl_pool := simpl_init 8 zero_pool 4104 65536

/-- The call `simpl_memalign(pool, 16, 16)` on `pool_4104`. -/
def pool_4104_memalign : Nat × simpl_pool := simpl_memalign 8 pool_4104.1 pool_4104.2 16 16

/-- An LP64 target; a zeroed buffer of 62144 bytes at address 4144, initialised:
one free chunk of 61448 bytes whose payload starts at 4832. -/
def pool_4144 : Nat × simpl_pool := simpl_init 8 zero_pool 4144 62144

/-- The size `simpl_memalign(pool, 64, 61440)` keeps for the payload:
`size_roundup(adjust_alloc_size(61440, 64))`. -/
def pool_4144_adj : Nat := size_roundup (adjust_alloc_size 8 61440 64)

/-- The chunk `simpl_memalign(pool, 64, 61440)` pops on `pool_4144`. -/
def pool_4144_popped : Nat :=
  pool_4144.2.freelists
    (search_freelists pool_4144.2 ((simplc_chunk_min_size 8 + 64 % u32 + pool_4144_adj) % u32))

/-- The call `simpl_memalign(pool, 64, 61440)` on `pool_4144`. -/
def pool_4144_memalign : Nat × simpl_pool := simpl_memalign 8 pool_4144.1 pool_4144.2 64 61440

/-- An LP64 target; a zeroed buffer of 504 bytes at address 4096, initialised:
one free chunk of 136 bytes. -/
def pool_504 : Nat × simpl_pool := simpl_init 8 zero_pool 4096 504

/-- The call `p = simpl_malloc(pool, 112)` on `pool_504`: the whole chunk is handed out. -/
def pool_504_malloc : Nat × simpl_pool := simpl_malloc 8 pool_504.1 pool_504.2 112

/-- The call `simpl_realloc(pool, p, 130)` after `pool_504_malloc`. -/
def pool_504_realloc : Nat × simpl_pool :=
  simpl_realloc 8 pool_504.1 pool_504_malloc.2 pool_504_malloc.1 130

/-- The call `p = simpl_malloc(pool, 4096)` on `pool_64k`. -/
def pool_64k_malloc_4096 : Nat × simpl_pool := simpl_malloc 8 pool_64k.1 pool_64k.2 4096

/-- After `pool_64k_malloc_4096` the caller stores three 8-byte words at `p`, `p + 8`, `p + 16`. -/
def pool_64k_filled : simpl_pool :=
  { pool_64k_malloc_4096.2 with
    mem := write_ptr (write_ptr (write_ptr pool_64k_malloc_4096.2.mem
      pool_64k_malloc_4096.1 0x1111111111111111)
      (pool_64k_malloc_4096.1 + 8) 0x2222222222222222)
      (pool_64k_malloc_4096.1 + 16) 0x3333333333333333 }

/-- The call `simpl_realloc(pool, p, 4000)` after `pool_64k_filled`. -/
def pool_64k_realloc_4000 : Nat × simpl_pool :=
  simpl_realloc 8 pool_64k.1 pool_64k_filled pool_64k_malloc_4096.1 4000

/-- The call `p = simpl_malloc(pool, 64)` on `pool_64k`. -/
def pool_64k_malloc_64 : Nat × simpl_pool := simpl_malloc 8 pool_64k.1 pool_64k.2 64

/-- The call `simpl_realloc(pool, p, 4100000000)` after `pool_64k_malloc_64`. -/
def pool_64k_realloc_huge : Nat × simpl_pool :=
  simpl_realloc 8 pool_64k.1 pool_64k_malloc_64.2 pool_64k_malloc_64.1 4100000000

/-- Six calls of `simpl_malloc` on `pool_64k`, of 64, 64, 256, 64, 256 and 64
bytes: the payloads A to F and the pool after the sixth. -/
def six_blocks : List Nat × simpl_pool :=
  let a := simpl_malloc 8 pool_64k.1 pool_64k.2 64
  let b := simpl_malloc 8 pool_64k.1 a.2 64
  let c := simpl_malloc 8 pool_64k.1 b.2 256
  let d := simpl_malloc 8 pool_64k.1 c.2 64
  let e := simpl_malloc 8 pool_64k.1 d.2 256
  let f := simpl_malloc 8 pool_64k.1 e.2 64
  ([a.1, b.1, c.1, d.1, e.1, f.1], f.2)

/-- After `six_blocks`: `simpl_free` of C, then of E. -/
def six_blocks_free_CE : simpl_pool :=
  let s1 := simpl_free 8 pool_64k.1 six_blocks.2 (six_blocks.1.getD 2 0)
  simpl_free 8 pool_64k.1 s1 (six_blocks.1.getD 4 0)

/-- After `five_blocks`: `simpl_free` of A, then of C. -/
def five_blocks_free_AC : simpl_pool :=
  let s1 := simpl_free 8 pool_64k.1 five_blocks.2 (five_blocks.1.getD 0 0)
  simpl_free 8 pool_64k.1 s1 (five_blocks.1.getD 2 0)

/-- After `pool_8k_malloc`: the caller stores the word `0xFFFFFFFFFFFFFFFF` at `p`,
the first 8 of the 4000 bytes it asked for. -/
def pool_8k_malloc_stored : simpl_pool :=
  { pool_8k_malloc.2 with
    mem := write_ptr pool_8k_malloc.2.mem pool_8k_malloc.1 0xFFFFFFFFFFFFFFFF }

/-- The number `est` of freelist heads that `simpl_init` reserves (simpl.c 399-407). -/
def init_est (P buffer buffer_size : Nat) : Nat :=
  let end_ := ptr_align_down P (buffer + buffer_size) P
  let p := ptr_align_up P buffer P + sizeof_simpl_pool P
  (freelists_mapping (sub32 end_ p) + 1) % u32

/-- The number `sl_size` of second-level bitmap bytes that `simpl_init` reserves (simpl.c 408). -/
def init_sl_size (P buffer buffer_size : Nat) : Nat :=
  ((init_est P buffer buffer_size + simplc_bits_per_byte - 1) % u32) / simplc_bits_per_byte

/-- Specification side: the least multiple of `a` that is at least `v` (for `a > 0`). -/
def least_multiple (a v : Nat) : Nat := (v + a - 1) / a * a

/-- Specification side: the address just after the pool header and the two tables,
which is the address of the size word of the first chunk.  The tables have
`est = freelists_mapping(extent) + 1` heads and `ceil(est / 8)` bitmap bytes,
`extent` being the distance from the end of the header to the pointer-aligned
buffer end. -/
def init_region_start (P buffer buffer_size : Nat) : Nat :=
  let end_ := (buffer + buffer_size) / P * P
  let p := least_multiple P buffer + sizeof_simpl_pool P
  let est := freelists_mapping (end_ - p) + 1
  let sl_size := (est + 7) / 8
  least_multiple P (p + sl_size) + est * P

/-- Specification side: the number of bytes between `init_region_start` and the
pointer-aligned buffer end, 0 when the header and the tables do not fit. -/
def init_region (P buffer buffer_size : Nat) : Nat :=
  (buffer + buffer_size) / P * P - init_region_start P buffer buffer_size

/-! ## Store footprint of `simpl_init` and table reads of `simpl_malloc` -/

/-- The value of `offsetof(struct simpl_pool, fl_bitmap)`. -/
def offsetof_fl_bitmap : Nat := 4

/-- The value of `offsetof(struct simpl_pool, sl_bitmaps)`. -/
def offsetof_sl_bitmaps : Nat := 8

/-- The value of `offsetof(struct simpl_pool, freelists)`. -/
def offsetof_freelists (P : Nat) : Nat := 8 + P

/-- The byte ranges (address, length) stored to by `set_chunk_free` (simpl.c 255-258). -/
def set_chunk_free_stores (P : Nat) (m : Mem) (chunk : Nat) : List (Nat × Nat) :=
  let m1 := write_u32 m (size_addr P chunk) (read_u32 m (size_addr P chunk) ||| chunk_flag_free_mask)
  let next := next_phys_chunk P m1 chunk
  [(size_addr P chunk, 4), (size_addr P next, 4)]

/-- The byte ranges stored to by `set_bitmap` (simpl.c 335-339), for the pool header at
`simp` whose field `sl_bitmaps` holds the address `slb`. -/
def set_bitmap_stores (simp slb fi : Nat) : List (Nat × Nat) :=
  let fli := get_fl_index fi
  [(simp + offsetof_fl_bitmap, 4), (slb + fli, 1)]

/-- The byte ranges stored to by `push_free_chunk` (simpl.c 344-359), for the pool header
at `simp` whose fields `sl_bitmaps` and `freelists` hold the addresses `slb` and `fls`. -/
def push_free_chunk_stores (P simp slb fls : Nat) (pool : simpl_pool) (chunk : Nat) :
    List (Nat × Nat) :=
  let chunk_size := get_chunk_size P pool.mem chunk
  let fi := freelists_mapping chunk_size
  let head := pool.freelists fi
  (if head ≠ 0 then [(free_prev_addr P head, P)] else []) ++
    [(free_prev_addr P chunk, P), (free_next_addr P chunk, P), (fls + fi * P, P)] ++
    set_bitmap_stores simp slb fi ++ [(simp, 4)]

/-- The byte ranges (address, length) stored to by `simpl_init` (simpl.c 391-437), in
program order. -/
def simpl_init_stores (P : Nat) (old : simpl_pool) (buffer buffer_size : Nat) :
    List (Nat × Nat) :=
  let end_ := ptr_align_down P (buffer + buffer_size) P
  if buffer = 0 ∨ buffer_size = 0 ∨ buffer_size > simplc_chunk_max_size then []
  else
    let p := ptr_align_up P buffer P
    let pool := p
    let p := p + sizeof_simpl_pool P
    let slb := p
    let s1 := [(pool + offsetof_sl_bitmaps, P)]
    let est := (freelists_mapping (sub32 end_ p) + 1) % u32
    let sl_size := ((est + simplc_bits_per_byte - 1) % u32) / simplc_bits_per_byte
    let p := ptr_align_up P (p + sl_size) P
    let fls := p
    let s2 := s1 ++ [(pool + offsetof_freelists P, P)]
    let p := ptr_align_up P (p + (est * P) % u32) P
    if p > end_ then s2
    else
      let size := sub32 end_ p
      if size < simplc_chunk_overhead P * 2 + simplc_chunk_min_size P then s2
      else
        let s3 := s2 ++ [(pool, 4), (pool + offsetof_fl_bitmap, 4)] ++
          (List.range sl_size).map (fun i => (slb + i, 1)) ++
          (List.range est).map (fun i => (fls + i * P, P))
        let chunk := p - simplc_chunk_overlap_size P
        let m1 := write_u32 old.mem (size_addr P chunk) (sub32 size (simplc_chunk_overhead P * 2))
        let m2 := write_u32 m1 (size_addr P (next_phys_chunk P m1 chunk)) 0
        let m3 := set_chunk_free P m2 chunk
        let pool0 : simpl_pool :=
          { available := 0
            fl_bitmap := 0
            sl_bitmaps := fun i => if i < sl_size then 0 else old.sl_bitmaps i
            freelists := fun i => if i < est then 0 else old.freelists i
            mem := m3 }
        s3 ++ [(size_addr P chunk, 4), (size_addr P (next_phys_chunk P m1 chunk), 4)] ++
          set_chunk_free_stores P m2 chunk ++ push_free_chunk_stores P pool slb fls pool0 chunk

/-- The indices at which `search_freelists` (simpl.c 445-472) reads `pool->sl_bitmaps[]`,
in program order. -/
def search_freelists_sl_reads (pool : simpl_pool) (size : Nat) : List Nat :=
  let fi := freelists_mapping size
  let fli := get_fl_index fi
  let sli := get_sl_index fi
  let fs := ffs (pool.sl_bitmaps fli &&& ((not32 0 <<< sli) % u32))
  if fs ≠ 0 then [fli]
  else
    let fs := ffs (pool.fl_bitmap &&& ((not32 0 <<< (fli + 1)) % u32))
    if fs = 0 then [fli]
    else [fli, fs - 1]

/-- The indices at which `simpl_malloc` (simpl.c 547-568) reads `pool->sl_bitmaps[]`
through `search_freelists`. -/
def simpl_malloc_sl_reads (P simp : Nat) (pool : simpl_pool) (alloc_size : Nat) : List Nat :=
  if simp = 0 ∨ alloc_size = 0 then []
  else
    let adj_size := adjust_alloc_size P alloc_size P
    if adj_size = 0 ∨ adj_size > pool.available then []
    else
      let adj_size := size_roundup adj_size
      search_freelists_sl_reads pool adj_size

/-- The indices at which `simpl_malloc` (simpl.c 547-568) reads `pool->freelists[]` with
the result of `search_freelists`. -/
def simpl_malloc_freelists_reads (P simp : Nat) (pool : simpl_pool) (alloc_size : Nat) :
    List Nat :=
  if simp = 0 ∨ alloc_size = 0 then []
  else
    let adj_size := adjust_alloc_size P alloc_size P
    if adj_size = 0 ∨ adj_size > pool.available then []
    else
      let adj_size := size_roundup adj_size
      let fi := search_freelists pool adj_size
      if fi = 0 then [] else [fi]

/-- The pool `pool_64k` with one stale byte behind its `sl_bitmaps` table: the byte
`sl_bitmaps[10]` is padding that `simpl_init` does not write. -/
def pool_64k_stale : simpl_pool :=
  (simpl_init 8 { zero_pool with sl_bitmaps := fun i => if i = 10 then 1 else 0 } 4096 65536).2

/-- The lists `Ls i` are the free lists of the classes `i < K`: each is what the walk
from `freelists[i]` reads before a null link, has no repetition, is back-linked from
null, and holds only chunks whose size is of class `i`; and the headers of two
different chunks of these lists do not overlap. -/
def lists_ok (P : Nat) (pool : simpl_pool) (fuel K : Nat) (Ls : Nat → List Nat) : Prop :=
  (∀ i, i < K →
    freelist_walk P pool.mem fuel (pool.freelists i) = Ls i ∧ (Ls i).length < fuel ∧
    (Ls i).Nodup ∧ back_linked P pool.mem 0 (Ls i) = true ∧
    ∀ y ∈ Ls i, freelists_mapping (get_chunk_size P pool.mem y) = i) ∧
  ∀ i, i < K → ∀ j, j < K → ∀ y ∈ Ls i, ∀ z ∈ Ls j, y = z ∨ apart P y z

instance (P : Nat) (pool : simpl_pool) (fuel K : Nat) (Ls : Nat → List Nat) :
    Decidable (lists_ok P pool fuel K Ls) := by
  unfold lists_ok
  exact inferInstance

/-- The state in which `simpl_free(pool, B)` calls `merge_free_neighbor_chunk`, after
`five_blocks_free_AC`: the chunk of B has its F flag set and is the `phys_prev` of its
successor (simpl.c 578-580). -/
def five_blocks_freeing_B : Nat × simpl_pool :=
  let chunk := get_payload_chunk 8 (five_blocks.1.getD 1 0)
  let m1 := set_chunk_free 8 five_blocks_free_AC.mem chunk
  let m2 := write_ptr m1 (next_phys_chunk 8 m1 chunk) chunk
  (chunk, { five_blocks_free_AC with mem := m2 })

set_option maxRecDepth 1000000

/-! ## Alignment of `simpl_memalign` results -/

theorem trim_chunk_to_use_fst (P : Nat) (pool : simpl_pool) (chunk trim_size : Nat) :
    (trim_chunk_to_use P pool chunk trim_size).1 = chunk := by
  unfold trim_chunk_to_use
  simp only []
  split <;> rfl

theorem align_mask_eq (U a : Nat) (h1 : 1 ≤ a) (h2 : a < U) : (a + U - 1) % U = a - 1 := by
  have h : a + U - 1 = (a - 1) + U := by omega
  rw [h, Nat.add_mod_right, Nat.mod_eq_of_lt (by omega)]

theorem land_notptr_mod (P k x : Nat) (hk : k ≤ 8 * P) :
    (x &&& notptr P (2 ^ k - 1)) % 2 ^ k = 0 := by
  have hlt : 2 ^ k - 1 < 2 ^ (8 * P) := by
    have h1 : 2 ^ k ≤ 2 ^ (8 * P) := Nat.pow_le_pow_right (by decide) hk
    have h2 : 0 < 2 ^ k := Nat.two_pow_pos _
    omega
  apply Nat.eq_of_testBit_eq
  intro i
  simp only [Nat.testBit_mod_two_pow, Nat.testBit_and, notptr, uptr, Nat.mod_eq_of_lt hlt,
    Nat.testBit_xor, Nat.testBit_two_pow_sub_one, Nat.zero_testBit]
  by_cases hi : i < k
  · have hi2 : i < 8 * P := lt_of_lt_of_le hi hk
    simp [hi, hi2]
  · simp [hi]

theorem ptr_align_up_mod (P k ptr : Nat) (hk : 2 ^ k < uptr P) :
    ptr_align_up P ptr (2 ^ k) % 2 ^ k = 0 := by
  have hk2 : k ≤ 8 * P := by
    by_contra hcon
    have : 2 ^ (8 * P) ≤ 2 ^ k := Nat.pow_le_pow_right (by decide) (by omega)
    unfold uptr at hk
    omega
  unfold ptr_align_up
  simp only []
  rw [align_mask_eq (uptr P) (2 ^ k) (Nat.two_pow_pos _) hk]
  exact land_notptr_mod P k _ hk2

theorem ptr_align_up_lt (P ptr align : Nat) : ptr_align_up P ptr align < uptr P := by
  unfold ptr_align_up
  simp only []
  exact lt_of_le_of_lt Nat.and_le_left (Nat.mod_lt _ (Nat.two_pow_pos _))

theorem payload_roundtrip_mod (P q a : Nat) (hq : q < uptr P) (ha : a ∣ uptr P)
    (hP : offsetof_payload P ≤ uptr P) :
    get_chunk_payload P (get_payload_chunk P q) % a = q % a := by
  unfold get_chunk_payload get_payload_chunk
  rw [Nat.mod_eq_of_lt hq]
  by_cases h : offsetof_payload P ≤ q
  · have e : q + uptr P - offsetof_payload P = (q - offsetof_payload P) + uptr P := by omega
    have hlt : q - offsetof_payload P < uptr P := by omega
    rw [e, Nat.add_mod_right, Nat.mod_eq_of_lt hlt]
    congr 1
    omega
  · have hlt : q + uptr P - offsetof_payload P < uptr P := by omega
    rw [Nat.mod_eq_of_lt hlt]
    have e : q + uptr P - offsetof_payload P + offsetof_payload P = q + uptr P := by omega
    rw [e]
    obtain ⟨c, hc⟩ := ha
    rw [hc, Nat.add_mul_mod_self_left]

/-- C10: on a target with 4- or 8-byte pointers, for every pool state, every
`align` that is a power of two (and a `size_t` value) and every `n`, a non-null
result of `simpl_memalign(pool, align, n)` is a multiple of `max(align, pointer size)`. -/
theorem simpl_memalign_aligned (P : Nat) (hP : P = 4 ∨ P = 8) (simp : Nat) (pool : simpl_pool)
    (align n k : Nat) (hpow : align = 2 ^ k) (hsz : align < uptr P)
    (hq : (simpl_memalign P simp pool align n).1 ≠ 0) :
    (simpl_memalign P simp pool align n).1 % max align P = 0 := by
  -- the alignment the function works with is a power of two below the word size
  obtain ⟨j, hj, hjlt⟩ : ∃ j, max align P = 2 ^ j ∧ 2 ^ j < uptr P := by
    rcases Nat.lt_or_ge align P with h | h
    · rcases hP with rfl | rfl
      · exact ⟨2, by rw [Nat.max_eq_right (le_of_lt h)]; norm_num, by unfold uptr; norm_num⟩
      · exact ⟨3, by rw [Nat.max_eq_right (le_of_lt h)]; norm_num, by unfold uptr; norm_num⟩
    · exact ⟨k, by rw [Nat.max_eq_left h, hpow], by rw [← hpow]; exact hsz⟩
  have halign : (if align < P then P else align) = 2 ^ j := by
    rw [← hj]
    rcases Nat.lt_or_ge align P with h | h
    · rw [if_pos h, Nat.max_eq_right (le_of_lt h)]
    · rw [if_neg (by omega), Nat.max_eq_left h]
  have hdvd : 2 ^ j ∣ uptr P := by
    unfold uptr
    apply Nat.pow_dvd_pow
    by_contra hcon
    have : 2 ^ (8 * P) ≤ 2 ^ j := Nat.pow_le_pow_right (by decide) (by omega)
    unfold uptr at hjlt
    omega
  have hoff : offsetof_payload P ≤ uptr P := by
    rcases hP with rfl | rfl <;> (unfold offsetof_payload uptr; norm_num)
  rw [hj]
  unfold simpl_memalign at hq ⊢
  simp only [halign] at hq ⊢
  split
  · rfl
  · split
    · rfl
    · split
      · rfl
      · simp only [trim_chunk_to_use_fst]
        rw [payload_roundtrip_mod P _ (2 ^ j) (ptr_align_up_lt P _ _) hdvd hoff]
        exact ptr_align_up_mod P j _ hjlt

/-- Witness of C10 (the test of `simpl-unit-test-memalign.c`): on `pool_64k`,
`simpl_memalign(pool, 1024, 4096)` is non-null and a multiple of 1024. -/
theorem simpl_memalign_aligned_witness :
    (simpl_memalign 8 pool_64k.1 pool_64k.2 1024 4096).1 ≠ 0 ∧
      (simpl_memalign 8 pool_64k.1 pool_64k.2 1024 4096).1 % max 1024 8 = 0 :=
  ⟨by decide,
    simpl_memalign_aligned 8 (Or.inr rfl) pool_64k.1 pool_64k.2 1024 4096 10 (by decide)
      (by decide) (by decide)⟩

/-! ## The round-up at the scale boundaries -/

/-- C2, evaluated: `size_roundup` returns 0 for a size in the last class of a
scale (4000 below 4 KiB, 4000000 below 4 MiB, 4100000000 below 4 GiB), so the
result is below the size, and a 24-byte chunk is in a class at or above that
of `size_roundup(4000)` although 24 < 4000. -/
theorem size_roundup_last_class_of_scale :
    size_roundup 4000 = 0 ∧ size_roundup 4000000 = 0 ∧ size_roundup 4100000000 = 0 ∧
      freelists_mapping (size_roundup 4000) ≤ freelists_mapping 24 ∧ 24 < 4000 := by
  decide

/-- C1, evaluated: on the freshly initialised `pool_8k`, `simpl_malloc(pool, 4000)`
returns a non-null payload whose chunk is marked used and has size 0; the
payload address is the address of the size word of the next chunk. -/
theorem simpl_malloc_4000_chunk_size_zero :
    pool_8k.1 ≠ 0 ∧ pool_8k_malloc.1 ≠ 0 ∧
      is_chunk_free 8 pool_8k_malloc.2.mem (get_payload_chunk 8 pool_8k_malloc.1) = 0 ∧
      get_chunk_size 8 pool_8k_malloc.2.mem (get_payload_chunk 8 pool_8k_malloc.1) = 0 ∧
      size_addr 8 (next_phys_chunk 8 pool_8k_malloc.2.mem (get_payload_chunk 8 pool_8k_malloc.1))
        = pool_8k_malloc.1 := by
  decide

/-! ## The bitmap after popping the last chunk of a longer list -/

/-- C3, evaluated: after five `simpl_malloc(pool, 64)` (A..E) and `simpl_free` of
B, D and A on `pool_64k`, class 16 (64 bytes) still has the chunk of D at its
head, but bit 0 of `sl_bitmaps[2]` and bit 2 of `fl_bitmap` are clear. -/
theorem pop_free_chunk_clears_bit_of_nonempty_class :
    five_blocks.1 = [4784, 4856, 4928, 5000, 5072] ∧
      freelists_mapping 64 = 16 ∧
      five_blocks_free_BDA.freelists 16 = get_payload_chunk 8 5000 ∧
      five_blocks_free_BDA.freelists 16 ≠ 0 ∧
      (five_blocks_free_BDA.sl_bitmaps (get_fl_index 16)).testBit (get_sl_index 16) = false ∧
      five_blocks_free_BDA.fl_bitmap.testBit (get_fl_index 16) = false := by
  decide

/-! ## `free(malloc(4000))` -/

/-- C4, evaluated: on `pool_8k`, `available` equals the free bytes of the chain
after `simpl_init` and after `simpl_malloc(pool, 4000)`; after the `simpl_free`
of that payload `available` is 12256, more than the 8192 bytes of the buffer,
and no chunk of the chain has its F flag set. -/
theorem available_after_free_of_zero_size_chunk :
    free_bytes 8 pool_8k.2.mem 1000 pool_8k_first pool_8k_tail = some pool_8k.2.available ∧
      free_bytes 8 pool_8k_malloc.2.mem 1000 pool_8k_first pool_8k_tail
        = some pool_8k_malloc.2.available ∧
      pool_8k_free.available = 12256 ∧
      free_bytes 8 pool_8k_free.mem 1000 pool_8k_first pool_8k_tail = some 0 := by
  decide

/-- C5, evaluated: on `pool_8k`, `p = simpl_malloc(pool, 4000)` is non-null and
`simpl_free(pool, p)` leaves `available` at 12256 instead of the 7608 before the
allocation; the first chunk, free before, is not marked free afterwards. -/
theorem malloc_free_round_trip_4000 :
    pool_8k_malloc.1 ≠ 0 ∧ pool_8k.2.available = 7608 ∧ pool_8k_free.available = 12256 ∧
      is_chunk_free 8 pool_8k.2.mem pool_8k_first = 1 ∧
      get_chunk_size 8 pool_8k.2.mem pool_8k_first = 7608 ∧
      is_chunk_free 8 pool_8k_free.mem pool_8k_first = 0 := by
  decide

/-- C6, evaluated: on `pool_8k`, after the successful `simpl_malloc(pool, 4000)`
and the `simpl_free` of its payload, the first chunk is not free, it is not
followed by the tail marker, and `available` differs from its value after
`simpl_init`. -/
theorem drain_4000_not_restored :
    pool_8k_malloc.1 ≠ 0 ∧
      is_chunk_free 8 pool_8k.2.mem pool_8k_first ≠ 0 ∧
      is_chunk_free 8 pool_8k_free.mem pool_8k_first = 0 ∧
      next_phys_chunk 8 pool_8k_free.mem pool_8k_first ≠ pool_8k_tail ∧
      pool_8k_free.available ≠ pool_8k.2.available := by
  decide

/-! ## `simpl_memalign` with a small alignment gap -/

/-- C7, evaluated: on `pool_64k`, after `q = simpl_memalign(pool, 32, 32)` and
`simpl_free(pool, q)` the first chunk and its physical successor (the chunk of
`q`) both have the F flag set. -/
theorem memalign_free_adjacent_free_chunks :
    pool_64k_memalign.1 ≠ 0 ∧
      next_phys_chunk 8 pool_64k_memalign_free.mem pool_64k_first
        = get_payload_chunk 8 pool_64k_memalign.1 ∧
      is_chunk_free 8 pool_64k_memalign_free.mem pool_64k_first = 1 ∧
      is_chunk_free 8 pool_64k_memalign_free.mem
        (next_phys_chunk 8 pool_64k_memalign_free.mem pool_64k_first) = 1 := by
  decide

/-- C8, evaluated: on `pool_64k`, after `q = simpl_memalign(pool, 32, 32)` the
first chunk C is free (F = 1, size 8) and its physical successor N, the chunk of
`q`, has P = 0. -/
theorem memalign_prev_free_flag_lost :
    pool_64k_memalign.1 ≠ 0 ∧
      is_chunk_free 8 pool_64k_memalign.2.mem pool_64k_first = 1 ∧
      get_chunk_size 8 pool_64k_memalign.2.mem pool_64k_first = 8 ∧
      next_phys_chunk 8 pool_64k_memalign.2.mem pool_64k_first
        = get_payload_chunk 8 pool_64k_memalign.1 ∧
      is_chunk_prev_free 8 pool_64k_memalign.2.mem
        (next_phys_chunk 8 pool_64k_memalign.2.mem pool_64k_first) = 0 := by
  decide

/-- C9, evaluated: on `pool_4104`, after `simpl_memalign(pool, 16, 16)` the head
of `freelists[0]` is the first chunk of the pool, whose F flag is clear. -/
theorem memalign_used_chunk_in_freelist :
    pool_4104_memalign.1 ≠ 0 ∧
      pool_4104_memalign.2.freelists 0 ≠ 0 ∧
      pool_4104_memalign.2.freelists 0
        = pool_4104.2.freelists (freelists_mapping pool_4104.2.available) ∧
      is_chunk_free 8 pool_4104_memalign.2.mem (pool_4104_memalign.2.freelists 0) = 0 := by
  decide

/-! ## Null results leave the pool as it was -/

theorem get_chunk_payload_ne_zero (P chunk : Nat) (hP : 0 < P) : get_chunk_payload P chunk ≠ 0 := by
  unfold get_chunk_payload offsetof_payload
  omega

theorem ite_null_keeps (pool : simpl_pool) (c : Prop) [Decidable c] (a b : Nat × simpl_pool)
    (ha : c → a.1 = 0 → a.2 = pool) (hb : ¬c → b.1 = 0 → b.2 = pool) :
    (if c then a else b).1 = 0 → (if c then a else b).2 = pool := by
  by_cases h : c
  · rw [if_pos h]; exact ha h
  · rw [if_neg h]; exact hb h

theorem payload_null_keeps (P chunk : Nat) (hP : 0 < P) (pool x : simpl_pool) :
    (get_chunk_payload P chunk, x).1 = 0 → (get_chunk_payload P chunk, x).2 = pool :=
  fun h => absurd h (get_chunk_payload_ne_zero P chunk hP)

theorem simpl_malloc_null (P simp : Nat) (pool : simpl_pool) (n : Nat) (hP : 0 < P) :
    (simpl_malloc P simp pool n).1 = 0 → (simpl_malloc P simp pool n).2 = pool := by
  unfold simpl_malloc
  simp only []
  refine ite_null_keeps pool _ _ _ (fun _ _ => rfl) (fun _ => ?_)
  refine ite_null_keeps pool _ _ _ (fun _ _ => rfl) (fun _ => ?_)
  refine ite_null_keeps pool _ _ _ (fun _ _ => rfl) (fun _ => ?_)
  exact payload_null_keeps P _ hP pool _

theorem simpl_memalign_null (P simp : Nat) (pool : simpl_pool) (align n : Nat) (hP : 0 < P) :
    (simpl_memalign P simp pool align n).1 = 0 →
      (simpl_memalign P simp pool align n).2 = pool := by
  unfold simpl_memalign
  simp only []
  refine ite_null_keeps pool _ _ _ (fun _ _ => rfl) (fun _ => ?_)
  refine ite_null_keeps pool _ _ _ (fun _ _ => rfl) (fun _ => ?_)
  refine ite_null_keeps pool _ _ _ (fun _ _ => rfl) (fun _ => ?_)
  exact payload_null_keeps P _ hP pool _

theorem simpl_realloc_null (P simp : Nat) (pool : simpl_pool) (p n : Nat) (hP : 0 < P) :
    (simpl_realloc P simp pool p n).1 = 0 → (simpl_realloc P simp pool p n).2 = pool := by
  unfold simpl_realloc
  simp only []
  refine ite_null_keeps pool _ _ _ (fun _ => simpl_malloc_null P simp pool n hP) (fun _ => ?_)
  refine ite_null_keeps pool _ _ _ (fun _ _ => rfl) (fun _ => ?_)
  refine ite_null_keeps pool _ _ _ (fun _ _ => rfl) (fun _ => ?_)
  refine ite_null_keeps pool _ _ _ (fun _ => payload_null_keeps P _ hP pool _) (fun _ => ?_)
  refine ite_null_keeps pool _ _ _ (fun _ => payload_null_keeps P _ hP pool _) (fun _ => ?_)
  refine ite_null_keeps pool _ _ _ (fun _ => payload_null_keeps P _ hP pool _) (fun _ => ?_)
  refine ite_null_keeps pool _ _ _ (fun hc h => absurd h hc) (fun _ => ?_)
  exact simpl_malloc_null P simp pool _ hP

/-- C19: on a target with 4- or 8-byte pointers, for every pool state and all
arguments, when `simpl_malloc`, `simpl_realloc` or `simpl_memalign` returns null
the pool it leaves is the pool it was given. -/
theorem null_result_leaves_pool_unchanged (P : Nat) (hP : P = 4 ∨ P = 8) (simp : Nat)
    (pool : simpl_pool) (p align n : Nat) :
    ((simpl_malloc P simp pool n).1 = 0 → (simpl_malloc P simp pool n).2 = pool) ∧
      ((simpl_realloc P simp pool p n).1 = 0 → (simpl_realloc P simp pool p n).2 = pool) ∧
      ((simpl_memalign P simp pool align n).1 = 0 →
        (simpl_memalign P simp pool align n).2 = pool) := by
  have h0 : 0 < P := by rcases hP with rfl | rfl <;> decide
  exact ⟨simpl_malloc_null P simp pool n h0, simpl_realloc_null P simp pool p n h0,
    simpl_memalign_null P simp pool align n h0⟩

/-- Witness of C19 on `pool_504` after `p = simpl_malloc(pool, 112)` has taken the
only chunk: `simpl_malloc(pool, 192)`, `simpl_realloc(pool, p, 192)` (a relocation
that finds no chunk) and `simpl_memalign(pool, 64, 192)` all return null and
leave the pool as it was. -/
theorem null_result_leaves_pool_unchanged_witness :
    ((simpl_malloc 8 pool_504.1 pool_504_malloc.2 192).1 = 0 ∧
        (simpl_malloc 8 pool_504.1 pool_504_malloc.2 192).2 = pool_504_malloc.2) ∧
      ((simpl_realloc 8 pool_504.1 pool_504_malloc.2 pool_504_malloc.1 192).1 = 0 ∧
        (simpl_realloc 8 pool_504.1 pool_504_malloc.2 pool_504_malloc.1 192).2
          = pool_504_malloc.2) ∧
      ((simpl_memalign 8 pool_504.1 pool_504_malloc.2 64 192).1 = 0 ∧
        (simpl_memalign 8 pool_504.1 pool_504_malloc.2 64 192).2 = pool_504_malloc.2) :=
  ⟨⟨by decide,
      (null_result_leaves_pool_unchanged 8 (Or.inr rfl) pool_504.1 pool_504_malloc.2
        pool_504_malloc.1 64 192).1 (by decide)⟩,
    ⟨by decide,
      (null_result_leaves_pool_unchanged 8 (Or.inr rfl) pool_504.1 pool_504_malloc.2
        pool_504_malloc.1 64 192).2.1 (by decide)⟩,
    ⟨by decide,
      (null_result_leaves_pool_unchanged 8 (Or.inr rfl) pool_504.1 pool_504_malloc.2
        pool_504_malloc.1 64 192).2.2 (by decide)⟩⟩

/-! ## `simpl_realloc` with a zero size or a null handle -/

/-- C18: for every pool state and every non-null payload `p`,
`simpl_realloc(pool, p, 0)` returns null and the pool is the one it was given;
the same holds for every size when the pool handle is null. -/
theorem simpl_realloc_zero_size_or_null_handle (P simp : Nat) (pool : simpl_pool) (p n : Nat)
    (hp : p ≠ 0) :
    simpl_realloc P simp pool p 0 = (0, pool) ∧ simpl_realloc P 0 pool p n = (0, pool) := by
  unfold simpl_realloc
  simp [hp]

/-- Witness of C18: the in-use payload 4856 (block B) of `five_blocks`. -/
theorem simpl_realloc_zero_size_or_null_handle_witness :
    (4856 : Nat) ≠ 0 ∧
      is_chunk_free 8 five_blocks.2.mem (get_payload_chunk 8 4856) = 0 ∧
      simpl_realloc 8 pool_64k.1 five_blocks.2 4856 0 = (0, five_blocks.2) ∧
      simpl_realloc 8 0 five_blocks.2 4856 100 = (0, five_blocks.2) :=
  ⟨by decide, by decide,
    simpl_realloc_zero_size_or_null_handle 8 pool_64k.1 five_blocks.2 4856 100 (by decide)⟩

/-! ## Alignments `simpl_memalign` rejects -/

theorem land_pred_ne_zero (a : Nat) (h0 : 0 < a) (hnp : ¬ ∃ k, a = 2 ^ k) :
    a &&& (a - 1) ≠ 0 := by
  have h1 : 2 ^ Nat.log 2 a ≤ a := Nat.pow_log_le_self 2 (by omega)
  have h2 : a < 2 ^ (Nat.log 2 a).succ := Nat.lt_pow_succ_log_self (by decide) a
  have hne : a ≠ 2 ^ Nat.log 2 a := fun h => hnp ⟨_, h⟩
  have h3 : 2 ^ (Nat.log 2 a).succ = 2 * 2 ^ Nat.log 2 a := by rw [Nat.pow_succ]; ring
  generalize Nat.log 2 a = k at h1 h2 hne h3
  have ea : a = 2 ^ k + (a - 2 ^ k) := by omega
  have eb : a - 1 = 2 ^ k + (a - 2 ^ k - 1) := by omega
  have ta : a.testBit k = true := by
    rw [ea, Nat.testBit_two_pow_add_eq, Nat.testBit_lt_two_pow (by omega)]
    rfl
  have tb : (a - 1).testBit k = true := by
    rw [eb, Nat.testBit_two_pow_add_eq, Nat.testBit_lt_two_pow (by omega)]
    rfl
  intro hz
  have := Nat.testBit_and a (a - 1) k
  rw [hz, ta, tb, Nat.zero_testBit] at this
  exact Bool.noConfusion this

/-- C12, counterexample: 3 is not a power of two, yet on `pool_64k`
`simpl_memalign(pool, 3, 24)` returns a non-null payload. -/
theorem simpl_memalign_accepts_align_3 :
    (¬ ∃ k, 3 = 2 ^ k) ∧ (simpl_memalign 8 pool_64k.1 pool_64k.2 3 24).1 ≠ 0 := by
  refine ⟨?_, by decide⟩
  rintro ⟨k, hk⟩
  rcases k with _ | k
  · simp at hk
  · rw [Nat.pow_succ] at hk
    omega

/-- C12, amended: on a target with 4- or 8-byte pointers, for every pool state,
every `n` and every `align` that is at least the pointer size (and a `size_t`
value) and not a power of two, `simpl_memalign(pool, align, n)` returns null and
leaves the pool as it was. -/
theorem simpl_memalign_rejects_non_power_of_two (P : Nat) (hP : P = 4 ∨ P = 8) (simp : Nat)
    (pool : simpl_pool) (align n : Nat) (hge : P ≤ align) (hlt : align < uptr P)
    (hnp : ¬ ∃ k, align = 2 ^ k) :
    simpl_memalign P simp pool align n = (0, pool) := by
  have h0 : 0 < align := by rcases hP with rfl | rfl <;> omega
  unfold simpl_memalign
  simp only []
  rw [if_neg (Nat.not_lt.mpr hge), align_mask_eq (uptr P) align h0 hlt, if_pos]
  exact Or.inr (Or.inr (Or.inl (land_pred_ne_zero align h0 hnp)))

/-- Witness of the amended C12: `align = 24` on `pool_64k`. -/
theorem simpl_memalign_rejects_non_power_of_two_witness :
    (8 ≤ 24 ∧ 24 < uptr 8) ∧ simpl_memalign 8 pool_64k.1 pool_64k.2 24 48 = (0, pool_64k.2) :=
  ⟨by decide,
    simpl_memalign_rejects_non_power_of_two 8 (Or.inr rfl) pool_64k.1 pool_64k.2 24 48
      (by decide) (by decide)
      (by
        rintro ⟨k, hk⟩
        rcases k with _ | _ | _ | _ | _ | k
        · simp at hk
        · simp at hk
        · simp at hk
        · simp at hk
        · simp at hk
        · have h5 : 2 ^ (k + 5) = 32 * 2 ^ k := by ring
          have h6 : 0 < 2 ^ k := Nat.two_pow_pos k
          omega)⟩

/-! ## The shrink path of `simpl_realloc` -/

theorem payload_roundtrip (P p : Nat) (h1 : offsetof_payload P ≤ p) (h2 : p < uptr P) :
    get_chunk_payload P (get_payload_chunk P p) = p := by
  unfold get_chunk_payload get_payload_chunk
  rw [Nat.mod_eq_of_lt h2]
  have e : p + uptr P - offsetof_payload P = (p - offsetof_payload P) + uptr P := by omega
  have hlt : p - offsetof_payload P < uptr P := by omega
  rw [e, Nat.add_mod_right, Nat.mod_eq_of_lt hlt]
  omega

/-- C13, counterexample: on `pool_504`, `p = simpl_malloc(pool, 112)` is in use with
a chunk of size 136; `simpl_realloc(pool, p, 130)`, with 130 ≤ 136, does not return
`p` (the rounded size is 144 and the relocation finds no chunk: it returns null). -/
theorem simpl_realloc_130_of_136_not_in_place :
    pool_504_malloc.1 ≠ 0 ∧
      is_chunk_free 8 pool_504_malloc.2.mem (get_payload_chunk 8 pool_504_malloc.1) = 0 ∧
      get_chunk_size 8 pool_504_malloc.2.mem (get_payload_chunk 8 pool_504_malloc.1) = 136 ∧
      size_roundup (adjust_alloc_size 8 130 8) = 144 ∧
      pool_504_realloc.1 ≠ pool_504_malloc.1 := by
  decide

/-- C13, amended: for every payload `p` whose chunk has size `s` and every
`n ≥ 1` whose adjusted size is non-zero and, once rounded up to its class
boundary by `size_roundup`, at most `s`, `simpl_realloc(pool, p, n)` returns `p`. -/
theorem simpl_realloc_shrink_returns_payload (P simp : Nat) (pool : simpl_pool) (p n : Nat)
    (hsimp : simp ≠ 0) (hp1 : 0 < p) (hp2 : offsetof_payload P ≤ p) (hp3 : p < uptr P)
    (hn : 1 ≤ n) (hadj : adjust_alloc_size P n P ≠ 0)
    (hR : size_roundup (adjust_alloc_size P n P)
      ≤ get_chunk_size P pool.mem (get_payload_chunk P p)) :
    (simpl_realloc P simp pool p n).1 = p := by
  unfold simpl_realloc
  simp only []
  rw [if_neg (by omega), if_neg (by omega), if_neg hadj, if_pos hR]
  simp only [trim_chunk_to_use_fst]
  exact payload_roundtrip P p hp2 hp3

/-- Witness of the amended C13: block B (payload 4856, size 64) of `five_blocks`
and `n = 30`, whose rounded size is 32. -/
theorem simpl_realloc_shrink_returns_payload_witness :
    (pool_64k.1 ≠ 0 ∧ 0 < 4856 ∧ offsetof_payload 8 ≤ 4856 ∧ 4856 < uptr 8 ∧ 1 ≤ 30 ∧
        adjust_alloc_size 8 30 8 ≠ 0 ∧
        size_roundup (adjust_alloc_size 8 30 8)
          ≤ get_chunk_size 8 five_blocks.2.mem (get_payload_chunk 8 4856)) ∧
      (simpl_realloc 8 pool_64k.1 five_blocks.2 4856 30).1 = 4856 :=
  ⟨by decide,
    simpl_realloc_shrink_returns_payload 8 pool_64k.1 five_blocks.2 4856 30 (by decide)
      (by decide) (by decide) (by decide) (by decide) (by decide) (by decide)⟩

/-! ## The chunk `simpl_memalign` pops -/

/-- C11, evaluated: on `pool_4144` (one free chunk of 61448 bytes, payload at
4832, buffer end at 66288), `simpl_memalign(pool, 64, 61440)` keeps A = 61440
bytes for the payload and pops that chunk although 61448 is less than
`min_chunk_size + align + A` = 61528; the aligned chunk it hands to
`trim_chunk_to_use` has 61416 bytes, less than A, and the payload returned, 4864,
ends at 66304, after the end of the popped chunk (66280) and of the buffer. -/
theorem simpl_memalign_pops_too_small_chunk :
    pool_4144.1 ≠ 0 ∧ pool_4144_adj = 61440 ∧ pool_4144_popped ≠ 0 ∧
      is_chunk_free 8 pool_4144.2.mem pool_4144_popped = 1 ∧
      get_chunk_size 8 pool_4144.2.mem pool_4144_popped = 61448 ∧
      get_chunk_size 8 pool_4144.2.mem pool_4144_popped
        < simplc_chunk_min_size 8 + 64 + pool_4144_adj ∧
      pool_4144_memalign.1 = 4864 ∧
      get_chunk_payload 8 pool_4144_popped
          + get_chunk_size 8 pool_4144.2.mem pool_4144_popped
        - pool_4144_memalign.1 = 61416 ∧
      get_chunk_payload 8 pool_4144_popped
          + get_chunk_size 8 pool_4144.2.mem pool_4144_popped
        < pool_4144_memalign.1 + pool_4144_adj ∧
      4144 + 62144 < pool_4144_memalign.1 + pool_4144_adj := by
  decide

/-! ## `simpl_realloc` and the round-up to 0 -/

/-- C16, evaluated: on `pool_64k`, `p = simpl_malloc(pool, 4096)` gets a chunk of
4096 bytes; the caller stores three words at `p`; `q = simpl_realloc(pool, p, 4000)`
returns `q = p`, and the first three words at `q` (inside the first
min(4000, 4096) bytes) are no longer the words stored. -/
theorem simpl_realloc_4000_clobbers_payload :
    pool_64k_malloc_4096.1 ≠ 0 ∧
      get_chunk_size 8 pool_64k_filled.mem (get_payload_chunk 8 pool_64k_malloc_4096.1) = 4096 ∧
      pool_64k_filled.mem pool_64k_malloc_4096.1 = 0x1111111111111111 ∧
      pool_64k_filled.mem (pool_64k_malloc_4096.1 + 8) = 0x2222222222222222 ∧
      pool_64k_filled.mem (pool_64k_malloc_4096.1 + 16) = 0x3333333333333333 ∧
      pool_64k_realloc_4000.1 = pool_64k_malloc_4096.1 ∧
      pool_64k_realloc_4000.2.mem pool_64k_realloc_4000.1 ≠ 0x1111111111111111 ∧
      pool_64k_realloc_4000.2.mem (pool_64k_realloc_4000.1 + 8) ≠ 0x2222222222222222 ∧
      pool_64k_realloc_4000.2.mem (pool_64k_realloc_4000.1 + 16) ≠ 0x3333333333333333 := by
  decide

/-- C17, evaluated: on `pool_64k`, with `p = simpl_malloc(pool, 64)`, the request
`simpl_realloc(pool, p, 4100000000)` has the adjusted size 4100000000, whose next
class boundary is 2^32; `size_roundup` gives 0 and the call returns `p`, not
null, after cutting the chunk of `p` from 64 bytes to 0. -/
theorem simpl_realloc_huge_size_accepted :
    pool_64k_malloc_64.1 ≠ 0 ∧
      adjust_alloc_size 8 4100000000 8 = 4100000000 ∧
      mapping_size (freelists_mapping 4100000000) < 4100000000 ∧
      size_roundup 4100000000 = 0 ∧
      pool_64k_realloc_huge.1 = pool_64k_malloc_64.1 ∧
      get_chunk_size 8 pool_64k_malloc_64.2.mem (get_payload_chunk 8 pool_64k_malloc_64.1) = 64 ∧
      get_chunk_size 8 pool_64k_realloc_huge.2.mem (get_payload_chunk 8 pool_64k_malloc_64.1)
        = 0 := by
  decide

/-! ## Words with flags -/

theorem testBit_not32_3 (i : Nat) : (not32 3).testBit i = (decide (i < 32) && !decide (i < 2)) := by
  unfold not32 u32
  rw [show (3 : Nat) % 2 ^ 32 = 2 ^ 2 - 1 by norm_num, Nat.testBit_xor,
    Nat.testBit_two_pow_sub_one, Nat.testBit_two_pow_sub_one]
  by_cases h1 : i < 2 <;> by_cases h2 : i < 32 <;> simp [h1, h2]
  omega

theorem testBit_not32_1 (i : Nat) : (not32 1).testBit i = (decide (i < 32) && !decide (i < 1)) := by
  unfold not32 u32
  rw [show (1 : Nat) % 2 ^ 32 = 2 ^ 1 - 1 by norm_num, Nat.testBit_xor,
    Nat.testBit_two_pow_sub_one, Nat.testBit_two_pow_sub_one]
  by_cases h1 : i < 1 <;> by_cases h2 : i < 32 <;> simp [h1, h2]
  omega

theorem testBit_not32_2 (i : Nat) : (not32 2).testBit i = (decide (i < 32) && !decide (i = 1)) := by
  unfold not32 u32
  rw [show (2 : Nat) % 2 ^ 32 = 2 ^ 1 by norm_num, Nat.testBit_xor,
    Nat.testBit_two_pow_sub_one, Nat.testBit_two_pow]
  by_cases h1 : i = 1 <;> by_cases h2 : i < 32 <;> simp [h1, h2]
  · omega
  · omega

theorem testBit_3 (i : Nat) : (3 : Nat).testBit i = decide (i < 2) := by
  rw [show (3 : Nat) = 2 ^ 2 - 1 by norm_num, Nat.testBit_two_pow_sub_one]

theorem testBit_1 (i : Nat) : (1 : Nat).testBit i = decide (i < 1) := by
  have h := Nat.testBit_two_pow_sub_one 1 i
  simpa using h

theorem testBit_2 (i : Nat) : (2 : Nat).testBit i = decide (i = 1) := by
  rw [show (2 : Nat) = 2 ^ 1 by norm_num, Nat.testBit_two_pow]
  by_cases h : i = 1 <;> simp [h]
  omega

theorem testBit_low_of_mod4 (v i : Nat) (h : v % 4 = 0) (hi : i < 2) : v.testBit i = false := by
  have := Nat.testBit_mod_two_pow v 2 i
  rw [show (2 : Nat) ^ 2 = 4 by norm_num, h] at this
  simp [hi] at this
  exact this

theorem testBit_high_of_lt (v i : Nat) (h : v < u32) (hi : 32 ≤ i) : v.testBit i = false := by
  apply Nat.testBit_lt_two_pow
  have : (2 : Nat) ^ 32 ≤ 2 ^ i := Nat.pow_le_pow_right (by decide) hi
  unfold u32 at h
  omega

theorem word_mod_size (w : Nat) :
    (w % u32) &&& not32 3 = w &&& not32 3 := by
  apply Nat.eq_of_testBit_eq
  intro i
  unfold u32
  simp only [Nat.testBit_and, Nat.testBit_or, Nat.testBit_mod_two_pow, testBit_not32_3,
    testBit_not32_1, testBit_not32_2, testBit_3, testBit_1, testBit_2, Nat.zero_testBit]
  rcases (show i = 0 ∨ i = 1 ∨ (2 ≤ i ∧ i < 32) ∨ 32 ≤ i by omega) with
    rfl | rfl | ⟨ha, hb⟩ | hc
  · simp []
  · simp []
  · simp [show ¬ i < 1 by omega, show ¬ i < 2 by omega, hb, show ¬ i = 1 by omega]
  · simp [show ¬ i < 1 by omega, show ¬ i < 2 by omega, show ¬ i < 32 by omega,
      show ¬ i = 1 by omega]

theorem word_mod_free (w : Nat) :
    (w % u32) &&& 1 = w &&& 1 := by
  apply Nat.eq_of_testBit_eq
  intro i
  unfold u32
  simp only [Nat.testBit_and, Nat.testBit_or, Nat.testBit_mod_two_pow, testBit_not32_3,
    testBit_not32_1, testBit_not32_2, testBit_3, testBit_1, testBit_2, Nat.zero_testBit]
  rcases (show i = 0 ∨ i = 1 ∨ (2 ≤ i ∧ i < 32) ∨ 32 ≤ i by omega) with
    rfl | rfl | ⟨ha, hb⟩ | hc
  · simp []
  · simp []
  · simp [show ¬ i < 1 by omega, show ¬ i < 2 by omega, hb, show ¬ i = 1 by omega]
  · simp [show ¬ i < 1 by omega, show ¬ i < 2 by omega, show ¬ i < 32 by omega,
      show ¬ i = 1 by omega]

theorem word_mod_pfree (w : Nat) :
    (w % u32) &&& 2 = w &&& 2 := by
  apply Nat.eq_of_testBit_eq
  intro i
  unfold u32
  simp only [Nat.testBit_and, Nat.testBit_or, Nat.testBit_mod_two_pow, testBit_not32_3,
    testBit_not32_1, testBit_not32_2, testBit_3, testBit_1, testBit_2, Nat.zero_testBit]
  rcases (show i = 0 ∨ i = 1 ∨ (2 ≤ i ∧ i < 32) ∨ 32 ≤ i by omega) with
    rfl | rfl | ⟨ha, hb⟩ | hc
  · simp []
  · simp []
  · simp [show ¬ i < 1 by omega, show ¬ i < 2 by omega, hb, show ¬ i = 1 by omega]
  · simp [show ¬ i < 1 by omega, show ¬ i < 2 by omega, show ¬ i < 32 by omega,
      show ¬ i = 1 by omega]

theorem word_mod_flags (w : Nat) :
    (w % u32) &&& 3 = w &&& 3 := by
  apply Nat.eq_of_testBit_eq
  intro i
  unfold u32
  simp only [Nat.testBit_and, Nat.testBit_or, Nat.testBit_mod_two_pow, testBit_not32_3,
    testBit_not32_1, testBit_not32_2, testBit_3, testBit_1, testBit_2, Nat.zero_testBit]
  rcases (show i = 0 ∨ i = 1 ∨ (2 ≤ i ∧ i < 32) ∨ 32 ≤ i by omega) with
    rfl | rfl | ⟨ha, hb⟩ | hc
  · simp []
  · simp []
  · simp [show ¬ i < 1 by omega, show ¬ i < 2 by omega, hb, show ¬ i = 1 by omega]
  · simp [show ¬ i < 1 by omega, show ¬ i < 2 by omega, show ¬ i < 32 by omega,
      show ¬ i = 1 by omega]

theorem word_or1_size (w : Nat) :
    (w ||| 1) &&& not32 3 = w &&& not32 3 := by
  apply Nat.eq_of_testBit_eq
  intro i
  simp only [Nat.testBit_and, Nat.testBit_or, Nat.testBit_mod_two_pow, testBit_not32_3,
    testBit_not32_1, testBit_not32_2, testBit_3, testBit_1, testBit_2, Nat.zero_testBit]
  rcases (show i = 0 ∨ i = 1 ∨ (2 ≤ i ∧ i < 32) ∨ 32 ≤ i by omega) with
    rfl | rfl | ⟨ha, hb⟩ | hc
  · simp []
  · simp []
  · simp [show ¬ i < 1 by omega, show ¬ i < 2 by omega, hb, show ¬ i = 1 by omega]
  · simp [show ¬ i < 1 by omega, show ¬ i < 2 by omega, show ¬ i < 32 by omega,
      show ¬ i = 1 by omega]

theorem word_or1_free (w : Nat) :
    (w ||| 1) &&& 1 = 1 := by
  apply Nat.eq_of_testBit_eq
  intro i
  simp only [Nat.testBit_and, Nat.testBit_or, Nat.testBit_mod_two_pow, testBit_not32_3,
    testBit_not32_1, testBit_not32_2, testBit_3, testBit_1, testBit_2, Nat.zero_testBit]
  rcases (show i = 0 ∨ i = 1 ∨ (2 ≤ i ∧ i < 32) ∨ 32 ≤ i by omega) with
    rfl | rfl | ⟨ha, hb⟩ | hc
  · simp []
  · simp []
  · simp [show ¬ i < 1 by omega, show ¬ i < 2 by omega, hb, show ¬ i = 1 by omega]
  · simp [show ¬ i < 1 by omega, show ¬ i < 2 by omega, show ¬ i < 32 by omega,
      show ¬ i = 1 by omega]

theorem word_or1_pfree (w : Nat) :
    (w ||| 1) &&& 2 = w &&& 2 := by
  apply Nat.eq_of_testBit_eq
  intro i
  simp only [Nat.testBit_and, Nat.testBit_or, Nat.testBit_mod_two_pow, testBit_not32_3,
    testBit_not32_1, testBit_not32_2, testBit_3, testBit_1, testBit_2, Nat.zero_testBit]
  rcases (show i = 0 ∨ i = 1 ∨ (2 ≤ i ∧ i < 32) ∨ 32 ≤ i by omega) with
    rfl | rfl | ⟨ha, hb⟩ | hc
  · simp []
  · simp []
  · simp [show ¬ i < 1 by omega, show ¬ i < 2 by omega, hb, show ¬ i = 1 by omega]
  · simp [show ¬ i < 1 by omega, show ¬ i < 2 by omega, show ¬ i < 32 by omega,
      show ¬ i = 1 by omega]

theorem word_or2_size (w : Nat) :
    (w ||| 2) &&& not32 3 = w &&& not32 3 := by
  apply Nat.eq_of_testBit_eq
  intro i
  simp only [Nat.testBit_and, Nat.testBit_or, Nat.testBit_mod_two_pow, testBit_not32_3,
    testBit_not32_1, testBit_not32_2, testBit_3, testBit_1, testBit_2, Nat.zero_testBit]
  rcases (show i = 0 ∨ i = 1 ∨ (2 ≤ i ∧ i < 32) ∨ 32 ≤ i by omega) with
    rfl | rfl | ⟨ha, hb⟩ | hc
  · simp []
  · simp []
  · simp [show ¬ i < 1 by omega, show ¬ i < 2 by omega, hb, show ¬ i = 1 by omega]
  · simp [show ¬ i < 1 by omega, show ¬ i < 2 by omega, show ¬ i < 32 by omega,
      show ¬ i = 1 by omega]

theorem word_or2_free (w : Nat) :
    (w ||| 2) &&& 1 = w &&& 1 := by
  apply Nat.eq_of_testBit_eq
  intro i
  simp only [Nat.testBit_and, Nat.testBit_or, Nat.testBit_mod_two_pow, testBit_not32_3,
    testBit_not32_1, testBit_not32_2, testBit_3, testBit_1, testBit_2, Nat.zero_testBit]
  rcases (show i = 0 ∨ i = 1 ∨ (2 ≤ i ∧ i < 32) ∨ 32 ≤ i by omega) with
    rfl | rfl | ⟨ha, hb⟩ | hc
  · simp []
  · simp []
  · simp [show ¬ i < 1 by omega, show ¬ i < 2 by omega, hb, show ¬ i = 1 by omega]
  · simp [show ¬ i < 1 by omega, show ¬ i < 2 by omega, show ¬ i < 32 by omega,
      show ¬ i = 1 by omega]

theorem word_or2_pfree (w : Nat) :
    (w ||| 2) &&& 2 = 2 := by
  apply Nat.eq_of_testBit_eq
  intro i
  simp only [Nat.testBit_and, Nat.testBit_or, Nat.testBit_mod_two_pow, testBit_not32_3,
    testBit_not32_1, testBit_not32_2, testBit_3, testBit_1, testBit_2, Nat.zero_testBit]
  rcases (show i = 0 ∨ i = 1 ∨ (2 ≤ i ∧ i < 32) ∨ 32 ≤ i by omega) with
    rfl | rfl | ⟨ha, hb⟩ | hc
  · simp []
  · simp []
  · simp [show ¬ i < 1 by omega, show ¬ i < 2 by omega, hb, show ¬ i = 1 by omega]
  · simp [show ¬ i < 1 by omega, show ¬ i < 2 by omega, show ¬ i < 32 by omega,
      show ¬ i = 1 by omega]

theorem word_clr1_size (w : Nat) :
    (w &&& not32 1) &&& not32 3 = w &&& not32 3 := by
  apply Nat.eq_of_testBit_eq
  intro i
  simp only [Nat.testBit_and, Nat.testBit_or, Nat.testBit_mod_two_pow, testBit_not32_3,
    testBit_not32_1, testBit_not32_2, testBit_3, testBit_1, testBit_2, Nat.zero_testBit]
  rcases (show i = 0 ∨ i = 1 ∨ (2 ≤ i ∧ i < 32) ∨ 32 ≤ i by omega) with
    rfl | rfl | ⟨ha, hb⟩ | hc
  · simp []
  · simp []
  · simp [show ¬ i < 1 by omega, show ¬ i < 2 by omega, hb, show ¬ i = 1 by omega]
  · simp [show ¬ i < 1 by omega, show ¬ i < 2 by omega, show ¬ i < 32 by omega,
      show ¬ i = 1 by omega]

theorem word_clr1_free (w : Nat) :
    (w &&& not32 1) &&& 1 = 0 := by
  apply Nat.eq_of_testBit_eq
  intro i
  simp only [Nat.testBit_and, Nat.testBit_or, Nat.testBit_mod_two_pow, testBit_not32_3,
    testBit_not32_1, testBit_not32_2, testBit_3, testBit_1, testBit_2, Nat.zero_testBit]
  rcases (show i = 0 ∨ i = 1 ∨ (2 ≤ i ∧ i < 32) ∨ 32 ≤ i by omega) with
    rfl | rfl | ⟨ha, hb⟩ | hc
  · simp []
  · simp []
  · simp [show ¬ i < 1 by omega, show ¬ i < 2 by omega, hb, show ¬ i = 1 by omega]
  · simp [show ¬ i < 1 by omega, show ¬ i < 2 by omega, show ¬ i < 32 by omega,
      show ¬ i = 1 by omega]

theorem word_clr1_pfree (w : Nat) :
    (w &&& not32 1) &&& 2 = w &&& 2 := by
  apply Nat.eq_of_testBit_eq
  intro i
  simp only [Nat.testBit_and, Nat.testBit_or, Nat.testBit_mod_two_pow, testBit_not32_3,
    testBit_not32_1, testBit_not32_2, testBit_3, testBit_1, testBit_2, Nat.zero_testBit]
  rcases (show i = 0 ∨ i = 1 ∨ (2 ≤ i ∧ i < 32) ∨ 32 ≤ i by omega) with
    rfl | rfl | ⟨ha, hb⟩ | hc
  · simp []
  · simp []
  · simp [show ¬ i < 1 by omega, show ¬ i < 2 by omega, hb, show ¬ i = 1 by omega]
  · simp [show ¬ i < 1 by omega, show ¬ i < 2 by omega, show ¬ i < 32 by omega,
      show ¬ i = 1 by omega]

theorem word_clr2_size (w : Nat) :
    (w &&& not32 2) &&& not32 3 = w &&& not32 3 := by
  apply Nat.eq_of_testBit_eq
  intro i
  simp only [Nat.testBit_and, Nat.testBit_or, Nat.testBit_mod_two_pow, testBit_not32_3,
    testBit_not32_1, testBit_not32_2, testBit_3, testBit_1, testBit_2, Nat.zero_testBit]
  rcases (show i = 0 ∨ i = 1 ∨ (2 ≤ i ∧ i < 32) ∨ 32 ≤ i by omega) with
    rfl | rfl | ⟨ha, hb⟩ | hc
  · simp []
  · simp []
  · simp [show ¬ i < 1 by omega, show ¬ i < 2 by omega, hb, show ¬ i = 1 by omega]
  · simp [show ¬ i < 1 by omega, show ¬ i < 2 by omega, show ¬ i < 32 by omega,
      show ¬ i = 1 by omega]

theorem word_clr2_free (w : Nat) :
    (w &&& not32 2) &&& 1 = w &&& 1 := by
  apply Nat.eq_of_testBit_eq
  intro i
  simp only [Nat.testBit_and, Nat.testBit_or, Nat.testBit_mod_two_pow, testBit_not32_3,
    testBit_not32_1, testBit_not32_2, testBit_3, testBit_1, testBit_2, Nat.zero_testBit]
  rcases (show i = 0 ∨ i = 1 ∨ (2 ≤ i ∧ i < 32) ∨ 32 ≤ i by omega) with
    rfl | rfl | ⟨ha, hb⟩ | hc
  · simp []
  · simp []
  · simp [show ¬ i < 1 by omega, show ¬ i < 2 by omega, hb, show ¬ i = 1 by omega]
  · simp [show ¬ i < 1 by omega, show ¬ i < 2 by omega, show ¬ i < 32 by omega,
      show ¬ i = 1 by omega]

theorem word_clr2_pfree (w : Nat) :
    (w &&& not32 2) &&& 2 = 0 := by
  apply Nat.eq_of_testBit_eq
  intro i
  simp only [Nat.testBit_and, Nat.testBit_or, Nat.testBit_mod_two_pow, testBit_not32_3,
    testBit_not32_1, testBit_not32_2, testBit_3, testBit_1, testBit_2, Nat.zero_testBit]
  rcases (show i = 0 ∨ i = 1 ∨ (2 ≤ i ∧ i < 32) ∨ 32 ≤ i by omega) with
    rfl | rfl | ⟨ha, hb⟩ | hc
  · simp []
  · simp []
  · simp [show ¬ i < 1 by omega, show ¬ i < 2 by omega, hb, show ¬ i = 1 by omega]
  · simp [show ¬ i < 1 by omega, show ¬ i < 2 by omega, show ¬ i < 32 by omega,
      show ¬ i = 1 by omega]

theorem word_set_size (w v : Nat) (hv : v % 4 = 0) (hlt : v < u32) :
    (v ||| (w &&& 3)) &&& not32 3 = v := by
  apply Nat.eq_of_testBit_eq
  intro i
  have h0 : v.testBit 0 = false := testBit_low_of_mod4 v 0 hv (by decide)
  have h1 : v.testBit 1 = false := testBit_low_of_mod4 v 1 hv (by decide)
  have hhi : 32 ≤ i → v.testBit i = false := testBit_high_of_lt v i hlt
  simp only [Nat.testBit_and, Nat.testBit_or, Nat.testBit_mod_two_pow, testBit_not32_3,
    testBit_not32_1, testBit_not32_2, testBit_3, testBit_1, testBit_2, Nat.zero_testBit]
  rcases (show i = 0 ∨ i = 1 ∨ (2 ≤ i ∧ i < 32) ∨ 32 ≤ i by omega) with
    rfl | rfl | ⟨ha, hb⟩ | hc
  · simp [h0]
  · simp [h1]
  · simp [show ¬ i < 1 by omega, show ¬ i < 2 by omega, hb, show ¬ i = 1 by omega]
  · simp [show ¬ i < 1 by omega, show ¬ i < 2 by omega, show ¬ i < 32 by omega,
      show ¬ i = 1 by omega, hhi hc]

theorem word_set_free (w v : Nat) (hv : v % 4 = 0) :
    (v ||| (w &&& 3)) &&& 1 = w &&& 1 := by
  apply Nat.eq_of_testBit_eq
  intro i
  have h0 : v.testBit 0 = false := testBit_low_of_mod4 v 0 hv (by decide)
  have h1 : v.testBit 1 = false := testBit_low_of_mod4 v 1 hv (by decide)
  simp only [Nat.testBit_and, Nat.testBit_or, Nat.testBit_mod_two_pow, testBit_not32_3,
    testBit_not32_1, testBit_not32_2, testBit_3, testBit_1, testBit_2, Nat.zero_testBit]
  rcases (show i = 0 ∨ i = 1 ∨ (2 ≤ i ∧ i < 32) ∨ 32 ≤ i by omega) with
    rfl | rfl | ⟨ha, hb⟩ | hc
  · simp [h0]
  · simp [h1]
  · simp [show ¬ i < 1 by omega, show ¬ i < 2 by omega, hb, show ¬ i = 1 by omega]
  · simp [show ¬ i < 1 by omega, show ¬ i < 2 by omega, show ¬ i < 32 by omega,
      show ¬ i = 1 by omega]

theorem word_set_pfree (w v : Nat) (hv : v % 4 = 0) :
    (v ||| (w &&& 3)) &&& 2 = w &&& 2 := by
  apply Nat.eq_of_testBit_eq
  intro i
  have h0 : v.testBit 0 = false := testBit_low_of_mod4 v 0 hv (by decide)
  have h1 : v.testBit 1 = false := testBit_low_of_mod4 v 1 hv (by decide)
  simp only [Nat.testBit_and, Nat.testBit_or, Nat.testBit_mod_two_pow, testBit_not32_3,
    testBit_not32_1, testBit_not32_2, testBit_3, testBit_1, testBit_2, Nat.zero_testBit]
  rcases (show i = 0 ∨ i = 1 ∨ (2 ≤ i ∧ i < 32) ∨ 32 ≤ i by omega) with
    rfl | rfl | ⟨ha, hb⟩ | hc
  · simp [h0]
  · simp [h1]
  · simp [show ¬ i < 1 by omega, show ¬ i < 2 by omega, hb, show ¬ i = 1 by omega]
  · simp [show ¬ i < 1 by omega, show ¬ i < 2 by omega, show ¬ i < 32 by omega,
      show ¬ i = 1 by omega]

theorem word_set_flags (w v : Nat) (hv : v % 4 = 0) :
    (v ||| (w &&& 3)) &&& 3 = w &&& 3 := by
  apply Nat.eq_of_testBit_eq
  intro i
  have h0 : v.testBit 0 = false := testBit_low_of_mod4 v 0 hv (by decide)
  have h1 : v.testBit 1 = false := testBit_low_of_mod4 v 1 hv (by decide)
  simp only [Nat.testBit_and, Nat.testBit_or, Nat.testBit_mod_two_pow, testBit_not32_3,
    testBit_not32_1, testBit_not32_2, testBit_3, testBit_1, testBit_2, Nat.zero_testBit]
  rcases (show i = 0 ∨ i = 1 ∨ (2 ≤ i ∧ i < 32) ∨ 32 ≤ i by omega) with
    rfl | rfl | ⟨ha, hb⟩ | hc
  · simp [h0]
  · simp [h1]
  · simp [show ¬ i < 1 by omega, show ¬ i < 2 by omega, hb, show ¬ i = 1 by omega]
  · simp [show ¬ i < 1 by omega, show ¬ i < 2 by omega, show ¬ i < 32 by omega,
      show ¬ i = 1 by omega]

theorem word_raw_size (v : Nat) (hv : v % 4 = 0) (hlt : v < u32) :
    v &&& not32 3 = v := by
  apply Nat.eq_of_testBit_eq
  intro i
  have h0 : v.testBit 0 = false := testBit_low_of_mod4 v 0 hv (by decide)
  have h1 : v.testBit 1 = false := testBit_low_of_mod4 v 1 hv (by decide)
  have hhi : 32 ≤ i → v.testBit i = false := testBit_high_of_lt v i hlt
  simp only [Nat.testBit_and, Nat.testBit_or, Nat.testBit_mod_two_pow, testBit_not32_3,
    testBit_not32_1, testBit_not32_2, testBit_3, testBit_1, testBit_2, Nat.zero_testBit]
  rcases (show i = 0 ∨ i = 1 ∨ (2 ≤ i ∧ i < 32) ∨ 32 ≤ i by omega) with
    rfl | rfl | ⟨ha, hb⟩ | hc
  · simp [h0]
  · simp [h1]
  · simp [show ¬ i < 1 by omega, show ¬ i < 2 by omega, hb, show ¬ i = 1 by omega]
  · simp [show ¬ i < 1 by omega, show ¬ i < 2 by omega, show ¬ i < 32 by omega,
      show ¬ i = 1 by omega, hhi hc]

theorem word_raw_free (v : Nat) (hv : v % 4 = 0) :
    v &&& 1 = 0 := by
  apply Nat.eq_of_testBit_eq
  intro i
  have h0 : v.testBit 0 = false := testBit_low_of_mod4 v 0 hv (by decide)
  have h1 : v.testBit 1 = false := testBit_low_of_mod4 v 1 hv (by decide)
  simp only [Nat.testBit_and, Nat.testBit_or, Nat.testBit_mod_two_pow, testBit_not32_3,
    testBit_not32_1, testBit_not32_2, testBit_3, testBit_1, testBit_2, Nat.zero_testBit]
  rcases (show i = 0 ∨ i = 1 ∨ (2 ≤ i ∧ i < 32) ∨ 32 ≤ i by omega) with
    rfl | rfl | ⟨ha, hb⟩ | hc
  · simp [h0]
  · simp [h1]
  · simp [show ¬ i < 1 by omega, show ¬ i < 2 by omega, hb, show ¬ i = 1 by omega]
  · simp [show ¬ i < 1 by omega, show ¬ i < 2 by omega, show ¬ i < 32 by omega,
      show ¬ i = 1 by omega]

theorem word_raw_pfree (v : Nat) (hv : v % 4 = 0) :
    v &&& 2 = 0 := by
  apply Nat.eq_of_testBit_eq
  intro i
  have h0 : v.testBit 0 = false := testBit_low_of_mod4 v 0 hv (by decide)
  have h1 : v.testBit 1 = false := testBit_low_of_mod4 v 1 hv (by decide)
  simp only [Nat.testBit_and, Nat.testBit_or, Nat.testBit_mod_two_pow, testBit_not32_3,
    testBit_not32_1, testBit_not32_2, testBit_3, testBit_1, testBit_2, Nat.zero_testBit]
  rcases (show i = 0 ∨ i = 1 ∨ (2 ≤ i ∧ i < 32) ∨ 32 ≤ i by omega) with
    rfl | rfl | ⟨ha, hb⟩ | hc
  · simp [h0]
  · simp [h1]
  · simp [show ¬ i < 1 by omega, show ¬ i < 2 by omega, hb, show ¬ i = 1 by omega]
  · simp [show ¬ i < 1 by omega, show ¬ i < 2 by omega, show ¬ i < 32 by omega,
      show ¬ i = 1 by omega]

theorem word_raw_flags (v : Nat) (hv : v % 4 = 0) :
    v &&& 3 = 0 := by
  apply Nat.eq_of_testBit_eq
  intro i
  have h0 : v.testBit 0 = false := testBit_low_of_mod4 v 0 hv (by decide)
  have h1 : v.testBit 1 = false := testBit_low_of_mod4 v 1 hv (by decide)
  simp only [Nat.testBit_and, Nat.testBit_or, Nat.testBit_mod_two_pow, testBit_not32_3,
    testBit_not32_1, testBit_not32_2, testBit_3, testBit_1, testBit_2, Nat.zero_testBit]
  rcases (show i = 0 ∨ i = 1 ∨ (2 ≤ i ∧ i < 32) ∨ 32 ≤ i by omega) with
    rfl | rfl | ⟨ha, hb⟩ | hc
  · simp [h0]
  · simp [h1]
  · simp [show ¬ i < 1 by omega, show ¬ i < 2 by omega, hb, show ¬ i = 1 by omega]
  · simp [show ¬ i < 1 by omega, show ¬ i < 2 by omega, show ¬ i < 32 by omega,
      show ¬ i = 1 by omega]

theorem word_used_val (w v : Nat) (hv : v % 4 = 0) :
    ((v ||| (w &&& 3)) % u32 &&& not32 1) % u32 = (v ||| (w &&& 2)) % u32 := by
  apply Nat.eq_of_testBit_eq
  intro i
  have h0 : v.testBit 0 = false := testBit_low_of_mod4 v 0 hv (by decide)
  have h1 : v.testBit 1 = false := testBit_low_of_mod4 v 1 hv (by decide)
  unfold u32
  simp only [Nat.testBit_and, Nat.testBit_or, Nat.testBit_mod_two_pow, testBit_not32_3,
    testBit_not32_1, testBit_not32_2, testBit_3, testBit_1, testBit_2, Nat.zero_testBit]
  rcases (show i = 0 ∨ i = 1 ∨ (2 ≤ i ∧ i < 32) ∨ 32 ≤ i by omega) with
    rfl | rfl | ⟨ha, hb⟩ | hc
  · simp [h0]
  · simp [h1]
  · simp [show ¬ i < 1 by omega, show ¬ i < 2 by omega, hb, show ¬ i = 1 by omega]
  · simp [show ¬ i < 1 by omega, show ¬ i < 2 by omega, show ¬ i < 32 by omega,
      show ¬ i = 1 by omega]

theorem word_free_val (v : Nat) (hv : v % 4 = 0) :
    ((v % u32 &&& not32 2) % u32 ||| 1) % u32 = (v ||| 1) % u32 := by
  apply Nat.eq_of_testBit_eq
  intro i
  have h0 : v.testBit 0 = false := testBit_low_of_mod4 v 0 hv (by decide)
  have h1 : v.testBit 1 = false := testBit_low_of_mod4 v 1 hv (by decide)
  unfold u32
  simp only [Nat.testBit_and, Nat.testBit_or, Nat.testBit_mod_two_pow, testBit_not32_3,
    testBit_not32_1, testBit_not32_2, testBit_3, testBit_1, testBit_2, Nat.zero_testBit]
  rcases (show i = 0 ∨ i = 1 ∨ (2 ≤ i ∧ i < 32) ∨ 32 ≤ i by omega) with
    rfl | rfl | ⟨ha, hb⟩ | hc
  · simp [h0]
  · simp [h1]
  · simp [show ¬ i < 1 by omega, show ¬ i < 2 by omega, hb, show ¬ i = 1 by omega]
  · simp [show ¬ i < 1 by omega, show ¬ i < 2 by omega, show ¬ i < 32 by omega,
      show ¬ i = 1 by omega]

theorem word_keep2_size (w v : Nat) (hv : v % 4 = 0) (hlt : v < u32) :
    (v ||| (w &&& 2)) &&& not32 3 = v := by
  apply Nat.eq_of_testBit_eq
  intro i
  have h0 : v.testBit 0 = false := testBit_low_of_mod4 v 0 hv (by decide)
  have h1 : v.testBit 1 = false := testBit_low_of_mod4 v 1 hv (by decide)
  have hhi : 32 ≤ i → v.testBit i = false := testBit_high_of_lt v i hlt
  simp only [Nat.testBit_and, Nat.testBit_or, Nat.testBit_mod_two_pow, testBit_not32_3,
    testBit_not32_1, testBit_not32_2, testBit_3, testBit_1, testBit_2, Nat.zero_testBit]
  rcases (show i = 0 ∨ i = 1 ∨ (2 ≤ i ∧ i < 32) ∨ 32 ≤ i by omega) with
    rfl | rfl | ⟨ha, hb⟩ | hc
  · simp [h0]
  · simp [h1]
  · simp [show ¬ i < 1 by omega, show ¬ i < 2 by omega, hb, show ¬ i = 1 by omega]
  · simp [show ¬ i < 1 by omega, show ¬ i < 2 by omega, show ¬ i < 32 by omega,
      show ¬ i = 1 by omega, hhi hc]

theorem word_keep2_free (w v : Nat) (hv : v % 4 = 0) :
    (v ||| (w &&& 2)) &&& 1 = 0 := by
  apply Nat.eq_of_testBit_eq
  intro i
  have h0 : v.testBit 0 = false := testBit_low_of_mod4 v 0 hv (by decide)
  have h1 : v.testBit 1 = false := testBit_low_of_mod4 v 1 hv (by decide)
  simp only [Nat.testBit_and, Nat.testBit_or, Nat.testBit_mod_two_pow, testBit_not32_3,
    testBit_not32_1, testBit_not32_2, testBit_3, testBit_1, testBit_2, Nat.zero_testBit]
  rcases (show i = 0 ∨ i = 1 ∨ (2 ≤ i ∧ i < 32) ∨ 32 ≤ i by omega) with
    rfl | rfl | ⟨ha, hb⟩ | hc
  · simp [h0]
  · simp [h1]
  · simp [show ¬ i < 1 by omega, show ¬ i < 2 by omega, hb, show ¬ i = 1 by omega]
  · simp [show ¬ i < 1 by omega, show ¬ i < 2 by omega, show ¬ i < 32 by omega,
      show ¬ i = 1 by omega]

theorem word_keep2_pfree (w v : Nat) (hv : v % 4 = 0) :
    (v ||| (w &&& 2)) &&& 2 = w &&& 2 := by
  apply Nat.eq_of_testBit_eq
  intro i
  have h0 : v.testBit 0 = false := testBit_low_of_mod4 v 0 hv (by decide)
  have h1 : v.testBit 1 = false := testBit_low_of_mod4 v 1 hv (by decide)
  simp only [Nat.testBit_and, Nat.testBit_or, Nat.testBit_mod_two_pow, testBit_not32_3,
    testBit_not32_1, testBit_not32_2, testBit_3, testBit_1, testBit_2, Nat.zero_testBit]
  rcases (show i = 0 ∨ i = 1 ∨ (2 ≤ i ∧ i < 32) ∨ 32 ≤ i by omega) with
    rfl | rfl | ⟨ha, hb⟩ | hc
  · simp [h0]
  · simp [h1]
  · simp [show ¬ i < 1 by omega, show ¬ i < 2 by omega, hb, show ¬ i = 1 by omega]
  · simp [show ¬ i < 1 by omega, show ¬ i < 2 by omega, show ¬ i < 32 by omega,
      show ¬ i = 1 by omega]

theorem word_size_mod4 (w : Nat) : (w &&& not32 3) % 4 = 0 := by
  have h := Nat.and_pow_two_sub_one_eq_mod (w &&& not32 3) 2
  rw [show (2 : Nat) ^ 2 = 4 by norm_num] at h
  rw [← h]
  apply Nat.eq_of_testBit_eq
  intro i
  simp only [Nat.testBit_and, testBit_not32_3, Nat.zero_testBit]
  rw [show (4 : Nat) - 1 = 2 ^ 2 - 1 by norm_num, Nat.testBit_two_pow_sub_one]
  by_cases h2 : i < 2 <;> simp [h2]

theorem word_size_lt (w : Nat) : w &&& not32 3 < u32 := by
  have h : w &&& not32 3 ≤ not32 3 := Nat.and_le_right
  have h2 : not32 3 < u32 := by decide
  omega

/-! ## Reads after writes -/

theorem write_u32_same (m : Mem) (a v : Nat) : write_u32 m a v a = m a / u32 * u32 + v % u32 := by
  unfold write_u32
  rw [if_pos rfl]

theorem write_u32_ne (m : Mem) (a v x : Nat) (h : x ≠ a) : write_u32 m a v x = m x := by
  unfold write_u32
  rw [if_neg h]

theorem write_ptr_same (m : Mem) (a v : Nat) : write_ptr m a v a = v := by
  unfold write_ptr
  rw [if_pos rfl]

theorem write_ptr_ne (m : Mem) (a v x : Nat) (h : x ≠ a) : write_ptr m a v x = m x := by
  unfold write_ptr
  rw [if_neg h]

theorem stored_mod (q r : Nat) : (q * u32 + r % u32) % u32 = r % u32 := by
  rw [Nat.mul_add_mod_of_lt (Nat.mod_lt _ (by decide))]

theorem sub32_of_le (a b : Nat) (h1 : b ≤ a) (h2 : a < u32) : sub32 a b = a - b := by
  unfold sub32
  have hb : b % u32 = b := Nat.mod_eq_of_lt (by omega)
  have e : a + u32 - b = (a - b) + u32 := by omega
  have hlt : a - b < u32 := by omega
  rw [Nat.mod_eq_of_lt h2, hb, e, Nat.add_mod_right, Nat.mod_eq_of_lt hlt]

theorem read_u32_write_u32_same (m : Mem) (a v : Nat) :
    read_u32 (write_u32 m a v) a = v % u32 := by
  unfold read_u32
  rw [write_u32_same, stored_mod]

theorem read_u32_write_u32_ne (m : Mem) (a v x : Nat) (h : x ≠ a) :
    read_u32 (write_u32 m a v) x = read_u32 m x := by
  unfold read_u32
  rw [write_u32_ne m a v x h]

theorem read_u32_write_ptr_same (m : Mem) (a v : Nat) :
    read_u32 (write_ptr m a v) a = v % u32 := by
  unfold read_u32
  rw [write_ptr_same]

theorem read_u32_write_ptr_ne (m : Mem) (a v x : Nat) (h : x ≠ a) :
    read_u32 (write_ptr m a v) x = read_u32 m x := by
  unfold read_u32
  rw [write_ptr_ne m a v x h]

theorem read_ptr_write_ptr_same (m : Mem) (a v : Nat) : read_ptr (write_ptr m a v) a = v := by
  unfold read_ptr
  rw [write_ptr_same]

theorem read_ptr_write_ptr_ne (m : Mem) (a v x : Nat) (h : x ≠ a) :
    read_ptr (write_ptr m a v) x = read_ptr m x := by
  unfold read_ptr
  rw [write_ptr_ne m a v x h]

theorem read_ptr_write_u32_ne (m : Mem) (a v x : Nat) (h : x ≠ a) :
    read_ptr (write_u32 m a v) x = read_ptr m x := by
  unfold read_ptr
  rw [write_u32_ne m a v x h]

theorem overhead_eq (P : Nat) : simplc_chunk_overhead P = P := by
  unfold simplc_chunk_overhead offsetof_payload simplc_chunk_overlap_size
  omega

theorem min_size_eq (P : Nat) : simplc_chunk_min_size P = 3 * P := by
  unfold simplc_chunk_min_size sizeof_simpl_chunk simplc_chunk_overhead offsetof_payload
    simplc_chunk_overlap_size
  omega

theorem size_addr_eq (P c : Nat) : size_addr P c = c + P := rfl

theorem free_prev_addr_eq (P c : Nat) : free_prev_addr P c = c + 2 * P := rfl

theorem free_next_addr_eq (P c : Nat) : free_next_addr P c = c + 3 * P := by
  unfold free_next_addr offsetof_payload
  omega

theorem stored_div (q r : Nat) : (q * u32 + r % u32) / u32 = q := by
  have h : r % u32 < u32 := Nat.mod_lt _ (by decide)
  rw [Nat.add_comm, Nat.add_mul_div_right _ _ (by decide : 0 < u32), Nat.div_eq_of_lt h,
    Nat.zero_add]

/-! ## Closed forms of the chunk helpers -/

theorem set_chunk_used_eq (P : Nat) (m : Mem) (c s : Nat) (hP : 0 < P)
    (hs : get_chunk_size P m c = s) :
    set_chunk_used P m c =
      write_u32 (write_u32 m (c + P) (read_u32 m (c + P) &&& not32 1)) (c + P + s + P)
        (read_u32 m (c + P + s + P) &&& not32 2) := by
  simp only [get_chunk_size, size_addr_eq, chunk_flags_mask] at hs
  unfold set_chunk_used
  simp (disch := omega) only [next_phys_chunk, get_chunk_size, size_addr_eq, overhead_eq,
    read_u32_write_u32_same, read_u32_write_u32_ne, chunk_flags_mask, chunk_flag_free_mask,
    chunk_flag_prev_free_mask, word_clr1_size, word_mod_size, hs]

theorem set_chunk_free_eq (P : Nat) (m : Mem) (c s : Nat) (hP : 0 < P)
    (hs : get_chunk_size P m c = s) :
    set_chunk_free P m c =
      write_u32 (write_u32 m (c + P) (read_u32 m (c + P) ||| 1)) (c + P + s + P)
        (read_u32 m (c + P + s + P) ||| 2) := by
  simp only [get_chunk_size, size_addr_eq, chunk_flags_mask] at hs
  unfold set_chunk_free
  simp (disch := omega) only [next_phys_chunk, get_chunk_size, size_addr_eq, overhead_eq,
    read_u32_write_u32_same, read_u32_write_u32_ne, chunk_flags_mask, chunk_flag_free_mask,
    chunk_flag_prev_free_mask, word_or1_size, word_mod_size, hs]

theorem merge_noop (P : Nat) (pool : simpl_pool) (c : Nat)
    (h1 : is_chunk_prev_free P pool.mem c = 0)
    (h2 : is_chunk_free P pool.mem (next_phys_chunk P pool.mem c) = 0) :
    merge_free_neighbor_chunk P pool c = (c, pool) := by
  unfold merge_free_neighbor_chunk
  simp only [h1, ne_eq, not_true_eq_false, if_false, h2]

theorem push_free_chunk_mem (P : Nat) (pool : simpl_pool) (c : Nat) :
    (push_free_chunk P pool c).mem =
      write_ptr (write_ptr
        (if pool.freelists (freelists_mapping (get_chunk_size P pool.mem c)) ≠ 0 then
          write_ptr pool.mem
            (pool.freelists (freelists_mapping (get_chunk_size P pool.mem c)) + 2 * P) c
        else pool.mem) (c + 2 * P) 0) (c + 3 * P)
        (pool.freelists (freelists_mapping (get_chunk_size P pool.mem c))) := by
  unfold push_free_chunk set_bitmap
  simp only [free_prev_addr_eq, free_next_addr_eq]

theorem push_free_chunk_freelists (P : Nat) (pool : simpl_pool) (c i : Nat) :
    (push_free_chunk P pool c).freelists i =
      if i = freelists_mapping (get_chunk_size P pool.mem c) then c else pool.freelists i := by
  unfold push_free_chunk set_bitmap
  simp only []

theorem pop_free_chunk_mem (P : Nat) (pool : simpl_pool) (c : Nat) :
    (pop_free_chunk P pool c).mem =
      (if read_ptr pool.mem (c + 3 * P) ≠ 0 then
        write_ptr
          (if read_ptr pool.mem (c + 2 * P) ≠ 0 then
            write_ptr pool.mem (read_ptr pool.mem (c + 2 * P) + 3 * P)
              (read_ptr pool.mem (c + 3 * P))
          else pool.mem)
          (read_ptr pool.mem (c + 3 * P) + 2 * P) (read_ptr pool.mem (c + 2 * P))
      else
        (if read_ptr pool.mem (c + 2 * P) ≠ 0 then
          write_ptr pool.mem (read_ptr pool.mem (c + 2 * P) + 3 * P)
            (read_ptr pool.mem (c + 3 * P))
        else pool.mem)) := by
  unfold pop_free_chunk clr_bitmap
  simp only [free_prev_addr_eq, free_next_addr_eq]
  by_cases h1 : read_ptr pool.mem (c + 2 * P) = 0 <;>
    by_cases h2 : read_ptr pool.mem (c + 3 * P) = 0 <;> simp [h1, h2]

theorem pop_free_chunk_freelists (P : Nat) (pool : simpl_pool) (c i : Nat) :
    (pop_free_chunk P pool c).freelists i =
      if read_ptr pool.mem (c + 2 * P) = 0 ∧ i = freelists_mapping (get_chunk_size P pool.mem c)
      then read_ptr pool.mem (c + 3 * P) else pool.freelists i := by
  unfold pop_free_chunk clr_bitmap
  simp only [free_prev_addr_eq, free_next_addr_eq]
  by_cases h1 : read_ptr pool.mem (c + 2 * P) = 0 <;>
    by_cases h2 : read_ptr pool.mem (c + 3 * P) = 0 <;> simp [h1, h2]


theorem trim_split (P : Nat) (pool : simpl_pool) (c R cs : Nat) (hP : 0 < P)
    (hP4 : P % 4 = 0) (hcs : get_chunk_size P pool.mem c = cs) (hR4 : R % 4 = 0) (hR : R ≤ cs)
    (hsplit : 4 * P ≤ cs - R)
    (hNN : is_chunk_free P pool.mem (c + P + cs) = 0) :
    trim_chunk_to_use P pool c R =
      (c, push_free_chunk P
        { pool with
          mem := write_u32 (write_ptr (write_u32 (write_u32 pool.mem (c + P)
            (R ||| (read_u32 pool.mem (c + P) &&& 2))) (c + P + R + P) ((cs - R - P) ||| 1))
            (c + P + cs) (c + P + R)) (c + P + cs + P)
            (read_u32 pool.mem (c + P + cs + P) ||| 2) }
        (c + P + R)) := by
  have hu : u32 = 4294967296 := rfl
  have hcs_lt : cs < u32 := by rw [← hcs]; exact word_size_lt _
  have hcs4 : cs % 4 = 0 := by rw [← hcs]; exact word_size_mod4 _
  unfold trim_chunk_to_use
  simp only [hcs]
  have hrem : sub32 cs R = cs - R := sub32_of_le cs R hR hcs_lt
  rw [hrem, overhead_eq, min_size_eq, if_pos (by omega)]
  have hrem2 : sub32 cs (cs - R) = R := by rw [sub32_of_le cs (cs - R) (by omega) hcs_lt]; omega
  have hrem3 : sub32 (cs - R) P = cs - R - P := sub32_of_le _ _ (by omega) (by omega)
  rw [hrem2, hrem3]
  have hT : next_phys_chunk P (set_chunk_size P pool.mem c R) c = c + P + R := by
    simp (disch := omega) only [next_phys_chunk, set_chunk_size, get_chunk_size, get_chunk_flags,
      size_addr_eq, overhead_eq, read_u32_write_u32_same, chunk_flags_mask, word_set_size,
      word_mod_size]
  rw [hT]
  have hN : next_phys_chunk P (write_u32 (set_chunk_size P pool.mem c R)
      (size_addr P (c + P + R)) (cs - R - P)) (c + P + R) = c + P + cs := by
    simp (disch := omega) only [next_phys_chunk, set_chunk_size, get_chunk_size, get_chunk_flags,
      size_addr_eq, overhead_eq, read_u32_write_u32_same, chunk_flags_mask, word_set_size,
      word_mod_size, word_raw_size]
    omega
  rw [hN]
  have h3 : get_chunk_size P (write_ptr (write_u32 (set_chunk_size P pool.mem c R)
      (size_addr P (c + P + R)) (cs - R - P)) (c + P + cs) (c + P + R)) c = R := by
    simp (disch := omega) only [set_chunk_size, get_chunk_size, get_chunk_flags,
      size_addr_eq, overhead_eq, read_u32_write_u32_same, read_u32_write_u32_ne,
      read_u32_write_ptr_ne, chunk_flags_mask, word_set_size,
      word_mod_size, word_raw_size]
  rw [set_chunk_used_eq P _ c R hP h3]
  have h4 : get_chunk_size P (write_u32
      (write_u32
        (write_ptr
          (write_u32 (set_chunk_size P pool.mem c R) (size_addr P (c + P + R)) (cs - R - P))
          (c + P + cs) (c + P + R))
        (c + P)
        (read_u32
          (write_ptr
            (write_u32 (set_chunk_size P pool.mem c R) (size_addr P (c + P + R)) (cs - R - P))
            (c + P + cs) (c + P + R))
          (c + P) &&& not32 1))
      (c + P + R + P)
      (read_u32
        (write_ptr
          (write_u32 (set_chunk_size P pool.mem c R) (size_addr P (c + P + R)) (cs - R - P))
          (c + P + cs) (c + P + R))
        (c + P + R + P) &&& not32 2)) (c + P + R) = cs - R - P := by
    simp (disch := omega) only [set_chunk_size, get_chunk_size, get_chunk_flags,
      size_addr_eq, overhead_eq, read_u32_write_u32_same, read_u32_write_u32_ne,
      read_u32_write_ptr_ne, chunk_flags_mask, word_set_size, word_clr2_size,
      word_mod_size, word_raw_size]
  rw [set_chunk_free_eq P _ (c + P + R) (cs - R - P) hP h4]
  simp (disch := omega) only [set_chunk_size, get_chunk_flags,
      size_addr_eq, read_u32_write_u32_same, read_u32_write_u32_ne,
      read_u32_write_ptr_ne, chunk_flags_mask]
  rw [show c + P + R + P + (cs - R - P) + P = c + P + cs + P by omega]
  have hmem : write_u32 (write_u32 (write_u32 (write_u32 (write_ptr (write_u32
      (write_u32 pool.mem (c + P) (R ||| read_u32 pool.mem (c + P) &&& 3))
      (c + P + R + P) (cs - R - P)) (c + P + cs) (c + P + R))
      (c + P) ((R ||| read_u32 pool.mem (c + P) &&& 3) % u32 &&& not32 1))
      (c + P + R + P) ((cs - R - P) % u32 &&& not32 2))
      (c + P + R + P) (((cs - R - P) % u32 &&& not32 2) % u32 ||| 1))
      (c + P + cs + P) (read_u32 pool.mem (c + P + cs + P) ||| 2) =
      write_u32 (write_ptr (write_u32 (write_u32 pool.mem (c + P)
            (R ||| (read_u32 pool.mem (c + P) &&& 2))) (c + P + R + P) ((cs - R - P) ||| 1))
            (c + P + cs) (c + P + R)) (c + P + cs + P)
            (read_u32 pool.mem (c + P + cs + P) ||| 2) := by
    funext x
    rcases (show x = c + P ∨ x = c + P + R + P ∨ x = c + P + cs ∨ x = c + P + cs + P ∨
      (x ≠ c + P ∧ x ≠ c + P + R + P ∧ x ≠ c + P + cs ∧ x ≠ c + P + cs + P) by omega)
      with rfl | rfl | rfl | rfl | ⟨h1, h2, h3, h4⟩
    · simp (disch := omega) only [write_u32_same, write_u32_ne, write_ptr_same, write_ptr_ne,
        stored_div, word_used_val]
    · simp (disch := omega) only [write_u32_same, write_u32_ne, write_ptr_same, write_ptr_ne,
        stored_div, word_free_val]
    · simp (disch := omega) only [write_u32_same, write_u32_ne, write_ptr_same, write_ptr_ne,
        stored_div]
    · simp (disch := omega) only [write_u32_same, write_u32_ne, write_ptr_same, write_ptr_ne,
        stored_div]
    · simp (disch := omega) only [write_u32_same, write_u32_ne, write_ptr_same, write_ptr_ne,
        stored_div]
  rw [hmem]
  have hpf : is_chunk_prev_free P (write_u32 (write_ptr (write_u32 (write_u32 pool.mem (c + P)
            (R ||| (read_u32 pool.mem (c + P) &&& 2))) (c + P + R + P) ((cs - R - P) ||| 1))
            (c + P + cs) (c + P + R)) (c + P + cs + P)
            (read_u32 pool.mem (c + P + cs + P) ||| 2)) (c + P + R) = 0 := by
    simp (disch := omega) only [is_chunk_prev_free, size_addr_eq, read_u32_write_u32_same,
      read_u32_write_u32_ne, read_u32_write_ptr_ne, chunk_flag_prev_free_mask, word_mod_pfree,
      word_or1_pfree, word_raw_pfree]
  have hnf : is_chunk_free P (write_u32 (write_ptr (write_u32 (write_u32 pool.mem (c + P)
            (R ||| (read_u32 pool.mem (c + P) &&& 2))) (c + P + R + P) ((cs - R - P) ||| 1))
            (c + P + cs) (c + P + R)) (c + P + cs + P)
            (read_u32 pool.mem (c + P + cs + P) ||| 2))
        (next_phys_chunk P (write_u32 (write_ptr (write_u32 (write_u32 pool.mem (c + P)
            (R ||| (read_u32 pool.mem (c + P) &&& 2))) (c + P + R + P) ((cs - R - P) ||| 1))
            (c + P + cs) (c + P + R)) (c + P + cs + P)
            (read_u32 pool.mem (c + P + cs + P) ||| 2)) (c + P + R)) = 0 := by
    simp only [is_chunk_free, size_addr_eq, chunk_flag_free_mask] at hNN
    simp (disch := omega) only [is_chunk_free, next_phys_chunk, get_chunk_size, overhead_eq,
      size_addr_eq, read_u32_write_u32_same,
      read_u32_write_u32_ne, read_u32_write_ptr_ne, chunk_flag_free_mask, chunk_flags_mask,
      word_mod_free, word_mod_size, word_or1_size, word_raw_size]
    rw [show c + P + R + P + (cs - R - P) + P = c + P + cs + P by omega]
    simp (disch := omega) only [read_u32_write_u32_same, word_mod_free, word_or2_free, hNN]
  rw [merge_noop P _ (c + P + R) hpf hnf]


/-! ## Walking a free list -/

theorem sizeof_chunk_eq (P : Nat) : sizeof_simpl_chunk P = 4 * P := rfl

theorem freelist_walk_succ (P : Nat) (m : Mem) (f h : Nat) (hh : h ≠ 0) :
    freelist_walk P m (f + 1) h = h :: freelist_walk P m f (read_ptr m (h + 3 * P)) := by
  rw [freelist_walk, if_neg hh, free_next_addr_eq]

theorem freelist_walk_null (P : Nat) (m : Mem) (f : Nat) : freelist_walk P m f 0 = [] := by
  cases f with
  | zero => rfl
  | succ f => rw [freelist_walk, if_pos rfl]

theorem freelist_walk_ne_zero (P : Nat) (m : Mem) :
    ∀ (f h y : Nat), y ∈ freelist_walk P m f h → y ≠ 0 := by
  intro f
  induction f with
  | zero => intro h y hy; simp [freelist_walk] at hy
  | succ f ih =>
    intro h y hy
    by_cases hh : h = 0
    · rw [hh, freelist_walk_null] at hy
      simp at hy
    · rw [freelist_walk_succ P m f h hh] at hy
      rcases List.mem_cons.mp hy with rfl | hy
      · exact hh
      · exact ih _ y hy

/-- A walk that ended on a null link does not depend on the remaining fuel. -/
theorem freelist_walk_fuel (P : Nat) (m : Mem) :
    ∀ (f g h : Nat), (freelist_walk P m f h).length < f → (freelist_walk P m f h).length < g →
      freelist_walk P m g h = freelist_walk P m f h := by
  intro f
  induction f with
  | zero => intro g h hf; simp at hf
  | succ f ih =>
    intro g h hf hg
    by_cases hh : h = 0
    · rw [hh, freelist_walk_null, freelist_walk_null]
    · rw [freelist_walk_succ P m f h hh] at hf hg ⊢
      cases g with
      | zero => simp at hg
      | succ g =>
        rw [freelist_walk_succ P m g h hh]
        simp only [List.length_cons, Nat.add_lt_add_iff_right] at hf hg
        rw [ih g _ hf hg]

/-- A walk reads only the `free_next` links of the chunks it meets. -/
theorem freelist_walk_congr (P : Nat) (m1 m2 : Mem) :
    ∀ (f h : Nat), (∀ y ∈ freelist_walk P m1 f h, m2 (y + 3 * P) = m1 (y + 3 * P)) →
      freelist_walk P m2 f h = freelist_walk P m1 f h := by
  intro f
  induction f with
  | zero => intro h _; rfl
  | succ f ih =>
    intro h hy
    by_cases hh : h = 0
    · rw [hh, freelist_walk_null, freelist_walk_null]
    · rw [freelist_walk_succ P m1 f h hh] at hy ⊢
      rw [freelist_walk_succ P m2 f h hh]
      have h1 : read_ptr m2 (h + 3 * P) = read_ptr m1 (h + 3 * P) :=
        hy h (List.mem_cons_self _ _)
      rw [h1, ih _ (fun y hy1 => hy y (List.mem_cons_of_mem _ hy1))]

/-- The `free_next` link of a chunk of a terminated walk is null or a chunk of the walk. -/
theorem freelist_walk_next_mem (P : Nat) (m : Mem) (x : Nat) :
    ∀ (f h : Nat), (freelist_walk P m f h).length < f → x ∈ freelist_walk P m f h →
      read_ptr m (x + 3 * P) = 0 ∨ read_ptr m (x + 3 * P) ∈ freelist_walk P m f h := by
  intro f
  induction f with
  | zero => intro h hf; simp at hf
  | succ f ih =>
    intro h hf hx
    by_cases hh : h = 0
    · rw [hh, freelist_walk_null] at hx
      simp at hx
    · rw [freelist_walk_succ P m f h hh] at hf hx ⊢
      simp only [List.length_cons, Nat.add_lt_add_iff_right] at hf
      rcases List.mem_cons.mp hx with rfl | hx
      · by_cases hn : read_ptr m (x + 3 * P) = 0
        · exact Or.inl hn
        · right
          apply List.mem_cons_of_mem
          cases f with
          | zero => simp at hf
          | succ f =>
            rw [freelist_walk_succ P m f _ hn]
            exact List.mem_cons_self _ _
      · rcases ih _ hf hx with h0 | h1
        · exact Or.inl h0
        · exact Or.inr (List.mem_cons_of_mem _ h1)

/-- The `free_prev` link of a chunk of a back-linked list is the chunk before the
list when the chunk is its head, and a chunk of the list otherwise. -/
theorem back_linked_prev_mem (P : Nat) (m : Mem) (x : Nat) :
    ∀ (L : List Nat) (prev : Nat), back_linked P m prev L = true → x ∈ L →
      (L.head? = some x ∧ read_ptr m (x + 2 * P) = prev) ∨
        (L.head? ≠ some x ∧ read_ptr m (x + 2 * P) ∈ L) := by
  intro L
  induction L with
  | nil => intro prev _ hx; simp at hx
  | cons a L ih =>
    intro prev hb hx
    simp only [back_linked, Bool.and_eq_true, decide_eq_true_eq, free_prev_addr_eq] at hb
    by_cases hax : a = x
    · left
      rw [← hax]
      exact ⟨rfl, hb.1⟩
    · right
      have hx1 : x ∈ L := by
        rcases List.mem_cons.mp hx with h | h
        · exact absurd h.symm hax
        · exact h
      refine ⟨by simpa using hax, ?_⟩
      rcases ih a hb.2 hx1 with ⟨_, h2⟩ | ⟨_, h2⟩
      · rw [h2]
        exact List.mem_cons_self _ _
      · exact List.mem_cons_of_mem _ h2

/-- In a terminated walk without repetition, the `free_next` link of a chunk is
null or another chunk of the walk. -/
theorem freelist_walk_next_ne (P : Nat) (m : Mem) (x : Nat) :
    ∀ (f h : Nat), (freelist_walk P m f h).length < f → x ∈ freelist_walk P m f h →
      (freelist_walk P m f h).Nodup →
      read_ptr m (x + 3 * P) = 0 ∨
        (read_ptr m (x + 3 * P) ∈ freelist_walk P m f h ∧ read_ptr m (x + 3 * P) ≠ x) := by
  intro f
  induction f with
  | zero => intro h hf; simp at hf
  | succ f ih =>
    intro h hf hx hnd
    by_cases hh : h = 0
    · rw [hh, freelist_walk_null] at hx
      simp at hx
    · rw [freelist_walk_succ P m f h hh] at hf hx hnd ⊢
      simp only [List.length_cons, Nat.add_lt_add_iff_right] at hf
      have hnd1 := List.nodup_cons.mp hnd
      rcases List.mem_cons.mp hx with rfl | hx
      · by_cases hn : read_ptr m (x + 3 * P) = 0
        · exact Or.inl hn
        · right
          have hin : read_ptr m (x + 3 * P) ∈ freelist_walk P m f (read_ptr m (x + 3 * P)) := by
            cases f with
            | zero => simp at hf
            | succ f =>
              rw [freelist_walk_succ P m f _ hn]
              exact List.mem_cons_self _ _
          exact ⟨List.mem_cons_of_mem _ hin, fun e => hnd1.1
            (Eq.mp (congrArg (fun z => z ∈ freelist_walk P m f (read_ptr m (x + 3 * P))) e) hin)⟩
      · rcases ih _ hf hx hnd1.2 with h0 | h1
        · exact Or.inl h0
        · exact Or.inr ⟨List.mem_cons_of_mem _ h1.1, h1.2⟩

/-- In a back-linked list without repetition, the `free_prev` link of a chunk is
the chunk before the list or another chunk of the list. -/
theorem back_linked_prev_ne (P : Nat) (m : Mem) (x : Nat) :
    ∀ (L : List Nat) (prev : Nat), back_linked P m prev L = true → x ∈ L → L.Nodup →
      read_ptr m (x + 2 * P) = prev ∨
        (read_ptr m (x + 2 * P) ∈ L ∧ read_ptr m (x + 2 * P) ≠ x) := by
  intro L
  induction L with
  | nil => intro prev _ hx; simp at hx
  | cons a L ih =>
    intro prev hb hx hnd
    simp only [back_linked, Bool.and_eq_true, decide_eq_true_eq, free_prev_addr_eq] at hb
    have hnd1 := List.nodup_cons.mp hnd
    by_cases hax : a = x
    · left
      rw [← hax]
      exact hb.1
    · right
      have hx1 : x ∈ L := by
        rcases List.mem_cons.mp hx with h | h
        · exact absurd h.symm hax
        · exact h
      rcases ih a hb.2 hx1 hnd1.2 with h2 | h2
      · rw [h2]
        exact ⟨List.mem_cons_self _ _, hax⟩
      · exact ⟨List.mem_cons_of_mem _ h2.1, h2.2⟩

/-- A cell that is not one of the two links `pop_free_chunk` stores keeps its content. -/
theorem pop_free_chunk_frame (P : Nat) (pool : simpl_pool) (c a : Nat)
    (hfp : read_ptr pool.mem (c + 2 * P) = 0 ∨ a ≠ read_ptr pool.mem (c + 2 * P) + 3 * P)
    (hfn : read_ptr pool.mem (c + 3 * P) = 0 ∨ a ≠ read_ptr pool.mem (c + 3 * P) + 2 * P) :
    (pop_free_chunk P pool c).mem a = pool.mem a := by
  rw [pop_free_chunk_mem]
  by_cases h1 : read_ptr pool.mem (c + 2 * P) = 0 <;>
    by_cases h2 : read_ptr pool.mem (c + 3 * P) = 0
  · simp only [h1, h2, ne_eq, not_true_eq_false, if_false]
  · simp only [h1, h2, ne_eq, not_true_eq_false, if_false, not_false_eq_true, if_true]
    exact write_ptr_ne _ _ _ _ (hfn.resolve_left h2)
  · simp only [h1, h2, ne_eq, not_true_eq_false, if_false, not_false_eq_true, if_true]
    exact write_ptr_ne _ _ _ _ (hfp.resolve_left h1)
  · simp only [h1, h2, ne_eq, not_false_eq_true, if_true]
    rw [write_ptr_ne _ _ _ _ (hfn.resolve_left h2), write_ptr_ne _ _ _ _ (hfp.resolve_left h1)]

theorem apart_next_ne_prev (P y z : Nat) (hP : 0 < P) (h : y = z ∨ apart P y z) :
    y + 3 * P ≠ z + 2 * P := by
  unfold apart at h
  rw [sizeof_chunk_eq] at h
  omega

/-- The `free_next` link of another chunk after `pop_free_chunk`. -/
theorem pop_free_chunk_read_next (P : Nat) (pool : simpl_pool) (c y : Nat) (hy : y ≠ 0)
    (hfn : read_ptr pool.mem (c + 3 * P) = 0 ∨ y + 3 * P ≠ read_ptr pool.mem (c + 3 * P) + 2 * P) :
    read_ptr (pop_free_chunk P pool c).mem (y + 3 * P) =
      if y = read_ptr pool.mem (c + 2 * P) then read_ptr pool.mem (c + 3 * P)
      else read_ptr pool.mem (y + 3 * P) := by
  rw [pop_free_chunk_mem]
  by_cases h1 : read_ptr pool.mem (c + 2 * P) = 0
  · have hne : y ≠ read_ptr pool.mem (c + 2 * P) := by rw [h1]; exact hy
    by_cases h2 : read_ptr pool.mem (c + 3 * P) = 0
    · simp only [h1, h2, ne_eq, not_true_eq_false, if_false, if_neg hy]
    · rcases hfn with h | h
      · exact absurd h h2
      · simp only [h1, ne_eq, not_true_eq_false, if_false, h2, not_false_eq_true, if_true,
          if_neg hy]
        rw [read_ptr_write_ptr_ne _ _ _ _ h]
  · by_cases hyp : y = read_ptr pool.mem (c + 2 * P)
    · by_cases h2 : read_ptr pool.mem (c + 3 * P) = 0
      · simp only [h1, h2, ne_eq, not_true_eq_false, if_false, not_false_eq_true, if_true,
          if_pos hyp]
        rw [← hyp, read_ptr_write_ptr_same]
      · rcases hfn with h | h
        · exact absurd h h2
        · simp only [h1, h2, ne_eq, not_false_eq_true, if_true, if_pos hyp]
          rw [read_ptr_write_ptr_ne _ _ _ _ h, ← hyp, read_ptr_write_ptr_same]
    · have hne : y + 3 * P ≠ read_ptr pool.mem (c + 2 * P) + 3 * P := by omega
      by_cases h2 : read_ptr pool.mem (c + 3 * P) = 0
      · simp only [h1, h2, ne_eq, not_true_eq_false, if_false, not_false_eq_true, if_true,
          if_neg hyp]
        rw [read_ptr_write_ptr_ne _ _ _ _ hne]
      · rcases hfn with h | h
        · exact absurd h h2
        · simp only [h1, h2, ne_eq, not_false_eq_true, if_true, if_neg hyp]
          rw [read_ptr_write_ptr_ne _ _ _ _ h, read_ptr_write_ptr_ne _ _ _ _ hne]

/-- Unlinking: the walk of a list after `pop_free_chunk` of one of its chunks. -/
theorem pop_free_chunk_walk_from (P : Nat) (pool : simpl_pool) (nx : Nat) :
    ∀ (f h prev : Nat),
      (freelist_walk P pool.mem f h).length < f →
      nx ∈ freelist_walk P pool.mem f h →
      back_linked P pool.mem prev (freelist_walk P pool.mem f h) = true →
      (freelist_walk P pool.mem f h).Nodup →
      prev ∉ freelist_walk P pool.mem f h →
      (read_ptr pool.mem (nx + 3 * P) = 0 ∨
        ∀ y ∈ freelist_walk P pool.mem f h, y + 3 * P ≠ read_ptr pool.mem (nx + 3 * P) + 2 * P) →
      freelist_walk P (pop_free_chunk P pool nx).mem f
          (if h = nx then read_ptr pool.mem (nx + 3 * P) else h) =
        (freelist_walk P pool.mem f h).erase nx := by
  intro f
  induction f with
  | zero => intro h prev hf; simp at hf
  | succ f ih =>
    intro h prev hf hx hb hnd hprev hfn
    by_cases hh : h = 0
    · rw [hh, freelist_walk_null] at hx
      simp at hx
    · rw [freelist_walk_succ P pool.mem f h hh] at hf hx hb hnd hprev hfn ⊢
      simp only [List.length_cons, Nat.add_lt_add_iff_right] at hf
      simp only [back_linked, Bool.and_eq_true, decide_eq_true_eq, free_prev_addr_eq] at hb
      have hnz : ∀ y ∈ freelist_walk P pool.mem f (read_ptr pool.mem (h + 3 * P)), y ≠ 0 :=
        fun y hy => freelist_walk_ne_zero P pool.mem f _ y hy
      have hfn1 : ∀ y ∈ freelist_walk P pool.mem f (read_ptr pool.mem (h + 3 * P)),
          read_ptr pool.mem (nx + 3 * P) = 0 ∨
            y + 3 * P ≠ read_ptr pool.mem (nx + 3 * P) + 2 * P := by
        intro y hy
        rcases hfn with h0 | h1
        · exact Or.inl h0
        · exact Or.inr (h1 y (List.mem_cons_of_mem _ hy))
      by_cases hx1 : h = nx
      · rw [if_pos hx1, ← hx1, List.erase_cons_head]
        rw [← hx1] at hfn1
        have hcongr := freelist_walk_congr P pool.mem (pop_free_chunk P pool h).mem f
          (read_ptr pool.mem (h + 3 * P)) (by
            intro y hy
            have e := pop_free_chunk_read_next P pool h y (hnz y hy) (hfn1 y hy)
            show read_ptr (pop_free_chunk P pool h).mem (y + 3 * P) = read_ptr pool.mem (y + 3 * P)
            rw [e, if_neg]
            rw [hb.1]
            intro hyp
            exact hprev (hyp ▸ List.mem_cons_of_mem _ hy))
        rw [← hcongr] at hf ⊢
        exact freelist_walk_fuel P _ f (f + 1) _ hf (by omega)
      · have hxr : nx ∈ freelist_walk P pool.mem f (read_ptr pool.mem (h + 3 * P)) := by
          rcases List.mem_cons.mp hx with e | e
          · exact absurd e.symm hx1
          · exact e
        rw [if_neg hx1, freelist_walk_succ P _ f h hh, List.erase_cons_tail (by simpa using hx1)]
        have hhfn : read_ptr pool.mem (nx + 3 * P) = 0 ∨
            h + 3 * P ≠ read_ptr pool.mem (nx + 3 * P) + 2 * P := by
          rcases hfn with h0 | h1
          · exact Or.inl h0
          · exact Or.inr (h1 h (List.mem_cons_self _ _))
        have e := pop_free_chunk_read_next P pool nx h hh hhfn
        have hnd1 := (List.nodup_cons.mp hnd)
        have hstep := ih (read_ptr pool.mem (h + 3 * P)) h hf hxr hb.2 hnd1.2
          hnd1.1 (by
            rcases hfn with h0 | h1
            · exact Or.inl h0
            · exact Or.inr (fun y hy => h1 y (List.mem_cons_of_mem _ hy)))
        rcases back_linked_prev_mem P pool.mem nx _ h hb.2 hxr with ⟨hhead, hfp⟩ | ⟨hhead, hfp⟩
        · have hnext : read_ptr pool.mem (h + 3 * P) = nx := by
            cases f with
            | zero => simp at hf
            | succ f =>
              by_cases hz : read_ptr pool.mem (h + 3 * P) = 0
              · rw [hz, freelist_walk_null] at hhead
                simp at hhead
              · rw [freelist_walk_succ P _ f _ hz] at hhead
                simpa using hhead
          rw [hnext, if_pos rfl] at hstep
          rw [e, if_pos hfp.symm, hnext, hstep]
        · have hne : h ≠ read_ptr pool.mem (nx + 2 * P) := by
            intro hyp
            exact hnd1.1 (hyp ▸ hfp)
          have hnext : read_ptr pool.mem (h + 3 * P) ≠ nx := by
            intro hyp
            cases f with
            | zero => simp at hf
            | succ f =>
              have hz : read_ptr pool.mem (h + 3 * P) ≠ 0 := by
                rw [hyp]
                exact freelist_walk_ne_zero P pool.mem _ _ nx hxr
              rw [freelist_walk_succ P _ f _ hz, hyp] at hhead
              simp at hhead
          rw [e, if_neg hne]
          rw [if_neg hnext] at hstep
          rw [hstep]


/-- The list of a class after `pop_free_chunk` of one of its chunks: the chunk is erased. -/
theorem pop_free_chunk_walk (P : Nat) (pool : simpl_pool) (nx fuel : Nat) (hP : 0 < P)
    (hfuel : (freelist_walk P pool.mem fuel
      (pool.freelists (freelists_mapping (get_chunk_size P pool.mem nx)))).length < fuel)
    (hmem : nx ∈ freelist_walk P pool.mem fuel
      (pool.freelists (freelists_mapping (get_chunk_size P pool.mem nx))))
    (hnd : (freelist_walk P pool.mem fuel
      (pool.freelists (freelists_mapping (get_chunk_size P pool.mem nx)))).Nodup)
    (hbl : back_linked P pool.mem 0 (freelist_walk P pool.mem fuel
      (pool.freelists (freelists_mapping (get_chunk_size P pool.mem nx)))) = true)
    (hpair : ∀ y ∈ freelist_walk P pool.mem fuel
      (pool.freelists (freelists_mapping (get_chunk_size P pool.mem nx))),
      ∀ z ∈ freelist_walk P pool.mem fuel
        (pool.freelists (freelists_mapping (get_chunk_size P pool.mem nx))),
        y = z ∨ apart P y z) :
    freelist_walk P (pop_free_chunk P pool nx).mem fuel
        ((pop_free_chunk P pool nx).freelists (freelists_mapping (get_chunk_size P pool.mem nx))) =
      (freelist_walk P pool.mem fuel
        (pool.freelists (freelists_mapping (get_chunk_size P pool.mem nx)))).erase nx := by
  have h0 : (0 : Nat) ∉ freelist_walk P pool.mem fuel
      (pool.freelists (freelists_mapping (get_chunk_size P pool.mem nx))) :=
    fun h => freelist_walk_ne_zero P pool.mem _ _ 0 h rfl
  have hfn : read_ptr pool.mem (nx + 3 * P) = 0 ∨
      ∀ y ∈ freelist_walk P pool.mem fuel
        (pool.freelists (freelists_mapping (get_chunk_size P pool.mem nx))),
        y + 3 * P ≠ read_ptr pool.mem (nx + 3 * P) + 2 * P := by
    rcases freelist_walk_next_mem P pool.mem nx fuel _ hfuel hmem with h | h
    · exact Or.inl h
    · exact Or.inr (fun y hy => apart_next_ne_prev P y _ hP (hpair y hy _ h))
  have hmain := pop_free_chunk_walk_from P pool nx fuel _ 0 hfuel hmem hbl hnd h0 hfn
  rw [← hmain, pop_free_chunk_freelists]
  congr 1
  rcases back_linked_prev_mem P pool.mem nx _ 0 hbl hmem with ⟨hhead, hfp⟩ | ⟨hhead, hfp⟩
  · have hh : pool.freelists (freelists_mapping (get_chunk_size P pool.mem nx)) = nx := by
      cases fuel with
      | zero => simp at hfuel
      | succ f =>
        by_cases hz : pool.freelists (freelists_mapping (get_chunk_size P pool.mem nx)) = 0
        · rw [hz, freelist_walk_null] at hhead
          simp at hhead
        · rw [freelist_walk_succ P _ f _ hz] at hhead
          simpa using hhead
    rw [if_pos ⟨hfp, rfl⟩, if_pos hh]
  · have hfp0 : read_ptr pool.mem (nx + 2 * P) ≠ 0 :=
      freelist_walk_ne_zero P pool.mem _ _ _ hfp
    have hh : pool.freelists (freelists_mapping (get_chunk_size P pool.mem nx)) ≠ nx := by
      intro hyp
      cases fuel with
      | zero => simp at hfuel
      | succ f =>
        have hz : pool.freelists (freelists_mapping (get_chunk_size P pool.mem nx)) ≠ 0 := by
          rw [hyp]
          exact freelist_walk_ne_zero P pool.mem _ _ nx hmem
        rw [freelist_walk_succ P _ f _ hz] at hhead
        simp [hyp] at hhead
    rw [if_neg (fun h => hfp0 h.1), if_neg hh]

/-! ## Sizes handed to `trim_chunk_to_use` are multiples of 4 -/

theorem shl_mod_u32_mod4 (k : Nat) :
    ((32 <<< k) % u32) % 4 = 0 ∧ (((32 <<< k) % u32) >>> 3) % 4 = 0 := by
  rw [Nat.shiftLeft_eq, Nat.shiftRight_eq_div_pow]
  by_cases hk : k < 27
  · interval_cases k <;> decide
  · obtain ⟨j, rfl⟩ : ∃ j, k = 27 + j := ⟨k - 27, by omega⟩
    have e : 32 * 2 ^ (27 + j) = u32 * 2 ^ j := by
      unfold u32
      rw [Nat.pow_add]
      norm_num
      ring
    rw [e, Nat.mul_mod_right]
    decide

theorem mod_u32_mod4 (a : Nat) : (a % u32) % 4 = a % 4 :=
  Nat.mod_mod_of_dvd a (by decide : 4 ∣ u32)

theorem mapping_size_mod4 (fi : Nat) : mapping_size fi % 4 = 0 := by
  unfold mapping_size
  simp only []
  have key : ∀ a b c : Nat, a % 4 = 0 → c % 4 = 0 → ((a + b * c) % u32) % 4 = 0 := by
    intro a b c ha hc
    have h1 : (b * c) % 4 = 0 := by rw [Nat.mul_mod, hc]; simp
    rw [mod_u32_mod4]
    omega
  have hsize : ∀ sz : Nat, sz % 4 = 0 → (sz >>> 3) % 4 = 0 →
      ((sz + get_sl_index fi * (if sz ≠ 0 then sz >>> 3 else 4)) % u32) % 4 = 0 := by
    intro sz h1 h2
    by_cases h : sz ≠ 0
    · rw [if_pos h]
      exact key _ _ _ h1 h2
    · rw [if_neg h]
      exact key _ _ _ h1 (by decide)
  have hshift : ∀ sz sh : Nat, sz % 4 = 0 → ((sz <<< sh) % u32) % 4 = 0 := by
    intro sz sh h
    rw [Nat.shiftLeft_eq]
    have h1 : (sz * 2 ^ sh) % 4 = 0 := by rw [Nat.mul_mod, h]; simp
    rw [mod_u32_mod4, h1]
  apply hshift
  by_cases h : (if get_fl_index fi < 8 then get_fl_index fi
      else if get_fl_index fi < 16 then get_fl_index fi - 8 else get_fl_index fi - 16) ≠ 0
  · rw [if_pos h]
    exact hsize _ (shl_mod_u32_mod4 _).1 (shl_mod_u32_mod4 _).2
  · rw [if_neg h]
    exact hsize 0 (by decide) (by decide)

theorem size_roundup_mod4 (x : Nat) (hx : x % 4 = 0) : size_roundup x % 4 = 0 := by
  unfold size_roundup
  simp only []
  split
  · exact mapping_size_mod4 _
  · exact hx

theorem adjust_alloc_size_mod4 (P n : Nat) (hP : P = 4 ∨ P = 8) :
    adjust_alloc_size P n P % 4 = 0 := by
  have hal : ∀ v, (align_up P v P % u32) % 4 = 0 := by
    intro v
    rw [mod_u32_mod4]
    unfold align_up
    simp only []
    rcases hP with rfl | rfl
    · have h := land_notptr_mod 4 2 ((v + (4 + uptr 4 - 1) % uptr 4) % uptr 4) (by decide)
      rw [show (4 + uptr 4 - 1) % uptr 4 = 2 ^ 2 - 1 by decide]
      norm_num at h ⊢
      omega
    · have h := land_notptr_mod 8 3 ((v + (8 + uptr 8 - 1) % uptr 8) % uptr 8) (by decide)
      rw [show (8 + uptr 8 - 1) % uptr 8 = 2 ^ 3 - 1 by decide]
      norm_num at h ⊢
      omega
  unfold adjust_alloc_size
  simp only []
  split_ifs <;> first | rfl | exact hal _

/-! ## The state after `trim_chunk_to_use` -/

theorem trim_nosplit (P : Nat) (pool : simpl_pool) (c R cs : Nat)
    (hcs : get_chunk_size P pool.mem c = cs) (hR : R ≤ cs) (hns : cs - R < 4 * P) :
    trim_chunk_to_use P pool c R = (c, { pool with mem := set_chunk_used P pool.mem c }) := by
  have hcs_lt : cs < u32 := by rw [← hcs]; exact word_size_lt _
  unfold trim_chunk_to_use
  simp only [hcs]
  rw [sub32_of_le cs R hR hcs_lt, overhead_eq, min_size_eq, if_neg (by omega)]

theorem trim_split_remainder_size (P : Nat) (m : Mem) (c R cs : Nat) (hP : 0 < P)
    (hP4 : P % 4 = 0) (hcs4 : cs % 4 = 0) (hcs : cs < u32) (hR4 : R % 4 = 0)
    (hsplit : 4 * P ≤ cs - R) :
    get_chunk_size P (write_u32 (write_ptr (write_u32 (write_u32 m (c + P)
      (R ||| (read_u32 m (c + P) &&& 2))) (c + P + R + P) ((cs - R - P) ||| 1))
      (c + P + cs) (c + P + R)) (c + P + cs + P) (read_u32 m (c + P + cs + P) ||| 2))
      (c + P + R) = cs - R - P := by
  simp (disch := omega) only [get_chunk_size, size_addr_eq, read_u32_write_u32_same,
    read_u32_write_u32_ne, read_u32_write_ptr_ne, chunk_flags_mask, word_mod_size, word_or1_size,
    word_raw_size]

/-- After `trim_chunk_to_use` the chunk is in use, with the trimmed size when the
rest was split off and with its old size otherwise. -/
theorem trim_chunk_to_use_used (P : Nat) (pool : simpl_pool) (c R cs : Nat) (hP : 0 < P)
    (hP4 : P % 4 = 0) (hcs : get_chunk_size P pool.mem c = cs) (hR4 : R % 4 = 0) (hR : R ≤ cs)
    (hNN : is_chunk_free P pool.mem (c + P + cs) = 0)
    (hhd : pool.freelists (freelists_mapping (cs - R - P)) = 0 ∨
      pool.freelists (freelists_mapping (cs - R - P)) + 2 * P ≠ c + P) :
    get_chunk_size P (trim_chunk_to_use P pool c R).2.mem c = (if 4 * P ≤ cs - R then R else cs) ∧
      is_chunk_free P (trim_chunk_to_use P pool c R).2.mem c = 0 := by
  have hu : u32 = 4294967296 := rfl
  have hcs_lt : cs < u32 := by rw [← hcs]; exact word_size_lt _
  have hcs4 : cs % 4 = 0 := by rw [← hcs]; exact word_size_mod4 _
  by_cases hsp : 4 * P ≤ cs - R
  · rw [if_pos hsp, trim_split P pool c R cs hP hP4 hcs hR4 hR hsp hNN]
    simp only []
    rw [push_free_chunk_mem]
    simp only [trim_split_remainder_size P pool.mem c R cs hP hP4 hcs4 hcs_lt hR4 hsp]
    rcases hhd with h0 | h1
    · rw [h0]
      simp (disch := omega) only [ne_eq, not_true_eq_false, if_false, get_chunk_size,
        is_chunk_free, size_addr_eq, read_u32_write_u32_same, read_u32_write_u32_ne,
        read_u32_write_ptr_ne, chunk_flags_mask, chunk_flag_free_mask, word_mod_size,
        word_mod_free, word_keep2_size, word_keep2_free, and_self]
    · by_cases h0 : pool.freelists (freelists_mapping (cs - R - P)) = 0
      · rw [h0]
        simp (disch := omega) only [ne_eq, not_true_eq_false, if_false, get_chunk_size,
          is_chunk_free, size_addr_eq, read_u32_write_u32_same, read_u32_write_u32_ne,
          read_u32_write_ptr_ne, chunk_flags_mask, chunk_flag_free_mask, word_mod_size,
          word_mod_free, word_keep2_size, word_keep2_free, and_self]
      · rw [if_pos h0]
        simp (disch := omega) only [get_chunk_size,
          is_chunk_free, size_addr_eq, read_u32_write_u32_same, read_u32_write_u32_ne,
          read_u32_write_ptr_ne, chunk_flags_mask, chunk_flag_free_mask, word_mod_size,
          word_mod_free, word_keep2_size, word_keep2_free, and_self]
  · rw [if_neg hsp, trim_nosplit P pool c R cs hcs hR (by omega)]
    simp only []
    rw [set_chunk_used_eq P _ c cs hP hcs]
    simp only [get_chunk_size, size_addr_eq, chunk_flags_mask] at hcs
    simp (disch := omega) only [get_chunk_size,
      is_chunk_free, size_addr_eq, read_u32_write_u32_same, read_u32_write_u32_ne,
      chunk_flags_mask, chunk_flag_free_mask, word_mod_size,
      word_mod_free, word_clr1_size, word_clr1_free, hcs, and_self]

/-- Outside the span from the size word of the chunk to the size word of the chunk
after it, `trim_chunk_to_use` stores at most the back link of the old head of the
class of the rest. -/
theorem trim_chunk_to_use_frame (P : Nat) (pool : simpl_pool) (c R cs a : Nat) (hP : 0 < P)
    (hP4 : P % 4 = 0) (hcs : get_chunk_size P pool.mem c = cs) (hR4 : R % 4 = 0) (hR : R ≤ cs)
    (hNN : is_chunk_free P pool.mem (c + P + cs) = 0)
    (ha : a < c + P ∨ c + P + cs + P < a)
    (hhd : pool.freelists (freelists_mapping (cs - R - P)) = 0 ∨
      a ≠ pool.freelists (freelists_mapping (cs - R - P)) + 2 * P) :
    (trim_chunk_to_use P pool c R).2.mem a = pool.mem a := by
  have hu : u32 = 4294967296 := rfl
  have hcs_lt : cs < u32 := by rw [← hcs]; exact word_size_lt _
  have hcs4 : cs % 4 = 0 := by rw [← hcs]; exact word_size_mod4 _
  by_cases hsp : 4 * P ≤ cs - R
  · rw [trim_split P pool c R cs hP hP4 hcs hR4 hR hsp hNN]
    simp only []
    rw [push_free_chunk_mem]
    simp only [trim_split_remainder_size P pool.mem c R cs hP hP4 hcs4 hcs_lt hR4 hsp]
    by_cases h0 : pool.freelists (freelists_mapping (cs - R - P)) = 0
    · rw [h0]
      simp (disch := omega) only [ne_eq, not_true_eq_false, if_false, write_u32_ne, write_ptr_ne]
    · rw [if_pos h0]
      have h1 := hhd.resolve_left h0
      simp (disch := omega) only [write_u32_ne, write_ptr_ne]
  · rw [trim_nosplit P pool c R cs hcs hR (by omega)]
    simp only []
    rw [set_chunk_used_eq P _ c cs hP hcs]
    simp (disch := omega) only [write_u32_ne]

/-- The class heads after `trim_chunk_to_use`: the rest, when split off, is the new
head of its class. -/
theorem trim_chunk_to_use_freelists (P : Nat) (pool : simpl_pool) (c R cs i : Nat) (hP : 0 < P)
    (hP4 : P % 4 = 0) (hcs : get_chunk_size P pool.mem c = cs) (hR4 : R % 4 = 0) (hR : R ≤ cs)
    (hNN : is_chunk_free P pool.mem (c + P + cs) = 0) :
    (trim_chunk_to_use P pool c R).2.freelists i =
      if 4 * P ≤ cs - R ∧ i = freelists_mapping (cs - R - P) then c + P + R
      else pool.freelists i := by
  have hu : u32 = 4294967296 := rfl
  have hcs_lt : cs < u32 := by rw [← hcs]; exact word_size_lt _
  have hcs4 : cs % 4 = 0 := by rw [← hcs]; exact word_size_mod4 _
  by_cases hsp : 4 * P ≤ cs - R
  · rw [trim_split P pool c R cs hP hP4 hcs hR4 hR hsp hNN]
    simp only []
    rw [push_free_chunk_freelists]
    simp only [trim_split_remainder_size P pool.mem c R cs hP hP4 hcs4 hcs_lt hR4 hsp, hsp,
      true_and]
  · rw [trim_nosplit P pool c R cs hcs hR (by omega)]
    simp only [hsp, false_and, if_false]

/-- The rest split off by `trim_chunk_to_use` links to the old head of its class. -/
theorem trim_chunk_to_use_link (P : Nat) (pool : simpl_pool) (c R cs : Nat) (hP : 0 < P)
    (hP4 : P % 4 = 0) (hcs : get_chunk_size P pool.mem c = cs) (hR4 : R % 4 = 0) (hR : R ≤ cs)
    (hNN : is_chunk_free P pool.mem (c + P + cs) = 0) (hsp : 4 * P ≤ cs - R) :
    read_ptr (trim_chunk_to_use P pool c R).2.mem (c + P + R + 3 * P) =
      pool.freelists (freelists_mapping (cs - R - P)) := by
  have hcs_lt : cs < u32 := by rw [← hcs]; exact word_size_lt _
  have hcs4 : cs % 4 = 0 := by rw [← hcs]; exact word_size_mod4 _
  rw [trim_split P pool c R cs hP hP4 hcs hR4 hR hsp hNN]
  simp only []
  rw [push_free_chunk_mem]
  simp only [trim_split_remainder_size P pool.mem c R cs hP hP4 hcs4 hcs_lt hR4 hsp]
  rw [read_ptr_write_ptr_same]

/-! ## Growing a chunk into its free successor -/

/-- The grow-right path of `simpl_realloc`: the state it returns. -/
theorem simpl_realloc_grow_right_eq (P simp : Nat) (pool : simpl_pool) (p n c s nx t R : Nat)
    (hsimp : simp ≠ 0) (hn : n ≠ 0) (hp1 : offsetof_payload P ≤ p) (hp2 : p < uptr P) (hP : 0 < P)
    (hc : get_payload_chunk P p = c) (hs : get_chunk_size P pool.mem c = s)
    (hnx : next_phys_chunk P pool.mem c = nx) (hfree : is_chunk_free P pool.mem nx ≠ 0)
    (ht : get_chunk_size P pool.mem nx = t)
    (hadj : adjust_alloc_size P n P ≠ 0) (hR : size_roundup (adjust_alloc_size P n P) = R)
    (hlo : s < R) (hhi : R ≤ s + P + t) (h32 : s + P + t < u32) :
    simpl_realloc P simp pool p n =
      (p, (trim_chunk_to_use P
        { pop_free_chunk P pool nx with
          mem := set_chunk_size P (pop_free_chunk P pool nx).mem c (s + P + t) } c R).2) := by
  have hp0 : p ≠ 0 := by
    unfold offsetof_payload at hp1
    omega
  unfold simpl_realloc
  simp only [hc, hs, hnx, ht, hR, overhead_eq]
  rw [if_neg hp0, if_neg (by simp [hsimp, hn]), if_neg hadj, if_neg (by omega),
    Nat.mod_eq_of_lt h32, if_pos hfree, if_pos ⟨hfree, hhi⟩]
  rw [trim_chunk_to_use_fst, ← hc, payload_roundtrip P p hp1 hp2]


/-- C14: `simpl_realloc` grows a chunk into its free successor in place.  Let `p`
be a payload whose chunk `c` has size `s`, let the physical successor `nx` of `c`
be free with size `t` and be followed by a chunk that is not free, and let the
rounded size `R` of the request `n` satisfy `s < R ≤ s + chunk_overhead + t`
(a sum that fits in 32 bits).  Let the free list `L` of the class of `t` be a
null-terminated, back-linked list without repetition that holds `nx`, whose
other chunks, like the head of the class of the rest `s + t - R`, lie outside
the span of `c`, `nx` and the header of the chunk after `nx`.  Then
`simpl_realloc(pool, p, n)` returns `p`, the chunk `c` is afterwards in use with
size at least `R`, and the list of the class of `t` ends on a null link and no
longer holds `nx`. -/
theorem simpl_realloc_grow_right_in_place (P : Nat) (hP : P = 4 ∨ P = 8) (simp : Nat)
    (pool : simpl_pool) (p n c s nx t R fuel : Nat) (L : List Nat)
    (hsimp : simp ≠ 0) (hn : n ≠ 0) (hp1 : offsetof_payload P ≤ p) (hp2 : p < uptr P)
    (hc : get_payload_chunk P p = c) (hs : get_chunk_size P pool.mem c = s)
    (hnx : next_phys_chunk P pool.mem c = nx) (hfree : is_chunk_free P pool.mem nx ≠ 0)
    (ht : get_chunk_size P pool.mem nx = t)
    (hadj : adjust_alloc_size P n P ≠ 0) (hR : size_roundup (adjust_alloc_size P n P) = R)
    (hlo : s < R) (hhi : R ≤ s + simplc_chunk_overhead P + t)
    (h32 : s + simplc_chunk_overhead P + t < u32)
    (hNN : is_chunk_free P pool.mem (next_phys_chunk P pool.mem nx) = 0)
    (hL : freelist_walk P pool.mem fuel (pool.freelists (freelists_mapping t)) = L)
    (hfuel : L.length < fuel) (hmem : nx ∈ L) (hnd : L.Nodup)
    (hbl : back_linked P pool.mem 0 L = true)
    (hpair : ∀ y ∈ L, ∀ z ∈ L, y = z ∨ apart P y z)
    (hsep : ∀ y ∈ L, y ≠ nx →
      outside P y c (next_phys_chunk P pool.mem nx + offsetof_payload P))
    (hhd : pool.freelists (freelists_mapping (s + t - R)) = 0 ∨
      pool.freelists (freelists_mapping (s + t - R)) ∈ L ∨
      (outside P (pool.freelists (freelists_mapping (s + t - R))) c
          (next_phys_chunk P pool.mem nx + offsetof_payload P) ∧
        ∀ y ∈ L, apart P (pool.freelists (freelists_mapping (s + t - R))) y)) :
    (simpl_realloc P simp pool p n).1 = p ∧
      R ≤ get_chunk_size P (simpl_realloc P simp pool p n).2.mem c ∧
      is_chunk_free P (simpl_realloc P simp pool p n).2.mem c = 0 ∧
      nx ∉ freelist_walk P (simpl_realloc P simp pool p n).2.mem fuel
        ((simpl_realloc P simp pool p n).2.freelists (freelists_mapping t)) ∧
      (freelist_walk P (simpl_realloc P simp pool p n).2.mem fuel
        ((simpl_realloc P simp pool p n).2.freelists (freelists_mapping t))).length < fuel := by
  have hP0 : 0 < P := by rcases hP with rfl | rfl <;> decide
  have hP4 : P % 4 = 0 := by rcases hP with rfl | rfl <;> decide
  have hu : u32 = 4294967296 := rfl
  rw [overhead_eq] at hhi h32
  have hs4 : s % 4 = 0 := by rw [← hs]; exact word_size_mod4 _
  have ht4 : t % 4 = 0 := by rw [← ht]; exact word_size_mod4 _
  have hR4 : R % 4 = 0 := by
    rw [← hR]
    exact size_roundup_mod4 _ (adjust_alloc_size_mod4 P n hP)
  have hnxa : nx = c + P + s := by rw [← hnx, next_phys_chunk, overhead_eq, hs]
  have hNNa : next_phys_chunk P pool.mem nx = c + P + (s + P + t) := by
    rw [next_phys_chunk, overhead_eq, ht, hnxa]
    omega
  rw [hNNa] at hNN hsep hhd
  simp only [outside, sizeof_chunk_eq, offsetof_payload] at hsep hhd
  have hfp := back_linked_prev_ne P pool.mem nx L 0 hbl hmem hnd
  have hfn : read_ptr pool.mem (nx + 3 * P) = 0 ∨
      (read_ptr pool.mem (nx + 3 * P) ∈ L ∧ read_ptr pool.mem (nx + 3 * P) ≠ nx) := by
    have h := freelist_walk_next_ne P pool.mem nx fuel _ (by rw [hL]; exact hfuel)
      (by rw [hL]; exact hmem) (by rw [hL]; exact hnd)
    rw [hL] at h
    exact h
  have hw := pop_free_chunk_walk P pool nx fuel hP0 (by rw [ht, hL]; exact hfuel)
    (by rw [ht, hL]; exact hmem) (by rw [ht, hL]; exact hnd) (by rw [ht, hL]; exact hbl)
    (by rw [ht, hL]; exact hpair)
  rw [ht, hL] at hw
  have hfpa : read_ptr pool.mem (nx + 2 * P) = 0 ∨
      (read_ptr pool.mem (nx + 2 * P) + 4 * P ≤ c ∨
        c + P + (s + P + t) + 2 * P ≤ read_ptr pool.mem (nx + 2 * P)) := by
    rcases hfp with h | ⟨h1, h2⟩
    · exact Or.inl h
    · exact Or.inr (hsep _ h1 h2)
  have hfna : read_ptr pool.mem (nx + 3 * P) = 0 ∨
      (read_ptr pool.mem (nx + 3 * P) + 4 * P ≤ c ∨
        c + P + (s + P + t) + 2 * P ≤ read_ptr pool.mem (nx + 3 * P)) := by
    rcases hfn with h | ⟨h1, h2⟩
    · exact Or.inl h
    · exact Or.inr (hsep _ h1 h2)
  obtain ⟨pool2, hpool2⟩ : ∃ q : simpl_pool, q = { pop_free_chunk P pool nx with
      mem := set_chunk_size P (pop_free_chunk P pool nx).mem c (s + P + t) } := ⟨_, rfl⟩
  have hmem2 : pool2.mem = write_u32 (pop_free_chunk P pool nx).mem (c + P)
      ((s + P + t) ||| (read_u32 (pop_free_chunk P pool nx).mem (c + P) &&& 3)) := by
    rw [hpool2]
    rfl
  have hfl2 : pool2.freelists = (pop_free_chunk P pool nx).freelists := by rw [hpool2]
  have hcs2 : get_chunk_size P pool2.mem c = s + P + t := by
    rw [hmem2]
    simp (disch := omega) only [get_chunk_size, size_addr_eq, read_u32_write_u32_same,
      chunk_flags_mask, word_mod_size, word_set_size]
  have hNN2 : is_chunk_free P pool2.mem (c + P + (s + P + t)) = 0 := by
    rw [hmem2]
    have e := pop_free_chunk_frame P pool nx (c + P + (s + P + t) + P) (by omega) (by omega)
    simp only [is_chunk_free, size_addr_eq, chunk_flag_free_mask] at hNN ⊢
    rw [read_u32_write_u32_ne _ _ _ _ (by omega)]
    unfold read_u32 at hNN ⊢
    rw [e]
    exact hNN
  have hLsep : ∀ z ∈ L, z + 2 * P ≠ c + P ∧ ∀ y ∈ L, y + 3 * P ≠ z + 2 * P := by
    intro z hz
    constructor
    · by_cases hzx : z = nx
      · omega
      · have := hsep z hz hzx
        omega
    · intro y hy
      exact apart_next_ne_prev P y z hP0 (hpair y hy z hz)
  have hhd2 : pool2.freelists (freelists_mapping (s + P + t - R - P)) = 0 ∨
      (pool2.freelists (freelists_mapping (s + P + t - R - P)) + 2 * P ≠ c + P ∧
        ∀ y ∈ L, y + 3 * P ≠ pool2.freelists (freelists_mapping (s + P + t - R - P)) + 2 * P) := by
    rw [hfl2, pop_free_chunk_freelists, show s + P + t - R - P = s + t - R by omega]
    split
    · rcases hfn with h | ⟨h1, _⟩
      · exact Or.inl h
      · exact Or.inr (hLsep _ h1)
    · rcases hhd with h | h | ⟨h1, h2⟩
      · exact Or.inl h
      · exact Or.inr (hLsep _ h)
      · right
        constructor
        · omega
        · intro y hy
          have := h2 y hy
          unfold apart at this
          rw [sizeof_chunk_eq] at this
          omega
  rw [simpl_realloc_grow_right_eq P simp pool p n c s nx t R hsimp hn hp1 hp2 hP0 hc hs hnx hfree
    ht hadj hR hlo hhi h32, ← hpool2]
  simp only []
  have hused := trim_chunk_to_use_used P pool2 c R (s + P + t) hP0 hP4 hcs2 hR4 hhi hNN2
    (by
      rcases hhd2 with h | h
      · exact Or.inl h
      · exact Or.inr h.1)
  refine ⟨trivial, ?_, hused.2, ?_⟩
  · rw [hused.1]
    split <;> omega
  · have hframe : ∀ y ∈ L.erase nx, (trim_chunk_to_use P pool2 c R).2.mem (y + 3 * P) =
        (pop_free_chunk P pool nx).mem (y + 3 * P) := by
      intro y hy
      have hy1 : y ∈ L := List.mem_of_mem_erase hy
      have hy2 : y ≠ nx := (hnd.mem_erase_iff.mp hy).1
      have ho := hsep y hy1 hy2
      rw [trim_chunk_to_use_frame P pool2 c R _ (y + 3 * P) hP0 hP4 hcs2 hR4 hhi hNN2 (by omega)
        (by
          rcases hhd2 with h | h
          · exact Or.inl h
          · exact Or.inr (h.2 y hy1)), hmem2, write_u32_ne _ _ _ _ (by omega)]
    have hlen : (L.erase nx).length + 1 = L.length := by
      rw [List.length_erase_of_mem hmem]
      have : 0 < L.length := List.length_pos_of_mem hmem
      omega
    rw [trim_chunk_to_use_freelists P pool2 c R _ _ hP0 hP4 hcs2 hR4 hhi hNN2, hfl2]
    by_cases hcl : 4 * P ≤ s + P + t - R ∧
        freelists_mapping t = freelists_mapping (s + P + t - R - P)
    · rw [if_pos hcl]
      obtain ⟨f, rfl⟩ : ∃ f, fuel = f + 1 := ⟨fuel - 1, by omega⟩
      rw [freelist_walk_succ P _ f _ (by omega),
        trim_chunk_to_use_link P pool2 c R _ hP0 hP4 hcs2 hR4 hhi hNN2 hcl.1, hfl2, ← hcl.2]
      have hw1 : freelist_walk P (pop_free_chunk P pool nx).mem f
          ((pop_free_chunk P pool nx).freelists (freelists_mapping t)) = L.erase nx := by
        rw [freelist_walk_fuel P _ (f + 1) f _ (by rw [hw]; omega) (by rw [hw]; omega), hw]
      have hwf : freelist_walk P (trim_chunk_to_use P pool2 c R).2.mem f
          ((pop_free_chunk P pool nx).freelists (freelists_mapping t)) = L.erase nx := by
        rw [← hw1]
        apply freelist_walk_congr
        intro y hy
        rw [hw1] at hy
        exact hframe y hy
      rw [hwf]
      refine ⟨?_, ?_⟩
      · intro hin
        rcases List.mem_cons.mp hin with h | h
        · omega
        · exact hnd.not_mem_erase h
      · rw [List.length_cons]
        omega
    · rw [if_neg hcl]
      have hwf : freelist_walk P (trim_chunk_to_use P pool2 c R).2.mem fuel
          ((pop_free_chunk P pool nx).freelists (freelists_mapping t)) = L.erase nx := by
        rw [← hw]
        apply freelist_walk_congr
        intro y hy
        rw [hw] at hy
        exact hframe y hy
      rw [hwf]
      exact ⟨hnd.not_mem_erase, by omega⟩

/-- Witness of C14: on `six_blocks_free_CE`, block B (payload 4856, chunk 4840 of
size 64) is followed by the free chunk 4912 of size 256, second in the list
`[5248, 4912]` of its class; `n = 128` has the rounded size 128. -/
theorem simpl_realloc_grow_right_in_place_witness :
    (pool_64k.1 ≠ 0 ∧ 128 ≠ 0 ∧ offsetof_payload 8 ≤ 4856 ∧ 4856 < uptr 8 ∧
        get_payload_chunk 8 4856 = 4840 ∧ get_chunk_size 8 six_blocks_free_CE.mem 4840 = 64 ∧
        next_phys_chunk 8 six_blocks_free_CE.mem 4840 = 4912 ∧
        is_chunk_free 8 six_blocks_free_CE.mem 4912 ≠ 0 ∧
        get_chunk_size 8 six_blocks_free_CE.mem 4912 = 256 ∧
        adjust_alloc_size 8 128 8 ≠ 0 ∧ size_roundup (adjust_alloc_size 8 128 8) = 128 ∧
        64 < 128 ∧ 128 ≤ 64 + simplc_chunk_overhead 8 + 256 ∧
        64 + simplc_chunk_overhead 8 + 256 < u32 ∧
        is_chunk_free 8 six_blocks_free_CE.mem (next_phys_chunk 8 six_blocks_free_CE.mem 4912)
          = 0 ∧
        freelist_walk 8 six_blocks_free_CE.mem 8
          (six_blocks_free_CE.freelists (freelists_mapping 256)) = [5248, 4912] ∧
        [5248, 4912].length < 8 ∧ 4912 ∈ [5248, 4912] ∧ [5248, 4912].Nodup ∧
        back_linked 8 six_blocks_free_CE.mem 0 [5248, 4912] = true) ∧
      (simpl_realloc 8 pool_64k.1 six_blocks_free_CE 4856 128).1 = 4856 ∧
      128 ≤ get_chunk_size 8 (simpl_realloc 8 pool_64k.1 six_blocks_free_CE 4856 128).2.mem 4840 ∧
      is_chunk_free 8 (simpl_realloc 8 pool_64k.1 six_blocks_free_CE 4856 128).2.mem 4840 = 0 ∧
      4912 ∉ freelist_walk 8 (simpl_realloc 8 pool_64k.1 six_blocks_free_CE 4856 128).2.mem 8
        ((simpl_realloc 8 pool_64k.1 six_blocks_free_CE 4856 128).2.freelists
          (freelists_mapping 256)) ∧
      (freelist_walk 8 (simpl_realloc 8 pool_64k.1 six_blocks_free_CE 4856 128).2.mem 8
        ((simpl_realloc 8 pool_64k.1 six_blocks_free_CE 4856 128).2.freelists
          (freelists_mapping 256))).length < 8 :=
  ⟨by decide,
    simpl_realloc_grow_right_in_place 8 (Or.inr rfl) pool_64k.1 six_blocks_free_CE 4856 128 4840
      64 4912 256 128 8 [5248, 4912] (by decide) (by decide) (by decide) (by decide) (by decide)
      (by decide) (by decide) (by decide) (by decide) (by decide) (by decide) (by decide)
      (by decide) (by decide) (by decide) (by decide) (by decide) (by decide) (by decide)
      (by decide) (by decide) (by decide) (by decide)⟩

/-! ## Growing a chunk into its free predecessor -/

/-- A cell after `pop_free_chunk` holds its old content or one of the two links of
the popped chunk. -/
theorem pop_free_chunk_mem_cases (P : Nat) (pool : simpl_pool) (x a : Nat) :
    (pop_free_chunk P pool x).mem a = pool.mem a ∨
      (pop_free_chunk P pool x).mem a = read_ptr pool.mem (x + 2 * P) ∨
      (pop_free_chunk P pool x).mem a = read_ptr pool.mem (x + 3 * P) := by
  rw [pop_free_chunk_mem]
  by_cases h1 : read_ptr pool.mem (x + 2 * P) = 0 <;>
    by_cases h2 : read_ptr pool.mem (x + 3 * P) = 0 <;>
    simp only [h1, h2, ne_eq, not_true_eq_false, not_false_eq_true, if_true, if_false,
      write_ptr] <;>
    (try split_ifs) <;> simp

/-- A class head after `pop_free_chunk` is the old head or the `free_next` link of
the popped chunk. -/
theorem pop_free_chunk_freelists_cases (P : Nat) (pool : simpl_pool) (x i : Nat) :
    (pop_free_chunk P pool x).freelists i = pool.freelists i ∨
      (pop_free_chunk P pool x).freelists i = read_ptr pool.mem (x + 3 * P) := by
  rw [pop_free_chunk_freelists]
  split_ifs <;> simp

theorem memmove_outside (m : Mem) (dst src n a : Nat) (h : a < dst ∨ dst + n ≤ a) :
    memmove m dst src n a = m a := by
  unfold memmove
  rw [if_neg (by omega)]

/-- The grow-left path of `simpl_realloc`: the state it returns. -/
theorem simpl_realloc_grow_left_eq (P simp : Nat) (pool : simpl_pool)
    (p n c s pv sp nx t g R : Nat)
    (hsimp : simp ≠ 0) (hn : n ≠ 0) (hp1 : offsetof_payload P ≤ p) (hP : 0 < P)
    (hc : get_payload_chunk P p = c) (hs : get_chunk_size P pool.mem c = s)
    (hpf : is_chunk_prev_free P pool.mem c ≠ 0) (hpv : prev_phys_chunk pool.mem c = pv)
    (hsp : get_chunk_size P pool.mem pv = sp)
    (hnx : next_phys_chunk P pool.mem c = nx) (ht : get_chunk_size P pool.mem nx = t)
    (hg : g = if is_chunk_free P pool.mem nx ≠ 0 then P + t else 0)
    (hadj : adjust_alloc_size P n P ≠ 0) (hR : size_roundup (adjust_alloc_size P n P) = R)
    (hlo : s < R) (hright : is_chunk_free P pool.mem nx ≠ 0 → s + P + t < R)
    (hhi : R ≤ s + g + P + sp) (h32 : s + g + P + sp < u32) :
    simpl_realloc P simp pool p n =
      (get_chunk_payload P pv,
        (trim_chunk_to_use P
          { (if is_chunk_free P (pop_free_chunk P pool pv).mem nx ≠ 0 then
              pop_free_chunk P (pop_free_chunk P pool pv) nx
            else pop_free_chunk P pool pv) with
            mem := memmove
              (set_chunk_size P
                (if is_chunk_free P (pop_free_chunk P pool pv).mem nx ≠ 0 then
                  pop_free_chunk P (pop_free_chunk P pool pv) nx
                else pop_free_chunk P pool pv).mem pv (s + g + P + sp))
              (get_chunk_payload P pv) (get_chunk_payload P c)
              (get_chunk_size P
                (set_chunk_size P
                  (if is_chunk_free P (pop_free_chunk P pool pv).mem nx ≠ 0 then
                    pop_free_chunk P (pop_free_chunk P pool pv) nx
                  else pop_free_chunk P pool pv).mem pv (s + g + P + sp)) c) } pv R).2) := by
  have hp0 : p ≠ 0 := by
    unfold offsetof_payload at hp1
    omega
  have hu : u32 = 4294967296 := rfl
  unfold simpl_realloc
  simp only [hc, hs, hnx, ht, hR, hpv, hsp, overhead_eq]
  rw [if_neg hp0, if_neg (by simp [hsimp, hn]), if_neg hadj, if_neg (by omega)]
  by_cases hF : is_chunk_free P pool.mem nx ≠ 0
  · rw [if_pos hF] at hg
    have h1 : s + P + t < u32 := by omega
    have hr := hright hF
    rw [if_pos hF, Nat.mod_eq_of_lt h1, if_neg (by omega),
      show s + P + t + sp + P = s + g + P + sp by omega, Nat.mod_eq_of_lt h32,
      if_pos ⟨hpf, hhi⟩, trim_chunk_to_use_fst]
  · rw [if_neg hF] at hg
    rw [if_neg hF, if_neg (fun h => hF h.1),
      show s + sp + P = s + g + P + sp by omega, Nat.mod_eq_of_lt h32,
      if_pos ⟨hpf, hhi⟩, trim_chunk_to_use_fst]

/-- A link that is null, one of the two chunks absorbed, or a chunk outside the
span: the cells at its `free_prev` and `free_next` fields are not the size words
of the span. -/
theorem link_cells (P pv sp c s nx g t l : Nat) (hP : 0 < P) (hca : c = pv + P + sp)
    (hnxa : nx = c + P + s) (hsp : 3 * P ≤ sp) (hga : g = 0 ∨ (g = P + t ∧ 3 * P ≤ t))
    (hQ : l = 0 ∨ l = pv ∨ l = nx ∨ (l + 4 * P ≤ pv ∨ nx + g + 2 * P ≤ l)) :
    l = 0 ∨ ((pv + P ≠ l + 2 * P ∧ pv + P ≠ l + 3 * P) ∧
      (c + P ≠ l + 2 * P ∧ c + P ≠ l + 3 * P) ∧
      (nx + P ≠ l + 2 * P ∧ nx + P ≠ l + 3 * P) ∧
      (nx + g + P ≠ l + 2 * P ∧ nx + g + P ≠ l + 3 * P)) := by
  rcases hQ with h | h | h | h | h
  · exact Or.inl h
  all_goals
    right
    rcases hga with hg | hg
    all_goals
      refine ⟨⟨?_, ?_⟩, ⟨?_, ?_⟩, ⟨?_, ?_⟩, ⟨?_, ?_⟩⟩ <;> omega

/-- C15: `simpl_realloc` grows a chunk into its free predecessor.  Let `p` be a
payload whose chunk `c` has size `s` and P(c) = 1, let `pv` be the physical
predecessor of `c`, of size `sp`, let `nx` be the physical successor of `c`, of
size `t`, and let `g` be `chunk_overhead + t` when `nx` is free and 0 otherwise.
Let the rounded size `R` of the request `n` exceed `s`, and `s + chunk_overhead + t`
when `nx` is free, and satisfy `R ≤ s + g + chunk_overhead + sp` (a sum that fits
in 32 bits).  Let `pv`, and `nx` when free, have at least the minimum chunk size,
let the chunk after the last chunk absorbed not be free, and let the free-list
links of `pv` (and of `nx` when free) and the head of the class of the rest
`s + g + sp - R` each be null, `pv`, `nx`, or a chunk outside the span from `pv`
to the header of the chunk after the last chunk absorbed.  Then
`simpl_realloc(pool, p, n)` returns the payload address of `pv`, and the chunk at
`pv` is afterwards in use with size at least `R`. -/
theorem simpl_realloc_grow_left_returns_prev (P : Nat) (hP : P = 4 ∨ P = 8) (simp : Nat)
    (pool : simpl_pool) (p n c s pv sp nx t g R : Nat)
    (hsimp : simp ≠ 0) (hn : n ≠ 0) (hp1 : offsetof_payload P ≤ p)
    (hc : get_payload_chunk P p = c) (hs : get_chunk_size P pool.mem c = s)
    (hpf : is_chunk_prev_free P pool.mem c ≠ 0) (hpv : prev_phys_chunk pool.mem c = pv)
    (hsp : get_chunk_size P pool.mem pv = sp) (hpvn : next_phys_chunk P pool.mem pv = c)
    (hnx : next_phys_chunk P pool.mem c = nx) (ht : get_chunk_size P pool.mem nx = t)
    (hg : g = if is_chunk_free P pool.mem nx ≠ 0 then simplc_chunk_overhead P + t else 0)
    (hadj : adjust_alloc_size P n P ≠ 0) (hR : size_roundup (adjust_alloc_size P n P) = R)
    (hlo : s < R)
    (hright : is_chunk_free P pool.mem nx ≠ 0 → s + simplc_chunk_overhead P + t < R)
    (hhi : R ≤ s + g + simplc_chunk_overhead P + sp)
    (h32 : s + g + simplc_chunk_overhead P + sp < u32)
    (hminp : simplc_chunk_min_size P ≤ sp)
    (hminn : is_chunk_free P pool.mem nx ≠ 0 → simplc_chunk_min_size P ≤ t)
    (hNN : is_chunk_free P pool.mem (nx + g) = 0)
    (hlp : ∀ l ∈ [read_ptr pool.mem (free_prev_addr P pv), read_ptr pool.mem (free_next_addr P pv),
        pool.freelists (freelists_mapping (s + g + sp - R))],
      l = 0 ∨ l = pv ∨ l = nx ∨ outside P l pv (nx + g + offsetof_payload P))
    (hln : is_chunk_free P pool.mem nx ≠ 0 →
      ∀ l ∈ [read_ptr pool.mem (free_prev_addr P nx), read_ptr pool.mem (free_next_addr P nx)],
        l = 0 ∨ l = pv ∨ l = nx ∨ outside P l pv (nx + g + offsetof_payload P)) :
    (simpl_realloc P simp pool p n).1 = get_chunk_payload P pv ∧
      R ≤ get_chunk_size P (simpl_realloc P simp pool p n).2.mem pv ∧
      is_chunk_free P (simpl_realloc P simp pool p n).2.mem pv = 0 := by
  have hP0 : 0 < P := by rcases hP with rfl | rfl <;> decide
  have hP4 : P % 4 = 0 := by rcases hP with rfl | rfl <;> decide
  have hu : u32 = 4294967296 := rfl
  rw [overhead_eq] at hhi h32 hright hg
  rw [min_size_eq] at hminp hminn
  have hs4 : s % 4 = 0 := by rw [← hs]; exact word_size_mod4 _
  have ht4 : t % 4 = 0 := by rw [← ht]; exact word_size_mod4 _
  have hsp4 : sp % 4 = 0 := by rw [← hsp]; exact word_size_mod4 _
  have hR4 : R % 4 = 0 := by
    rw [← hR]
    exact size_roundup_mod4 _ (adjust_alloc_size_mod4 P n hP)
  have hca : c = pv + P + sp := by rw [← hpvn, next_phys_chunk, overhead_eq, hsp]
  have hnxa : nx = c + P + s := by rw [← hnx, next_phys_chunk, overhead_eq, hs]
  have hga : g = 0 ∨ (g = P + t ∧ 3 * P ≤ t) := by
    by_cases hF : is_chunk_free P pool.mem nx ≠ 0
    · rw [if_pos hF] at hg
      exact Or.inr ⟨hg, hminn hF⟩
    · rw [if_neg hF] at hg
      exact Or.inl hg
  have hg4 : g % 4 = 0 := by omega
  simp only [outside, sizeof_chunk_eq, offsetof_payload, free_prev_addr_eq, free_next_addr_eq,
    List.mem_cons, List.mem_singleton, List.not_mem_nil, or_false, forall_eq_or_imp,
    forall_eq] at hlp hln
  obtain ⟨hQ1, hQ2, hQ3⟩ := hlp
  have c1 := link_cells P pv sp c s nx g t _ hP0 hca hnxa hminp hga hQ1
  have c2 := link_cells P pv sp c s nx g t _ hP0 hca hnxa hminp hga hQ2
  -- the cells that matter are not touched by the first pop
  have e1 : (pop_free_chunk P pool pv).mem (pv + P) = pool.mem (pv + P) :=
    pop_free_chunk_frame P pool pv _ (c1.imp_right (fun h => h.1.2))
      (c2.imp_right (fun h => h.1.1))
  have e2 : (pop_free_chunk P pool pv).mem (c + P) = pool.mem (c + P) :=
    pop_free_chunk_frame P pool pv _ (c1.imp_right (fun h => h.2.1.2))
      (c2.imp_right (fun h => h.2.1.1))
  have e3 : (pop_free_chunk P pool pv).mem (nx + P) = pool.mem (nx + P) :=
    pop_free_chunk_frame P pool pv _ (c1.imp_right (fun h => h.2.2.1.2))
      (c2.imp_right (fun h => h.2.2.1.1))
  have e4 : (pop_free_chunk P pool pv).mem (nx + g + P) = pool.mem (nx + g + P) :=
    pop_free_chunk_frame P pool pv _ (c1.imp_right (fun h => h.2.2.2.2))
      (c2.imp_right (fun h => h.2.2.2.1))
  have hF1 : is_chunk_free P (pop_free_chunk P pool pv).mem nx = is_chunk_free P pool.mem nx := by
    unfold is_chunk_free read_u32
    rw [size_addr_eq, e3]
  have key : ∃ q : simpl_pool,
      q = (if is_chunk_free P (pop_free_chunk P pool pv).mem nx ≠ 0 then
        pop_free_chunk P (pop_free_chunk P pool pv) nx else pop_free_chunk P pool pv) ∧
      q.mem (pv + P) = pool.mem (pv + P) ∧ q.mem (c + P) = pool.mem (c + P) ∧
      q.mem (nx + g + P) = pool.mem (nx + g + P) ∧
      (q.freelists (freelists_mapping (s + g + sp - R)) = 0 ∨
        q.freelists (freelists_mapping (s + g + sp - R)) = pv ∨
        q.freelists (freelists_mapping (s + g + sp - R)) = nx ∨
        (q.freelists (freelists_mapping (s + g + sp - R)) + 4 * P ≤ pv ∨
          nx + g + 2 * P ≤ q.freelists (freelists_mapping (s + g + sp - R)))) := by
    have hh1 : ∀ i, (pop_free_chunk P pool pv).freelists i = pool.freelists i ∨
        (pop_free_chunk P pool pv).freelists i = read_ptr pool.mem (pv + 3 * P) :=
      pop_free_chunk_freelists_cases P pool pv
    by_cases hF : is_chunk_free P pool.mem nx ≠ 0
    · rw [if_pos (by rw [hF1]; exact hF)]
      obtain ⟨hN1, hN2⟩ := hln hF
      have hl1 : read_ptr (pop_free_chunk P pool pv).mem (nx + 2 * P) = 0 ∨
          read_ptr (pop_free_chunk P pool pv).mem (nx + 2 * P) = pv ∨
          read_ptr (pop_free_chunk P pool pv).mem (nx + 2 * P) = nx ∨
          (read_ptr (pop_free_chunk P pool pv).mem (nx + 2 * P) + 4 * P ≤ pv ∨
            nx + g + 2 * P ≤ read_ptr (pop_free_chunk P pool pv).mem (nx + 2 * P)) := by
        unfold read_ptr at hN1 hQ1 hQ2 ⊢
        rcases pop_free_chunk_mem_cases P pool pv (nx + 2 * P) with h | h | h <;> rw [h]
        · exact hN1
        · exact hQ1
        · exact hQ2
      have hl2 : read_ptr (pop_free_chunk P pool pv).mem (nx + 3 * P) = 0 ∨
          read_ptr (pop_free_chunk P pool pv).mem (nx + 3 * P) = pv ∨
          read_ptr (pop_free_chunk P pool pv).mem (nx + 3 * P) = nx ∨
          (read_ptr (pop_free_chunk P pool pv).mem (nx + 3 * P) + 4 * P ≤ pv ∨
            nx + g + 2 * P ≤ read_ptr (pop_free_chunk P pool pv).mem (nx + 3 * P)) := by
        unfold read_ptr at hN2 hQ1 hQ2 ⊢
        rcases pop_free_chunk_mem_cases P pool pv (nx + 3 * P) with h | h | h <;> rw [h]
        · exact hN2
        · exact hQ1
        · exact hQ2
      have d1 := link_cells P pv sp c s nx g t _ hP0 hca hnxa hminp hga hl1
      have d2 := link_cells P pv sp c s nx g t _ hP0 hca hnxa hminp hga hl2
      refine ⟨_, rfl, ?_, ?_, ?_, ?_⟩
      · rw [pop_free_chunk_frame P _ nx _ (d1.imp_right (fun h => h.1.2))
          (d2.imp_right (fun h => h.1.1)), e1]
      · rw [pop_free_chunk_frame P _ nx _ (d1.imp_right (fun h => h.2.1.2))
          (d2.imp_right (fun h => h.2.1.1)), e2]
      · rw [pop_free_chunk_frame P _ nx _ (d1.imp_right (fun h => h.2.2.2.2))
          (d2.imp_right (fun h => h.2.2.2.1)), e4]
      · rcases pop_free_chunk_freelists_cases P (pop_free_chunk P pool pv) nx
          (freelists_mapping (s + g + sp - R)) with h | h <;> rw [h]
        · rcases hh1 (freelists_mapping (s + g + sp - R)) with h' | h' <;> rw [h']
          · exact hQ3
          · exact hQ2
        · exact hl2
    · rw [if_neg (by rw [hF1]; exact hF)]
      refine ⟨_, rfl, e1, e2, e4, ?_⟩
      rcases hh1 (freelists_mapping (s + g + sp - R)) with h' | h' <;> rw [h']
      · exact hQ3
      · exact hQ2
  clear hQ1 hQ2 hQ3 hln c1 c2
  obtain ⟨q, hq, hq1, hq2, hq3, hq4⟩ := key
  have c5 := link_cells P pv sp c s nx g t _ hP0 hca hnxa hminp hga hq4
  clear hq4
  rw [simpl_realloc_grow_left_eq P simp pool p n c s pv sp nx t g R hsimp hn hp1 hP0 hc hs hpf hpv
    hsp hnx ht hg hadj hR hlo hright hhi h32, ← hq]
  simp only []
  have hlen : get_chunk_size P (set_chunk_size P q.mem pv (s + g + P + sp)) c = s := by
    simp only [get_chunk_size, size_addr_eq, chunk_flags_mask] at hs
    unfold read_u32 at hs
    simp (disch := omega) only [get_chunk_size, set_chunk_size, size_addr_eq,
      read_u32_write_u32_ne, chunk_flags_mask]
    unfold read_u32
    rw [hq2]
    exact hs
  rw [hlen]
  obtain ⟨pool3, hpool3⟩ : ∃ r : simpl_pool, r = { q with
      mem := memmove (set_chunk_size P q.mem pv (s + g + P + sp)) (get_chunk_payload P pv)
        (get_chunk_payload P c) s } := ⟨_, rfl⟩
  rw [← hpool3]
  have hm3 : ∀ a, a < pv + 2 * P ∨ pv + 2 * P + s ≤ a →
      pool3.mem a = write_u32 q.mem (pv + P)
        ((s + g + P + sp) ||| (read_u32 q.mem (pv + P) &&& 3)) a := by
    intro a ha
    rw [hpool3]
    exact memmove_outside _ _ _ _ a ha
  have hfl3 : pool3.freelists = q.freelists := by rw [hpool3]
  have hcs3 : get_chunk_size P pool3.mem pv = s + g + P + sp := by
    unfold get_chunk_size read_u32
    rw [size_addr_eq, hm3 _ (by omega), write_u32_same, stored_mod]
    simp (disch := omega) only [chunk_flags_mask, word_mod_size, word_set_size]
  have hNN3 : is_chunk_free P pool3.mem (pv + P + (s + g + P + sp)) = 0 := by
    unfold is_chunk_free read_u32 at hNN ⊢
    rw [size_addr_eq] at hNN ⊢
    rw [hm3 _ (by omega), write_u32_ne _ _ _ _ (by omega),
      show pv + P + (s + g + P + sp) + P = nx + g + P by omega, hq3]
    exact hNN
  have hused := trim_chunk_to_use_used P pool3 pv R (s + g + P + sp) hP0 hP4 hcs3 hR4 hhi hNN3
    (by
      rw [hfl3, show s + g + P + sp - R - P = s + g + sp - R by omega]
      exact c5.imp_right (fun h => h.1.1.symm))
  refine ⟨trivial, ?_, hused.2⟩
  rw [hused.1]
  split <;> omega

/-- Witness of C15: on `five_blocks_free_AC`, block B (payload 4856, chunk 4840 of
size 64) lies between the free chunks 4768 (block A) and 4912 (block C), both of
size 64 and linked to each other in the list of their class; `n = 192` has the
rounded size 192, more than 64 + 8 + 64 and at most 64 + 72 + 8 + 64. -/
theorem simpl_realloc_grow_left_returns_prev_witness :
    (pool_64k.1 ≠ 0 ∧ 192 ≠ 0 ∧ offsetof_payload 8 ≤ 4856 ∧ get_payload_chunk 8 4856 = 4840 ∧
        get_chunk_size 8 five_blocks_free_AC.mem 4840 = 64 ∧
        is_chunk_prev_free 8 five_blocks_free_AC.mem 4840 ≠ 0 ∧
        prev_phys_chunk five_blocks_free_AC.mem 4840 = 4768 ∧
        get_chunk_size 8 five_blocks_free_AC.mem 4768 = 64 ∧
        next_phys_chunk 8 five_blocks_free_AC.mem 4768 = 4840 ∧
        next_phys_chunk 8 five_blocks_free_AC.mem 4840 = 4912 ∧
        get_chunk_size 8 five_blocks_free_AC.mem 4912 = 64 ∧
        is_chunk_free 8 five_blocks_free_AC.mem 4912 ≠ 0 ∧
        adjust_alloc_size 8 192 8 ≠ 0 ∧ size_roundup (adjust_alloc_size 8 192 8) = 192 ∧
        is_chunk_free 8 five_blocks_free_AC.mem (4912 + 72) = 0 ∧
        read_ptr five_blocks_free_AC.mem (free_prev_addr 8 4768) = 4912 ∧
        read_ptr five_blocks_free_AC.mem (free_next_addr 8 4912) = 4768) ∧
      (simpl_realloc 8 pool_64k.1 five_blocks_free_AC 4856 192).1 = get_chunk_payload 8 4768 ∧
      192 ≤ get_chunk_size 8 (simpl_realloc 8 pool_64k.1 five_blocks_free_AC 4856 192).2.mem 4768 ∧
      is_chunk_free 8 (simpl_realloc 8 pool_64k.1 five_blocks_free_AC 4856 192).2.mem 4768 = 0 :=
  ⟨by decide,
    simpl_realloc_grow_left_returns_prev 8 (Or.inr rfl) pool_64k.1 five_blocks_free_AC 4856 192
      4840 64 4768 64 4912 64 72 192 (by decide) (by decide) (by decide) (by decide) (by decide)
      (by decide) (by decide) (by decide) (by decide) (by decide) (by decide) (by decide)
      (by decide) (by decide) (by decide) (by decide) (by decide) (by decide) (by decide)
      (by decide) (by decide) (by decide) (by decide)⟩

/-! ## Chunk sizes after a store into the payload of `malloc(4000)` -/

/-- C20, evaluated: on `pool_8k`, `p = simpl_malloc(pool, 4000)` is 4672.  The
chunk of `p` has size 0, so the free chunk after it, at 4664 (size 7600, head of
its class, followed by the tail marker), has its `size` field at the address `p`.
After the caller stores `0xFFFFFFFFFFFFFFFF` at `p`, the size of that free chunk
reads 4294967292, which is not a multiple of the pointer size 8. -/
theorem caller_store_misaligns_chunk_size :
    pool_8k.1 ≠ 0 ∧ pool_8k_malloc.1 = 4672 ∧
      get_chunk_size 8 pool_8k_malloc.2.mem (get_payload_chunk 8 pool_8k_malloc.1) = 0 ∧
      next_phys_chunk 8 pool_8k_malloc.2.mem (get_payload_chunk 8 pool_8k_malloc.1) = 4664 ∧
      is_chunk_free 8 pool_8k_malloc.2.mem 4664 = 1 ∧
      get_chunk_size 8 pool_8k_malloc.2.mem 4664 = 7600 ∧
      pool_8k_malloc.2.freelists (freelists_mapping 7600) = 4664 ∧
      next_phys_chunk 8 pool_8k_malloc.2.mem 4664 = pool_8k_tail ∧
      size_addr 8 4664 = pool_8k_malloc.1 ∧
      get_chunk_size 8 pool_8k_malloc_stored.mem 4664 = 4294967292 ∧
      get_chunk_size 8 pool_8k_malloc_stored.mem 4664 % 8 = 4 := by
  decide

/-! ## The class mapping is monotone and bounded -/

theorem mono_of_succ (f : Nat → Nat) (N : Nat) (h : ∀ x, x + 1 < N → f x ≤ f (x + 1)) :
    ∀ b a, a ≤ b → b < N → f a ≤ f b := by
  intro b
  induction b with
  | zero =>
    intro a ha _
    rw [Nat.le_zero.mp ha]
  | succ b ih =>
    intro a ha hb
    rcases Nat.lt_or_ge a (b + 1) with h1 | h1
    · exact le_trans (ih a (by omega) (by omega)) (h b hb)
    · rw [show a = b + 1 by omega]

theorem freelists_mapping_scale0_table :
    ∀ x, x < 1024 → freelists_mapping (x <<< 2) ≤ 63 ∧
      (x + 1 < 1024 → freelists_mapping (x <<< 2) ≤ freelists_mapping ((x + 1) <<< 2)) := by
  decide

theorem freelists_mapping_scale1_table :
    ∀ x, x < 1024 → 1 ≤ x → 64 ≤ freelists_mapping (x <<< 12) ∧
      freelists_mapping (x <<< 12) ≤ 127 ∧
      (x + 1 < 1024 → freelists_mapping (x <<< 12) ≤ freelists_mapping ((x + 1) <<< 12)) := by
  decide

theorem freelists_mapping_scale2_table :
    ∀ x, x < 1024 → 1 ≤ x → 128 ≤ freelists_mapping (x <<< 22) ∧
      freelists_mapping (x <<< 22) ≤ 191 ∧
      (x + 1 < 1024 → freelists_mapping (x <<< 22) ≤ freelists_mapping ((x + 1) <<< 22)) := by
  decide

theorem shr_shl_le (s k : Nat) : (s >>> k) <<< k ≤ s := by
  rw [Nat.shiftRight_eq_div_pow, Nat.shiftLeft_eq]
  exact Nat.div_mul_le_self s (2 ^ k)

theorem shr_lt (s k n : Nat) (h : s < 2 ^ (n + k)) : s >>> k < 2 ^ n := by
  rw [Nat.shiftRight_eq_div_pow]
  apply Nat.div_lt_of_lt_mul
  rw [Nat.pow_add] at h
  rw [Nat.mul_comm]
  exact h

theorem shr_pos (s k : Nat) (h : 2 ^ k ≤ s) : 1 ≤ s >>> k := by
  rw [Nat.shiftRight_eq_div_pow]
  exact (Nat.le_div_iff_mul_le (Nat.two_pow_pos k)).mpr (by omega)

theorem shl_ge (x k : Nat) (h : 1 ≤ x) : 2 ^ k ≤ x <<< k := by
  rw [Nat.shiftLeft_eq]
  exact Nat.le_mul_of_pos_left _ h

/-- Below 4 KiB the class of a size depends on `size >> 2` only. -/
theorem freelists_mapping_scale0 (s : Nat) (h : s < 4096) :
    freelists_mapping s = freelists_mapping ((s >>> 2) <<< 2) := by
  have h1 : (s >>> 2) <<< 2 < 4096 := lt_of_le_of_lt (shr_shl_le s 2) h
  unfold freelists_mapping
  simp only [simplc_4kB_size, simplc_4kB_shift, simplc_4B_shift,
    show (1 : Nat) <<< 12 = 4096 by decide, if_pos h, if_pos h1, Nat.shiftLeft_shiftRight]

/-- From 4 KiB to 4 MiB the class of a size depends on `size >> 12` only. -/
theorem freelists_mapping_scale1 (s : Nat) (h1 : 4096 ≤ s) (h2 : s < 4194304) :
    freelists_mapping s = freelists_mapping ((s >>> 12) <<< 12) := by
  have h3 : (s >>> 12) <<< 12 < 4194304 := lt_of_le_of_lt (shr_shl_le s 12) h2
  have h4 : 4096 ≤ (s >>> 12) <<< 12 := shl_ge _ 12 (shr_pos s 12 h1)
  unfold freelists_mapping
  simp only [simplc_4kB_size, simplc_4kB_shift, simplc_4MB_size, simplc_4MB_shift,
    show (1 : Nat) <<< 12 = 4096 by decide, show (1 : Nat) <<< 22 = 4194304 by decide,
    if_neg (show ¬ s < 4096 by omega), if_neg (show ¬ (s >>> 12) <<< 12 < 4096 by omega),
    if_pos h2, if_pos h3, Nat.shiftLeft_shiftRight]

/-- From 4 MiB on the class of a size depends on `size >> 22` only. -/
theorem freelists_mapping_scale2 (s : Nat) (h1 : 4194304 ≤ s) :
    freelists_mapping s = freelists_mapping ((s >>> 22) <<< 22) := by
  have h4 : 4194304 ≤ (s >>> 22) <<< 22 := shl_ge _ 22 (shr_pos s 22 h1)
  unfold freelists_mapping
  simp only [simplc_4kB_size, simplc_4kB_shift, simplc_4MB_size, simplc_4MB_shift,
    show (1 : Nat) <<< 12 = 4096 by decide, show (1 : Nat) <<< 22 = 4194304 by decide,
    if_neg (show ¬ s < 4096 by omega), if_neg (show ¬ (s >>> 22) <<< 22 < 4096 by omega),
    if_neg (show ¬ s < 4194304 by omega), if_neg (show ¬ (s >>> 22) <<< 22 < 4194304 by omega),
    Nat.shiftLeft_shiftRight]

theorem shr_mono (a b k : Nat) (h : a ≤ b) : a >>> k ≤ b >>> k := by
  rw [Nat.shiftRight_eq_div_pow, Nat.shiftRight_eq_div_pow]
  exact Nat.div_le_div_right h

/-- Bounds of the class index in the three scales. -/
theorem freelists_mapping_range (s : Nat) (hs : s < u32) :
    (s < 4096 → freelists_mapping s ≤ 63) ∧
    (4096 ≤ s → s < 4194304 → 64 ≤ freelists_mapping s ∧ freelists_mapping s ≤ 127) ∧
    (4194304 ≤ s → 128 ≤ freelists_mapping s ∧ freelists_mapping s ≤ 191) := by
  have hu : u32 = 4294967296 := rfl
  refine ⟨?_, ?_, ?_⟩
  · intro h
    rw [freelists_mapping_scale0 s h]
    exact (freelists_mapping_scale0_table _ (shr_lt s 2 10 (by norm_num; omega))).1
  · intro h1 h2
    rw [freelists_mapping_scale1 s h1 h2]
    have := freelists_mapping_scale1_table _ (shr_lt s 12 10 (by norm_num; omega))
      (shr_pos s 12 h1)
    exact ⟨this.1, this.2.1⟩
  · intro h1
    rw [freelists_mapping_scale2 s h1]
    have := freelists_mapping_scale2_table _ (shr_lt s 22 10 (by norm_num; omega))
      (shr_pos s 22 h1)
    exact ⟨this.1, this.2.1⟩

theorem freelists_mapping_le_191 (s : Nat) (hs : s < u32) : freelists_mapping s ≤ 191 := by
  have h := freelists_mapping_range s hs
  rcases Nat.lt_or_ge s 4096 with h1 | h1
  · have := h.1 h1
    omega
  · rcases Nat.lt_or_ge s 4194304 with h2 | h2
    · have := h.2.1 h1 h2
      omega
    · exact (h.2.2 h2).2

theorem freelists_mapping_mono (a b : Nat) (hab : a ≤ b) (hb : b < u32) :
    freelists_mapping a ≤ freelists_mapping b := by
  have hu : u32 = 4294967296 := rfl
  have ha := freelists_mapping_range a (by omega)
  have hbr := freelists_mapping_range b hb
  rcases Nat.lt_or_ge b 4096 with h1 | h1
  · rw [freelists_mapping_scale0 a (by omega), freelists_mapping_scale0 b h1]
    exact mono_of_succ (fun x => freelists_mapping (x <<< 2)) 1024
      (fun x hx => (freelists_mapping_scale0_table x (by omega)).2 hx) _ _ (shr_mono a b 2 hab)
      (shr_lt b 2 10 (by norm_num; omega))
  · rcases Nat.lt_or_ge b 4194304 with h2 | h2
    · rcases Nat.lt_or_ge a 4096 with h3 | h3
      · have := ha.1 h3
        have := hbr.2.1 h1 h2
        omega
      · rw [freelists_mapping_scale1 a h3 (by omega), freelists_mapping_scale1 b h1 h2]
        have key : ∀ y x, x ≤ y → y < 1024 → 1 ≤ x →
            freelists_mapping (x <<< 12) ≤ freelists_mapping (y <<< 12) := by
          intro y x hxy hy hx
          have := mono_of_succ (fun z => freelists_mapping ((z + 1) <<< 12)) 1023
            (fun z hz => (freelists_mapping_scale1_table (z + 1) (by omega) (by omega)).2.2
              (by omega)) (y - 1) (x - 1) (by omega) (by omega)
          simp only [] at this
          rw [show x - 1 + 1 = x by omega, show y - 1 + 1 = y by omega] at this
          exact this
        exact key _ _ (shr_mono a b 12 hab) (shr_lt b 12 10 (by norm_num; omega))
          (shr_pos a 12 h3)
    · rcases Nat.lt_or_ge a 4194304 with h3 | h3
      · have hb2 := hbr.2.2 h2
        rcases Nat.lt_or_ge a 4096 with h4 | h4
        · have := ha.1 h4
          omega
        · have := ha.2.1 h4 h3
          omega
      · rw [freelists_mapping_scale2 a h3, freelists_mapping_scale2 b h2]
        have key : ∀ y x, x ≤ y → y < 1024 → 1 ≤ x →
            freelists_mapping (x <<< 22) ≤ freelists_mapping (y <<< 22) := by
          intro y x hxy hy hx
          have := mono_of_succ (fun z => freelists_mapping ((z + 1) <<< 22)) 1023
            (fun z hz => (freelists_mapping_scale2_table (z + 1) (by omega) (by omega)).2.2
              (by omega)) (y - 1) (x - 1) (by omega) (by omega)
          simp only [] at this
          rw [show x - 1 + 1 = x by omega, show y - 1 + 1 = y by omega] at this
          exact this
        exact key _ _ (shr_mono a b 22 hab) (shr_lt b 22 10 (by norm_num; omega))
          (shr_pos a 22 h3)

theorem sub32_lt (a b : Nat) : sub32 a b < u32 := by
  unfold sub32
  exact Nat.mod_lt _ (by decide)

theorem init_est_le (P buffer buffer_size : Nat) :
    1 ≤ init_est P buffer buffer_size ∧ init_est P buffer buffer_size ≤ 192 := by
  have hu : u32 = 4294967296 := rfl
  unfold init_est
  simp only []
  have h := freelists_mapping_le_191 _ (sub32_lt
    (ptr_align_down P (buffer + buffer_size) P) (ptr_align_up P buffer P + sizeof_simpl_pool P))
  rw [Nat.mod_eq_of_lt (by omega)]
  omega

theorem init_sl_size_le (P buffer buffer_size : Nat) :
    init_sl_size P buffer buffer_size ≤ 24 := by
  have hu : u32 = 4294967296 := rfl
  have h := init_est_le P buffer buffer_size
  unfold init_sl_size simplc_bits_per_byte
  rw [Nat.mod_eq_of_lt (by omega)]
  omega

/-- C30: `freelists_mapping` is monotone on 32-bit sizes, also across the 4 KiB and
4 MiB scale boundaries, and at most 191; so the number `est` of freelist heads
that `simpl_init` reserves is at most 192 and the number `sl_size` of bitmap
bytes at most 24, for every buffer. -/
theorem freelists_mapping_monotone_bounded (a b : Nat) (hab : a ≤ b) (hb : b < u32) :
    freelists_mapping a ≤ freelists_mapping b ∧ freelists_mapping b ≤ 191 ∧
      (∀ P buffer buffer_size, init_est P buffer buffer_size ≤ 192 ∧
        init_sl_size P buffer buffer_size ≤ 24) :=
  ⟨freelists_mapping_mono a b hab hb, freelists_mapping_le_191 b hb,
    fun P buffer buffer_size => ⟨(init_est_le P buffer buffer_size).2,
      init_sl_size_le P buffer buffer_size⟩⟩

/-- Witness of C30: the sizes 4095 and 4096, on the two sides of the 4 KiB boundary. -/
theorem freelists_mapping_monotone_bounded_witness :
    (4095 ≤ 4096 ∧ 4096 < u32) ∧
      freelists_mapping 4095 ≤ freelists_mapping 4096 ∧ freelists_mapping 4096 ≤ 191 ∧
      (∀ P buffer buffer_size, init_est P buffer buffer_size ≤ 192 ∧
        init_sl_size P buffer buffer_size ≤ 24) :=
  ⟨by decide, freelists_mapping_monotone_bounded 4095 4096 (by decide) (by decide)⟩

/-! ## `mapping_size` and the class mapping -/

/-- C24, counterexample: the class indices 64 and 128 (first-level rows 8 and 16,
second-level index 0) are below 192, but `mapping_size` gives 0 for them, and the
class of the size 0 is 0. -/
theorem mapping_size_64_and_128 :
    64 < 192 ∧ mapping_size 64 = 0 ∧ freelists_mapping (mapping_size 64) = 0 ∧
      128 < 192 ∧ mapping_size 128 = 0 ∧ freelists_mapping (mapping_size 128) = 0 := by
  decide

theorem mapping_size_table :
    ∀ fi, fi < 192 → fi ≠ 64 → fi ≠ 128 →
      freelists_mapping (mapping_size fi) = fi ∧ mapping_size fi < u32 := by
  decide

theorem mapping_size_mono_table :
    ∀ fi, fi < 191 → fi ≠ 64 → fi ≠ 128 →
      mapping_size fi ≤ mapping_size (if fi = 63 ∨ fi = 127 then fi + 2 else fi + 1) := by
  decide

theorem mapping_size_scale0_table :
    ∀ x, x < 1024 → mapping_size (freelists_mapping (x <<< 2)) ≤ x <<< 2 := by
  decide

theorem mapping_size_scale1_table :
    ∀ x, x < 1024 → 1 ≤ x → freelists_mapping (x <<< 12) ≠ 64 ∧
      mapping_size (freelists_mapping (x <<< 12)) ≤ x <<< 12 := by
  decide

theorem mapping_size_scale2_table :
    ∀ x, x < 1024 → 1 ≤ x → freelists_mapping (x <<< 22) ≠ 128 ∧
      mapping_size (freelists_mapping (x <<< 22)) ≤ x <<< 22 := by
  decide

/-- The class of a 32-bit size is never 64 or 128, and `mapping_size` of it is at
most the size. -/
theorem mapping_size_freelists_mapping_le (s : Nat) (hs : s < u32) :
    freelists_mapping s ≠ 64 ∧ freelists_mapping s ≠ 128 ∧
      mapping_size (freelists_mapping s) ≤ s := by
  have hu : u32 = 4294967296 := rfl
  have hr := freelists_mapping_range s hs
  rcases Nat.lt_or_ge s 4096 with h1 | h1
  · have h63 := hr.1 h1
    refine ⟨by omega, by omega, ?_⟩
    rw [freelists_mapping_scale0 s h1]
    exact le_trans (mapping_size_scale0_table _ (shr_lt s 2 10 (by norm_num; omega)))
      (shr_shl_le s 2)
  · rcases Nat.lt_or_ge s 4194304 with h2 | h2
    · have hb := hr.2.1 h1 h2
      have ht := mapping_size_scale1_table _ (shr_lt s 12 10 (by norm_num; omega))
        (shr_pos s 12 h1)
      rw [← freelists_mapping_scale1 s h1 h2] at ht
      exact ⟨ht.1, by omega, le_trans ht.2 (shr_shl_le s 12)⟩
    · have hb := hr.2.2 h2
      have ht := mapping_size_scale2_table _ (shr_lt s 22 10 (by norm_num; omega))
        (shr_pos s 22 h2)
      rw [← freelists_mapping_scale2 s h2] at ht
      exact ⟨by omega, ht.1, le_trans ht.2 (shr_shl_le s 22)⟩

/-- On the classes in use, `mapping_size` is monotone. -/
theorem mapping_size_mono :
    ∀ fj fi, fi ≤ fj → fj < 192 → fi ≠ 64 → fi ≠ 128 → fj ≠ 64 → fj ≠ 128 →
      mapping_size fi ≤ mapping_size fj := by
  intro fj
  induction fj using Nat.strong_induction_on with
  | _ fj ih =>
    intro fi hij hj hi1 hi2 hj1 hj2
    rcases Nat.eq_or_lt_of_le hij with h | h
    · rw [h]
    · rcases (show fj = 65 ∨ fj = 129 ∨ (fj ≠ 65 ∧ fj ≠ 129) by omega) with h1 | h1 | h1
      · have h3 := mapping_size_mono_table 63 (by decide) (by decide) (by decide)
        rw [if_pos (Or.inl rfl)] at h3
        rw [h1]
        exact le_trans (ih 63 (by omega) fi (by omega) (by decide) hi1 hi2 (by decide)
          (by decide)) h3
      · have h3 := mapping_size_mono_table 127 (by decide) (by decide) (by decide)
        rw [if_pos (Or.inr rfl)] at h3
        rw [h1]
        exact le_trans (ih 127 (by omega) fi (by omega) (by decide) hi1 hi2 (by decide)
          (by decide)) h3
      · have h3 := mapping_size_mono_table (fj - 1) (by omega) (by omega) (by omega)
        rw [if_neg (by omega), show fj - 1 + 1 = fj by omega] at h3
        exact le_trans (ih (fj - 1) (by omega) fi (by omega) (by omega) hi1 hi2 (by omega)
          (by omega)) h3

/-- C24, amended: for every class index `fi < 192` other than 64 and 128,
`freelists_mapping(mapping_size(fi)) = fi`, and every size below
`mapping_size(fi)` has a class below `fi`. -/
theorem mapping_size_is_lower_bound (fi : Nat) (h : fi < 192) (h64 : fi ≠ 64)
    (h128 : fi ≠ 128) :
    freelists_mapping (mapping_size fi) = fi ∧
      ∀ s, s < mapping_size fi → freelists_mapping s < fi := by
  have ht := mapping_size_table fi h h64 h128
  refine ⟨ht.1, ?_⟩
  intro s hs
  by_contra hcon
  have hs32 : s < u32 := lt_trans hs ht.2
  have hl := mapping_size_freelists_mapping_le s hs32
  have h191 := freelists_mapping_le_191 s hs32
  have := mapping_size_mono (freelists_mapping s) fi (by omega) (by omega) h64 h128 hl.1 hl.2.1
  omega

/-- Witness of the amended C24: the class 65, whose lower bound is 4096. -/
theorem mapping_size_is_lower_bound_witness :
    (65 < 192 ∧ 65 ≠ 64 ∧ 65 ≠ 128) ∧
      freelists_mapping (mapping_size 65) = 65 ∧
      ∀ s, s < mapping_size 65 → freelists_mapping s < 65 :=
  ⟨by decide, mapping_size_is_lower_bound 65 (by decide) (by decide) (by decide)⟩

/-! ## `adjust_alloc_size` -/

theorem least_multiple_spec (a v : Nat) (ha : 0 < a) :
    a ∣ least_multiple a v ∧ v ≤ least_multiple a v ∧ least_multiple a v < v + a ∧
      ∀ m, a ∣ m → v ≤ m → least_multiple a v ≤ m := by
  unfold least_multiple
  have h1 := Nat.div_add_mod (v + a - 1) a
  have h2 := Nat.mod_lt (v + a - 1) ha
  have h3 : (v + a - 1) / a * a = a * ((v + a - 1) / a) := Nat.mul_comm _ _
  refine ⟨Dvd.intro_left _ rfl, by omega, by omega, ?_⟩
  intro m hm hv
  obtain ⟨q, rfl⟩ := hm
  rw [Nat.mul_comm a q]
  apply Nat.mul_le_mul_right
  have : (v + a - 1) / a < q + 1 := by
    apply (Nat.div_lt_iff_lt_mul ha).mpr
    rw [Nat.add_mul, Nat.one_mul, Nat.mul_comm q a]
    omega
  omega

/-- Clearing the low `k` bits of a pointer-sized word rounds it down to a multiple of `2 ^ k`. -/
theorem land_notptr_eq (P k x : Nat) (hk : k ≤ 8 * P) (hx : x < uptr P) :
    x &&& notptr P (2 ^ k - 1) = x / 2 ^ k * 2 ^ k := by
  have hlt : 2 ^ k - 1 < 2 ^ (8 * P) := by
    have h1 : 2 ^ k ≤ 2 ^ (8 * P) := Nat.pow_le_pow_right (by decide) hk
    have h2 : 0 < 2 ^ k := Nat.two_pow_pos _
    omega
  apply Nat.eq_of_testBit_eq
  intro i
  rw [← Nat.shiftRight_eq_div_pow, ← Nat.shiftLeft_eq]
  simp only [Nat.testBit_and, notptr, uptr, Nat.mod_eq_of_lt hlt, Nat.testBit_xor,
    Nat.testBit_two_pow_sub_one, Nat.testBit_shiftLeft, Nat.testBit_shiftRight]
  by_cases hi : i < k
  · have hi2 : i < 8 * P := lt_of_lt_of_le hi hk
    simp [hi, hi2]
  · have hki : k ≤ i := by omega
    rw [show k + (i - k) = i by omega]
    by_cases hi2 : i < 8 * P
    · simp [hi, hi2, hki]
    · have : x.testBit i = false := by
        apply Nat.testBit_lt_two_pow
        have : (2 : Nat) ^ (8 * P) ≤ 2 ^ i := Nat.pow_le_pow_right (by decide) (by omega)
        unfold uptr at hx
        omega
      simp [this]

theorem mod_div_mul_of_dvd (x a U : Nat) (hU : a ∣ U) :
    (x % U) / a * a = (x / a * a) % U := by
  obtain ⟨q, rfl⟩ := hU
  rcases Nat.eq_zero_or_pos q with h0 | hq
  · subst h0
    simp
  · have h1 : x % (a * q) / a = (x / a) % q := by
      rw [Nat.mod_mul_right_div_self]
    rw [h1, Nat.mul_comm a q, Nat.mul_mod_mul_right]

/-- The function `align_up` for a power-of-two alignment: the least multiple, reduced to `size_t`. -/
theorem align_up_eq (P k val : Nat) (hk : 2 ^ k < uptr P) :
    align_up P val (2 ^ k) = least_multiple (2 ^ k) val % uptr P := by
  have hk2 : k ≤ 8 * P := by
    by_contra hcon
    have : 2 ^ (8 * P) ≤ 2 ^ k := Nat.pow_le_pow_right (by decide) (by omega)
    unfold uptr at hk
    omega
  have hpos : 0 < 2 ^ k := Nat.two_pow_pos k
  have hdvd : 2 ^ k ∣ uptr P := by
    unfold uptr
    exact Nat.pow_dvd_pow 2 hk2
  unfold align_up least_multiple
  simp only []
  rw [align_mask_eq (uptr P) (2 ^ k) hpos hk,
    land_notptr_eq P k _ hk2 (Nat.mod_lt _ (Nat.two_pow_pos _)),
    show val + (2 ^ k - 1) = val + 2 ^ k - 1 by omega,
    mod_div_mul_of_dvd _ _ _ hdvd]

theorem u32_dvd_uptr (P : Nat) (hP : P = 4 ∨ P = 8) : u32 ∣ uptr P := by
  rcases hP with rfl | rfl
  · exact dvd_refl _
  · exact ⟨u32, by decide⟩

/-- A multiple of a power of two that is at least `2 ^ 32` and less than `2 ^ 32` plus
that power is a multiple of `2 ^ 32`. -/
theorem pow_multiple_mod_u32 (k m v : Nat) (hm : 2 ^ k ∣ m) (h1 : u32 ≤ m) (hv : v < u32)
    (h2 : m < v + 2 ^ k) : m % u32 = 0 := by
  have hu : u32 = 2 ^ 32 := rfl
  rcases Nat.lt_or_ge k 32 with hk | hk
  · obtain ⟨j, hj⟩ : ∃ j, 32 = k + j := ⟨32 - k, by omega⟩
    obtain ⟨q, rfl⟩ := hm
    rw [hu, hj, Nat.pow_add] at h1 hv ⊢
    have hq : q = 2 ^ j := by
      have hp : 0 < 2 ^ k := Nat.two_pow_pos k
      have a1 : 2 ^ j ≤ q := Nat.le_of_mul_le_mul_left h1 hp
      have a2 : q < 2 ^ j + 1 := by
        apply Nat.lt_of_mul_lt_mul_left (a := 2 ^ k)
        rw [Nat.mul_add, Nat.mul_one]
        omega
      omega
    rw [hq, Nat.mod_self]
  · obtain ⟨j, rfl⟩ : ∃ j, k = 32 + j := ⟨k - 32, by omega⟩
    obtain ⟨q, rfl⟩ := hm
    rw [hu, Nat.pow_add, Nat.mul_assoc, Nat.mul_mod_right]

/-- C28: for a pointer size of 4 or 8 bytes, every `n` and every power of two `a`
that fits in `size_t`, `adjust_alloc_size(n, a)` is 0 when `n > 2^32 - 1` or when
the least multiple of `a` that is at least `max(n, min_chunk_size)` exceeds
`2^32 - 1`, and is exactly that least multiple otherwise; the least multiple `m`
is a multiple of `a`, is at least `n` and `min_chunk_size`, is less than
`max(n, min_chunk_size) + a`, and is not 0. -/
theorem adjust_alloc_size_least_multiple (P : Nat) (hP : P = 4 ∨ P = 8) (n k : Nat)
    (hk : 2 ^ k < uptr P) :
    adjust_alloc_size P n (2 ^ k) =
        (if n > u32 - 1 ∨
            least_multiple (2 ^ k) (max n (simplc_chunk_min_size P)) > u32 - 1 then 0
          else least_multiple (2 ^ k) (max n (simplc_chunk_min_size P))) ∧
      2 ^ k ∣ least_multiple (2 ^ k) (max n (simplc_chunk_min_size P)) ∧
      n ≤ least_multiple (2 ^ k) (max n (simplc_chunk_min_size P)) ∧
      simplc_chunk_min_size P ≤ least_multiple (2 ^ k) (max n (simplc_chunk_min_size P)) ∧
      least_multiple (2 ^ k) (max n (simplc_chunk_min_size P)) <
        max n (simplc_chunk_min_size P) + 2 ^ k ∧
      least_multiple (2 ^ k) (max n (simplc_chunk_min_size P)) ≠ 0 := by
  have hu : u32 = 4294967296 := rfl
  have hmin : simplc_chunk_min_size P = 3 * P := min_size_eq P
  have hmin1 : 0 < simplc_chunk_min_size P ∧ simplc_chunk_min_size P < u32 := by
    rcases hP with rfl | rfl <;> omega
  have hsp := least_multiple_spec (2 ^ k) (max n (simplc_chunk_min_size P)) (Nat.two_pow_pos k)
  obtain ⟨m, hm⟩ : ∃ m, m = least_multiple (2 ^ k) (max n (simplc_chunk_min_size P)) := ⟨_, rfl⟩
  rw [← hm] at hsp ⊢
  have hmax1 : n ≤ max n (simplc_chunk_min_size P) := le_max_left _ _
  have hmax2 : simplc_chunk_min_size P ≤ max n (simplc_chunk_min_size P) := le_max_right _ _
  refine ⟨?_, hsp.1, by omega, by omega, hsp.2.2.1, by omega⟩
  unfold adjust_alloc_size simplc_chunk_max_size
  by_cases hn : n > u32 - 1
  · rw [if_pos hn, if_pos (Or.inl hn)]
  · rw [if_neg hn]
    simp only []
    have hn1 : n % u32 = n := Nat.mod_eq_of_lt (by omega)
    have hval : (if n % u32 < simplc_chunk_min_size P then simplc_chunk_min_size P else n % u32)
        = max n (simplc_chunk_min_size P) := by
      rw [hn1]
      split
      · rw [max_eq_right (by omega)]
      · rw [max_eq_left (by omega)]
    rw [hval, align_up_eq P k _ hk, ← hm, Nat.mod_mod_of_dvd _ (u32_dvd_uptr P hP)]
    have hmaxlt : max n (simplc_chunk_min_size P) < u32 := by
      rcases le_total n (simplc_chunk_min_size P) with h | h
      · rw [max_eq_right h]; omega
      · rw [max_eq_left h]; omega
    by_cases hbig : m > u32 - 1
    · have h0 := pow_multiple_mod_u32 k m _ hsp.1 (by omega) hmaxlt hsp.2.2.1
      rw [h0, if_pos (Or.inr hbig)]
      split <;> rfl
    · rw [Nat.mod_eq_of_lt (by omega), if_neg (by omega), if_neg (by
        intro h
        rcases h with h | h
        · exact hn h
        · exact hbig h)]

/-- Witness of C28: pointer size 8, `n = 100` and `a = 64`; the result is 128. -/
theorem adjust_alloc_size_least_multiple_witness :
    2 ^ 6 < uptr 8 ∧
      (adjust_alloc_size 8 100 (2 ^ 6) =
        (if 100 > u32 - 1 ∨
            least_multiple (2 ^ 6) (max 100 (simplc_chunk_min_size 8)) > u32 - 1 then 0
          else least_multiple (2 ^ 6) (max 100 (simplc_chunk_min_size 8))) ∧
      2 ^ 6 ∣ least_multiple (2 ^ 6) (max 100 (simplc_chunk_min_size 8)) ∧
      100 ≤ least_multiple (2 ^ 6) (max 100 (simplc_chunk_min_size 8)) ∧
      simplc_chunk_min_size 8 ≤ least_multiple (2 ^ 6) (max 100 (simplc_chunk_min_size 8)) ∧
      least_multiple (2 ^ 6) (max 100 (simplc_chunk_min_size 8)) <
        max 100 (simplc_chunk_min_size 8) + 2 ^ 6 ∧
      least_multiple (2 ^ 6) (max 100 (simplc_chunk_min_size 8)) ≠ 0) :=
  ⟨by decide, adjust_alloc_size_least_multiple 8 (Or.inr rfl) 100 6 (by decide)⟩

/-! ## `simpl_init`: when it fails and what it builds -/

theorem ptr_align_up_eq (P x : Nat) (hP : P = 4 ∨ P = 8) (hx : x + P ≤ uptr P) :
    ptr_align_up P x P = least_multiple P x := by
  have hsp := least_multiple_spec P x (by omega)
  have e : ptr_align_up P x P = align_up P x P := rfl
  rw [e]
  rcases hP with rfl | rfl
  · have := align_up_eq 4 2 x (by decide)
    rw [show (2 : Nat) ^ 2 = 4 by decide] at this
    rw [this, Nat.mod_eq_of_lt (by omega)]
  · have := align_up_eq 8 3 x (by decide)
    rw [show (2 : Nat) ^ 3 = 8 by decide] at this
    rw [this, Nat.mod_eq_of_lt (by omega)]

theorem ptr_align_down_eq (P x : Nat) (hP : P = 4 ∨ P = 8) (hx : x < uptr P) :
    ptr_align_down P x P = x / P * P := by
  unfold ptr_align_down
  rw [Nat.mod_eq_of_lt hx]
  rcases hP with rfl | rfl
  · have := land_notptr_eq 4 2 x (by decide) hx
    rw [show (2 : Nat) ^ 2 = 4 by decide] at this
    rw [← this]
    rfl
  · have := land_notptr_eq 8 3 x (by decide) hx
    rw [show (2 : Nat) ^ 3 = 8 by decide] at this
    rw [← this]
    rfl

theorem least_multiple_of_dvd (a v : Nat) (ha : 0 < a) (h : a ∣ v) : least_multiple a v = v := by
  have hsp := least_multiple_spec a v ha
  have := hsp.2.2.2 v h (le_refl v)
  omega

/-- The 32-bit difference of two addresses whose distance fits in 32 bits. -/
theorem sub32_of_diff_lt (a b : Nat) (h1 : b ≤ a) (h2 : a - b < u32) : sub32 a b = a - b := by
  unfold sub32
  have hu : u32 = 4294967296 := rfl
  rw [hu] at h2 ⊢
  omega

/-- Under the no-wrap condition the addresses that `simpl_init` computes are those
of the specification side. -/
theorem simpl_init_addresses (P buffer buffer_size : Nat) (hP : P = 4 ∨ P = 8)
    (hS : buffer_size ≤ u32 - 1)
    (hwrap : buffer + buffer_size + sizeof_simpl_pool P + simplc_max_flsize +
      simplc_max_freelists * P + 4 * P ≤ uptr P) :
    ptr_align_down P (buffer + buffer_size) P = (buffer + buffer_size) / P * P ∧
      ptr_align_up P buffer P = least_multiple P buffer ∧
      ptr_align_up P (least_multiple P buffer + sizeof_simpl_pool P +
          init_sl_size P buffer buffer_size) P =
        least_multiple P (least_multiple P buffer + sizeof_simpl_pool P +
          init_sl_size P buffer buffer_size) ∧
      ptr_align_up P (least_multiple P (least_multiple P buffer + sizeof_simpl_pool P +
          init_sl_size P buffer buffer_size) + (init_est P buffer buffer_size * P) % u32) P =
        least_multiple P (least_multiple P buffer + sizeof_simpl_pool P +
          init_sl_size P buffer buffer_size) + init_est P buffer buffer_size * P ∧
      (least_multiple P buffer + sizeof_simpl_pool P ≤ (buffer + buffer_size) / P * P →
        init_est P buffer buffer_size =
          freelists_mapping ((buffer + buffer_size) / P * P -
            (least_multiple P buffer + sizeof_simpl_pool P)) + 1) := by
  have hu : u32 = 4294967296 := rfl
  have hP0 : 0 < P := by omega
  have hflz : simplc_max_flsize = 24 := rfl
  have hfl : simplc_max_freelists = 192 := rfl
  have hhdr : sizeof_simpl_pool P = 8 + 2 * P := rfl
  rw [hflz, hfl, hhdr] at hwrap
  have hest := init_est_le P buffer buffer_size
  have hsl := init_sl_size_le P buffer buffer_size
  have h0 := least_multiple_spec P buffer hP0
  have h2 := least_multiple_spec P (least_multiple P buffer + sizeof_simpl_pool P +
    init_sl_size P buffer buffer_size) hP0
  have hmul : init_est P buffer buffer_size * P ≤ 192 * P := Nat.mul_le_mul_right P hest.2
  have hdown := ptr_align_down_eq P (buffer + buffer_size) hP (by omega)
  have hup0 := ptr_align_up_eq P buffer hP (by omega)
  refine ⟨hdown, hup0, ptr_align_up_eq P _ hP (by omega), ?_, ?_⟩
  · rw [Nat.mod_eq_of_lt (by omega), ptr_align_up_eq P _ hP (by omega)]
    exact least_multiple_of_dvd P _ hP0 (Nat.dvd_add h2.1 (Dvd.intro_left _ rfl))
  · intro hle
    have hE : (buffer + buffer_size) / P * P ≤ buffer + buffer_size := Nat.div_mul_le_self _ _
    unfold init_est
    simp only []
    rw [hdown, hup0, sub32_of_diff_lt _ _ hle (by omega)]
    have := freelists_mapping_le_191 ((buffer + buffer_size) / P * P -
      (least_multiple P buffer + sizeof_simpl_pool P)) (by omega)
    rw [Nat.mod_eq_of_lt (by omega)]

theorem init_sl_size_eq (P buffer buffer_size : Nat) :
    init_sl_size P buffer buffer_size = (init_est P buffer buffer_size + 7) / 8 := by
  have hu : u32 = 4294967296 := rfl
  have h := init_est_le P buffer buffer_size
  unfold init_sl_size simplc_bits_per_byte
  rw [Nat.mod_eq_of_lt (by omega), show init_est P buffer buffer_size + 8 - 1
    = init_est P buffer buffer_size + 7 by omega]

theorem init_region_start_ge (P buffer buffer_size : Nat) (hP : 0 < P) :
    least_multiple P buffer + sizeof_simpl_pool P ≤ init_region_start P buffer buffer_size := by
  unfold init_region_start
  simp only []
  have := (least_multiple_spec P (least_multiple P buffer + sizeof_simpl_pool P +
    (freelists_mapping ((buffer + buffer_size) / P * P -
      (least_multiple P buffer + sizeof_simpl_pool P)) + 1 + 7) / 8) hP).2.1
  omega

theorem init_region_start_dvd (P buffer buffer_size : Nat) (hP : 0 < P) :
    P ∣ init_region_start P buffer buffer_size := by
  unfold init_region_start
  simp only []
  exact Nat.dvd_add (least_multiple_spec P _ hP).1 (Dvd.intro_left _ rfl)

/-- The memory after the header stores of `simpl_init`: the size word of the first
chunk holds its size and the F flag, the size word of the tail marker holds the
P flag only. -/
theorem simpl_init_mem (P : Nat) (m : Mem) (st sz : Nat) (hP : 0 < P) (hsz4 : sz % 4 = 0)
    (hsz : sz < u32) (hst : P ≤ st) :
    set_chunk_free P (write_u32 (write_u32 m (size_addr P (st - simplc_chunk_overlap_size P)) sz)
      (size_addr P (next_phys_chunk P (write_u32 m
        (size_addr P (st - simplc_chunk_overlap_size P)) sz) (st - simplc_chunk_overlap_size P)))
      0) (st - simplc_chunk_overlap_size P) =
      write_u32 (write_u32 m st (sz ||| 1)) (st + sz + P) 2 := by
  have hu : u32 = 4294967296 := rfl
  have e0 : simplc_chunk_overlap_size P = P := rfl
  have e1 : st - P + P = st := by omega
  rw [e0]
  have hn : next_phys_chunk P (write_u32 m (size_addr P (st - P)) sz) (st - P) = st + sz := by
    simp (disch := omega) only [next_phys_chunk, get_chunk_size, size_addr_eq, overhead_eq, e1,
      read_u32_write_u32_same, chunk_flags_mask, word_mod_size, word_raw_size]
  rw [hn]
  have hs : get_chunk_size P (write_u32 (write_u32 m (size_addr P (st - P)) sz)
      (size_addr P (st + sz)) 0) (st - P) = sz := by
    simp (disch := omega) only [get_chunk_size, size_addr_eq, e1,
      read_u32_write_u32_same, read_u32_write_u32_ne, chunk_flags_mask, word_mod_size,
      word_raw_size]
  rw [set_chunk_free_eq P _ (st - P) sz hP hs]
  simp (disch := omega) only [size_addr_eq, e1, read_u32_write_u32_same, read_u32_write_u32_ne,
    Nat.mod_eq_of_lt hsz, Nat.zero_mod, Nat.zero_or]
  funext x
  rcases (show x = st ∨ x = st + sz + P ∨ (x ≠ st ∧ x ≠ st + sz + P) by omega) with
    rfl | rfl | ⟨h1, h2⟩
  · simp (disch := omega) only [write_u32_same, write_u32_ne, stored_div]
  · simp (disch := omega) only [write_u32_same, write_u32_ne, stored_div]
  · simp (disch := omega) only [write_u32_ne]

/-- What `simpl_init` returns, under the no-wrap condition: null when the region
after the tables is too small, and otherwise the aligned buffer address and the
pool in which the first chunk has been pushed. -/
theorem simpl_init_eq (P : Nat) (old : simpl_pool) (buffer buffer_size : Nat)
    (hP : P = 4 ∨ P = 8) (hB : buffer ≠ 0) (hS0 : buffer_size ≠ 0) (hS : buffer_size ≤ u32 - 1)
    (hwrap : buffer + buffer_size + sizeof_simpl_pool P + simplc_max_flsize +
      simplc_max_freelists * P + 4 * P ≤ uptr P) :
    simpl_init P old buffer buffer_size =
      if init_region P buffer buffer_size <
          simplc_chunk_overhead P * 2 + simplc_chunk_min_size P then (0, old)
      else
        (least_multiple P buffer,
          push_free_chunk P
            { available := 0
              fl_bitmap := 0
              sl_bitmaps := fun i =>
                if i < init_sl_size P buffer buffer_size then 0 else old.sl_bitmaps i
              freelists := fun i =>
                if i < init_est P buffer buffer_size then 0 else old.freelists i
              mem := write_u32 (write_u32 old.mem (init_region_start P buffer buffer_size)
                ((init_region P buffer buffer_size - 2 * P) ||| 1))
                ((buffer + buffer_size) / P * P - P) 2 }
            (init_region_start P buffer buffer_size - P)) := by
  have hu : u32 = 4294967296 := rfl
  have hP0 : 0 < P := by omega
  have hP4 : P % 4 = 0 := by omega
  obtain ⟨a1, a2, a3, a4, a5⟩ := simpl_init_addresses P buffer buffer_size hP hS hwrap
  have hest := init_est_le P buffer buffer_size
  have e1 : (freelists_mapping (sub32 (ptr_align_down P (buffer + buffer_size) P)
      (ptr_align_up P buffer P + sizeof_simpl_pool P)) + 1) % u32 = init_est P buffer buffer_size :=
    rfl
  have e2 : ((init_est P buffer buffer_size + simplc_bits_per_byte - 1) % u32) /
      simplc_bits_per_byte = init_sl_size P buffer buffer_size := rfl
  have hE : (buffer + buffer_size) / P * P ≤ buffer + buffer_size := Nat.div_mul_le_self _ _
  have hEd : P ∣ (buffer + buffer_size) / P * P := Dvd.intro_left _ rfl
  have hsd := init_region_start_dvd P buffer buffer_size hP0
  have hsg := init_region_start_ge P buffer buffer_size hP0
  have hhdr : sizeof_simpl_pool P = 8 + 2 * P := rfl
  have h0 := least_multiple_spec P buffer hP0
  unfold simpl_init
  simp only [simplc_chunk_max_size]
  rw [if_neg (by
    intro h
    rcases h with h | h | h
    · exact hB h
    · exact hS0 h
    · omega)]
  simp only [e1]
  simp only [e2, a1, a2, a3, a4]
  rw [overhead_eq, min_size_eq]
  by_cases hfit : least_multiple P buffer + sizeof_simpl_pool P ≤ (buffer + buffer_size) / P * P
  · have hT : least_multiple P (least_multiple P buffer + sizeof_simpl_pool P +
        init_sl_size P buffer buffer_size) + init_est P buffer buffer_size * P =
        init_region_start P buffer buffer_size := by
      unfold init_region_start
      simp only []
      rw [init_sl_size_eq, a5 hfit]
    rw [hT]
    by_cases hgt : init_region_start P buffer buffer_size > (buffer + buffer_size) / P * P
    · rw [if_pos hgt, if_pos (by unfold init_region; omega)]
    · have hreg : sub32 ((buffer + buffer_size) / P * P) (init_region_start P buffer buffer_size)
          = init_region P buffer buffer_size := by
        rw [sub32_of_diff_lt _ _ (by omega) (by omega)]
        rfl
      rw [if_neg hgt, hreg]
      by_cases hsmall : init_region P buffer buffer_size < P * 2 + 3 * P
      · rw [if_pos hsmall, if_pos hsmall]
      · rw [if_neg hsmall, if_neg hsmall]
        have hrlt : init_region P buffer buffer_size < u32 := by
          unfold init_region
          omega
        have hr4 : init_region P buffer buffer_size % 4 = 0 := by
          have : P ∣ init_region P buffer buffer_size := by
            unfold init_region
            exact Nat.dvd_sub' hEd hsd
          obtain ⟨q, hq⟩ := this
          rw [hq]
          rcases hP with rfl | rfl <;> omega
        have hsub : sub32 (init_region P buffer buffer_size) (P * 2) =
            init_region P buffer buffer_size - 2 * P := by
          rw [sub32_of_le _ _ (by omega) hrlt]
          omega
        rw [hsub, simpl_init_mem P old.mem _ _ hP0 (by omega) (by omega) (by omega)]
        have e3 : init_region_start P buffer buffer_size +
            (init_region P buffer buffer_size - 2 * P) + P = (buffer + buffer_size) / P * P - P := by
          unfold init_region at hsmall ⊢
          omega
        rw [e3]
        rfl
  · have hge : (buffer + buffer_size) / P * P < least_multiple P (least_multiple P buffer +
        sizeof_simpl_pool P + init_sl_size P buffer buffer_size) +
        init_est P buffer buffer_size * P := by
      have := (least_multiple_spec P (least_multiple P buffer + sizeof_simpl_pool P +
        init_sl_size P buffer buffer_size) hP0).2.1
      omega
    rw [if_pos hge, if_pos (by unfold init_region; omega)]

/-- When `simpl_init` returns null, under the no-wrap condition. -/
theorem simpl_init_null_cases (P : Nat) (hP : P = 4 ∨ P = 8) (old : simpl_pool)
    (buffer buffer_size : Nat)
    (hwrap : buffer + buffer_size + sizeof_simpl_pool P + simplc_max_flsize +
      simplc_max_freelists * P + 4 * P ≤ uptr P) :
    (simpl_init P old buffer buffer_size).1 = 0 ↔
      buffer = 0 ∨ buffer_size = 0 ∨ buffer_size > u32 - 1 ∨
        init_region P buffer buffer_size <
          2 * simplc_chunk_overhead P + simplc_chunk_min_size P := by
  have hP0 : 0 < P := by omega
  by_cases h : buffer = 0 ∨ buffer_size = 0 ∨ buffer_size > simplc_chunk_max_size
  · have e : (simpl_init P old buffer buffer_size).1 = 0 := by
      unfold simpl_init
      simp only []
      rw [if_pos h]
    constructor
    · intro _
      rcases h with h | h | h
      · exact Or.inl h
      · exact Or.inr (Or.inl h)
      · exact Or.inr (Or.inr (Or.inl h))
    · intro _
      exact e
  · have hB : buffer ≠ 0 := fun h1 => h (Or.inl h1)
    have hS0 : buffer_size ≠ 0 := fun h1 => h (Or.inr (Or.inl h1))
    have hS : buffer_size ≤ u32 - 1 := by
      by_contra hcon
      exact h (Or.inr (Or.inr (by unfold simplc_chunk_max_size; omega)))
    rw [simpl_init_eq P old buffer buffer_size hP hB hS0 hS hwrap,
      Nat.mul_comm (simplc_chunk_overhead P) 2]
    by_cases hr : init_region P buffer buffer_size <
        2 * simplc_chunk_overhead P + simplc_chunk_min_size P
    · rw [if_pos hr]
      constructor
      · intro _
        exact Or.inr (Or.inr (Or.inr hr))
      · intro _
        rfl
    · rw [if_neg hr]
      have h0 := (least_multiple_spec P buffer hP0).2.1
      constructor
      · intro h1
        simp only [] at h1
        omega
      · intro h1
        rcases h1 with h1 | h1 | h1 | h1
        · exact absurd h1 hB
        · exact absurd h1 hS0
        · omega
        · exact absurd h1 hr

/-- C21: under the no-wrap condition (the buffer ends at least a pool header and
two full-sized tables before the end of the address space), `simpl_init(B, S)`
returns null if and only if `B` is null, or `S = 0`, or `S > 2^32 - 1`, or the
pointer-aligned region that remains after the pool header and the two tables,
`init_region`, which is 0 when they do not fit, is smaller than
`2 * chunk_overhead + min_chunk_size`. -/
theorem simpl_init_null_iff (P : Nat) (hP : P = 4 ∨ P = 8) (old : simpl_pool)
    (buffer buffer_size : Nat)
    (hwrap : buffer + buffer_size + sizeof_simpl_pool P + simplc_max_flsize +
      simplc_max_freelists * P + 4 * P ≤ uptr P) :
    (simpl_init P old buffer buffer_size).1 = 0 ↔
      buffer = 0 ∨ buffer_size = 0 ∨ buffer_size > u32 - 1 ∨
        init_region P buffer buffer_size <
          2 * simplc_chunk_overhead P + simplc_chunk_min_size P :=
  simpl_init_null_cases P hP old buffer buffer_size hwrap

/-- Witness of C21: pointer size 8 and a buffer of 8192 bytes at 4096. -/
theorem simpl_init_null_iff_witness :
    4096 + 8192 + sizeof_simpl_pool 8 + simplc_max_flsize + simplc_max_freelists * 8 + 4 * 8
        ≤ uptr 8 ∧
      ((simpl_init 8 zero_pool 4096 8192).1 = 0 ↔
        4096 = 0 ∨ 8192 = 0 ∨ 8192 > u32 - 1 ∨
          init_region 8 4096 8192 < 2 * simplc_chunk_overhead 8 + simplc_chunk_min_size 8) :=
  ⟨by decide, simpl_init_null_iff 8 (Or.inr rfl) zero_pool 4096 8192 (by decide)⟩

theorem push_free_chunk_available (P : Nat) (pool : simpl_pool) (c : Nat) :
    (push_free_chunk P pool c).available =
      (pool.available + get_chunk_size P pool.mem c) % u32 := by
  unfold push_free_chunk set_bitmap
  simp only []

theorem push_free_chunk_fl_bitmap (P : Nat) (pool : simpl_pool) (c : Nat) :
    (push_free_chunk P pool c).fl_bitmap =
      pool.fl_bitmap |||
        ((1 <<< get_fl_index (freelists_mapping (get_chunk_size P pool.mem c))) % u32) := by
  unfold push_free_chunk set_bitmap
  simp only []

theorem push_free_chunk_sl_bitmaps (P : Nat) (pool : simpl_pool) (c i : Nat) :
    (push_free_chunk P pool c).sl_bitmaps i =
      if i = get_fl_index (freelists_mapping (get_chunk_size P pool.mem c)) then
        (pool.sl_bitmaps (get_fl_index (freelists_mapping (get_chunk_size P pool.mem c))) |||
          ((1 <<< get_sl_index (freelists_mapping (get_chunk_size P pool.mem c))) % u32)) % 256
      else pool.sl_bitmaps i := by
  unfold push_free_chunk set_bitmap
  simp only []

theorem class_bits (fi : Nat) (h : fi ≤ 191) :
    get_fl_index fi = fi / 8 ∧ get_fl_index fi ≤ 23 ∧ get_sl_index fi ≤ 7 ∧
      (1 <<< get_fl_index fi) % u32 = 1 <<< get_fl_index fi ∧
      ((1 <<< get_sl_index fi) % u32) % 256 = 1 <<< get_sl_index fi := by
  have e1 : get_fl_index fi = fi / 8 := by
    unfold get_fl_index simplc_fl_shift
    rw [Nat.shiftRight_eq_div_pow]
  have e2 : get_sl_index fi ≤ 7 := Nat.and_le_right
  have e3 : get_fl_index fi ≤ 23 := by omega
  refine ⟨e1, e3, e2, ?_, ?_⟩
  · apply Nat.mod_eq_of_lt
    rw [Nat.shiftLeft_eq, Nat.one_mul]
    show 2 ^ get_fl_index fi < 2 ^ 32
    exact Nat.pow_lt_pow_right (show 1 < 2 by decide) (show get_fl_index fi < 32 by omega)
  · have : (1 : Nat) <<< get_sl_index fi < 256 := by
      rw [Nat.shiftLeft_eq, Nat.one_mul]
      show 2 ^ get_sl_index fi < 2 ^ 8
      exact Nat.pow_lt_pow_right (show 1 < 2 by decide) (show get_sl_index fi < 8 by omega)
    have hu : u32 = 4294967296 := rfl
    have h2 : (1 <<< get_sl_index fi) % u32 = 1 <<< get_sl_index fi :=
      Nat.mod_eq_of_lt (by omega)
    rw [h2, Nat.mod_eq_of_lt this]

/-- The chunk region after `simpl_init`, read back. -/
theorem simpl_init_mem_facts (P : Nat) (m : Mem) (c sz : Nat) (hP : 0 < P) (hsz4 : sz % 4 = 0)
    (hszlt : sz < u32) (hmin : 3 * P ≤ sz) :
    get_chunk_size P (write_ptr (write_ptr (write_u32 (write_u32 m (c + P) (sz ||| 1))
        (c + P + sz + P) 2) (c + 2 * P) 0) (c + 3 * P) 0) c = sz ∧
      is_chunk_free P (write_ptr (write_ptr (write_u32 (write_u32 m (c + P) (sz ||| 1))
        (c + P + sz + P) 2) (c + 2 * P) 0) (c + 3 * P) 0) c = 1 ∧
      is_chunk_prev_free P (write_ptr (write_ptr (write_u32 (write_u32 m (c + P) (sz ||| 1))
        (c + P + sz + P) 2) (c + 2 * P) 0) (c + 3 * P) 0) c = 0 ∧
      read_ptr (write_ptr (write_ptr (write_u32 (write_u32 m (c + P) (sz ||| 1))
        (c + P + sz + P) 2) (c + 2 * P) 0) (c + 3 * P) 0) (c + 2 * P) = 0 ∧
      read_ptr (write_ptr (write_ptr (write_u32 (write_u32 m (c + P) (sz ||| 1))
        (c + P + sz + P) 2) (c + 2 * P) 0) (c + 3 * P) 0) (c + 3 * P) = 0 ∧
      get_chunk_size P (write_ptr (write_ptr (write_u32 (write_u32 m (c + P) (sz ||| 1))
        (c + P + sz + P) 2) (c + 2 * P) 0) (c + 3 * P) 0) (c + P + sz) = 0 ∧
      is_chunk_free P (write_ptr (write_ptr (write_u32 (write_u32 m (c + P) (sz ||| 1))
        (c + P + sz + P) 2) (c + 2 * P) 0) (c + 3 * P) 0) (c + P + sz) = 0 ∧
      is_chunk_prev_free P (write_ptr (write_ptr (write_u32 (write_u32 m (c + P) (sz ||| 1))
        (c + P + sz + P) 2) (c + 2 * P) 0) (c + 3 * P) 0) (c + P + sz) = 2 := by
  refine ⟨?_, ?_, ?_, ?_, ?_, ?_, ?_, ?_⟩
  · simp (disch := omega) only [get_chunk_size, size_addr_eq,
      read_u32_write_u32_same, read_u32_write_u32_ne, read_u32_write_ptr_ne, chunk_flags_mask,
      word_mod_size, word_or1_size, word_raw_size]
  · simp (disch := omega) only [is_chunk_free, size_addr_eq, chunk_flag_free_mask,
      read_u32_write_u32_same, read_u32_write_u32_ne, read_u32_write_ptr_ne,
      word_mod_free, word_or1_free]
  · simp (disch := omega) only [is_chunk_prev_free, size_addr_eq, chunk_flag_prev_free_mask,
      read_u32_write_u32_same, read_u32_write_u32_ne, read_u32_write_ptr_ne,
      word_mod_pfree, word_or1_pfree, word_raw_pfree]
  · rw [read_ptr_write_ptr_ne _ _ _ _ (by omega), read_ptr_write_ptr_same]
  · rw [read_ptr_write_ptr_same]
  · simp (disch := omega) only [get_chunk_size, size_addr_eq,
      read_u32_write_u32_same, read_u32_write_u32_ne, read_u32_write_ptr_ne, chunk_flags_mask,
      word_mod_size]
    decide
  · simp (disch := omega) only [is_chunk_free, size_addr_eq, chunk_flag_free_mask,
      read_u32_write_u32_same, read_u32_write_u32_ne, read_u32_write_ptr_ne,
      word_mod_free]
    decide
  · simp (disch := omega) only [is_chunk_prev_free, size_addr_eq, chunk_flag_prev_free_mask,
      read_u32_write_u32_same, read_u32_write_u32_ne, read_u32_write_ptr_ne,
      word_mod_pfree]
    decide

/-- C22: the pool after a successful `simpl_init`, under the no-wrap condition.
The first chunk `c` has its size word at `init_region_start`; its size `sz` is
`init_region - 2 * chunk_overhead`, with F = 1 and P = 0; it is the head and
the only element of the list of its class, whose index is inside the table;
every other head of the table is null; `fl_bitmap` and `sl_bitmaps[]` hold
exactly the two bits of that class; `available` is `sz`; and the chunk after
`c` is the tail marker, whose header ends at the pointer-aligned buffer end,
with size 0, F = 0 and P = 1. -/
theorem simpl_init_post_state (P : Nat) (hP : P = 4 ∨ P = 8) (old pool : simpl_pool)
    (buffer buffer_size handle c sz : Nat)
    (hwrap : buffer + buffer_size + sizeof_simpl_pool P + simplc_max_flsize +
      simplc_max_freelists * P + 4 * P ≤ uptr P)
    (hinit : simpl_init P old buffer buffer_size = (handle, pool)) (hok : handle ≠ 0)
    (hc : c = init_region_start P buffer buffer_size - simplc_chunk_overlap_size P)
    (hsz : sz = init_region P buffer buffer_size - 2 * simplc_chunk_overhead P) :
    size_addr P c = init_region_start P buffer buffer_size ∧
      get_chunk_size P pool.mem c = sz ∧
      is_chunk_free P pool.mem c ≠ 0 ∧
      is_chunk_prev_free P pool.mem c = 0 ∧
      freelists_mapping sz < init_est P buffer buffer_size ∧
      freelist_walk P pool.mem 2 (pool.freelists (freelists_mapping sz)) = [c] ∧
      read_ptr pool.mem (free_prev_addr P c) = 0 ∧
      (∀ i, i < init_est P buffer buffer_size → i ≠ freelists_mapping sz →
        pool.freelists i = 0) ∧
      pool.fl_bitmap = 1 <<< get_fl_index (freelists_mapping sz) ∧
      get_fl_index (freelists_mapping sz) < init_sl_size P buffer buffer_size ∧
      pool.sl_bitmaps (get_fl_index (freelists_mapping sz)) =
        1 <<< get_sl_index (freelists_mapping sz) ∧
      (∀ j, j < init_sl_size P buffer buffer_size → j ≠ get_fl_index (freelists_mapping sz) →
        pool.sl_bitmaps j = 0) ∧
      pool.available = sz ∧
      next_phys_chunk P pool.mem c + offsetof_payload P = (buffer + buffer_size) / P * P ∧
      get_chunk_size P pool.mem (next_phys_chunk P pool.mem c) = 0 ∧
      is_chunk_free P pool.mem (next_phys_chunk P pool.mem c) = 0 ∧
      is_chunk_prev_free P pool.mem (next_phys_chunk P pool.mem c) ≠ 0 := by
  have hu : u32 = 4294967296 := rfl
  have hP0 : 0 < P := by omega
  have hP4 : P % 4 = 0 := by omega
  have hok1 : (simpl_init P old buffer buffer_size).1 ≠ 0 := by rw [hinit]; exact hok
  have hnull := simpl_init_null_cases P hP old buffer buffer_size hwrap
  have hB : buffer ≠ 0 := fun h => hok1 (hnull.mpr (Or.inl h))
  have hS0 : buffer_size ≠ 0 := fun h => hok1 (hnull.mpr (Or.inr (Or.inl h)))
  have hS : buffer_size ≤ u32 - 1 := by
    by_contra hcon
    exact hok1 (hnull.mpr (Or.inr (Or.inr (Or.inl (by omega)))))
  have hr : ¬ init_region P buffer buffer_size <
      2 * simplc_chunk_overhead P + simplc_chunk_min_size P :=
    fun h => hok1 (hnull.mpr (Or.inr (Or.inr (Or.inr h))))
  clear hnull hok1
  rw [overhead_eq, min_size_eq] at hr
  rw [overhead_eq] at hsz
  have e0 : simplc_chunk_overlap_size P = P := rfl
  rw [e0] at hc
  obtain ⟨a1, a2, a3, a4, a5⟩ := simpl_init_addresses P buffer buffer_size hP hS hwrap
  have hE : (buffer + buffer_size) / P * P ≤ buffer + buffer_size := Nat.div_mul_le_self _ _
  have hEd : P ∣ (buffer + buffer_size) / P * P := Dvd.intro_left _ rfl
  have hsd := init_region_start_dvd P buffer buffer_size hP0
  have hsg := init_region_start_ge P buffer buffer_size hP0
  have hhdr : sizeof_simpl_pool P = 8 + 2 * P := rfl
  have h0 := least_multiple_spec P buffer hP0
  have hreg : init_region P buffer buffer_size =
      (buffer + buffer_size) / P * P - init_region_start P buffer buffer_size := rfl
  have hr4 : init_region P buffer buffer_size % 4 = 0 := by
    have : P ∣ init_region P buffer buffer_size := by
      rw [hreg]
      exact Nat.dvd_sub' hEd hsd
    obtain ⟨q, hq⟩ := this
    rw [hq]
    rcases hP with rfl | rfl <;> omega
  have hest := a5 (by omega)
  have hfi : freelists_mapping sz < init_est P buffer buffer_size := by
    rw [hest]
    have := freelists_mapping_mono sz ((buffer + buffer_size) / P * P -
      (least_multiple P buffer + sizeof_simpl_pool P)) (by omega) (by omega)
    omega
  have hestle := init_est_le P buffer buffer_size
  have hcb := class_bits (freelists_mapping sz) (by omega)
  have hsl := init_sl_size_eq P buffer buffer_size
  rw [simpl_init_eq P old buffer buffer_size hP hB hS0 hS hwrap, overhead_eq, min_size_eq,
    if_neg (by omega)] at hinit
  have hpool := (Prod.mk.inj hinit).2
  clear hinit a1 a2 a3 a4 a5
  obtain ⟨pool0, hp0⟩ : ∃ q : simpl_pool, q =
      { available := 0
        fl_bitmap := 0
        sl_bitmaps := fun i =>
          if i < init_sl_size P buffer buffer_size then 0 else old.sl_bitmaps i
        freelists := fun i =>
          if i < init_est P buffer buffer_size then 0 else old.freelists i
        mem := write_u32 (write_u32 old.mem (init_region_start P buffer buffer_size)
          ((init_region P buffer buffer_size - 2 * P) ||| 1))
          ((buffer + buffer_size) / P * P - P) 2 } := ⟨_, rfl⟩
  rw [← hp0, ← hc] at hpool
  have hst : init_region_start P buffer buffer_size = c + P := by omega
  have hend : (buffer + buffer_size) / P * P - P = c + P + sz + P := by omega
  have hm0 : pool0.mem = write_u32 (write_u32 old.mem (c + P) (sz ||| 1)) (c + P + sz + P) 2 := by
    rw [hp0]
    simp only []
    rw [← hsz, hst, hend]
  have hf0 : ∀ i, pool0.freelists i =
      if i < init_est P buffer buffer_size then 0 else old.freelists i := by
    intro i
    rw [hp0]
  have hs0 : ∀ i, pool0.sl_bitmaps i =
      if i < init_sl_size P buffer buffer_size then 0 else old.sl_bitmaps i := by
    intro i
    rw [hp0]
  have hav0 : pool0.available = 0 := by rw [hp0]
  have hfb0 : pool0.fl_bitmap = 0 := by rw [hp0]
  clear hp0
  have hsz4 : sz % 4 = 0 := by omega
  have hszlt : sz < u32 := by omega
  have hmin : 3 * P ≤ sz := by omega
  have hc0 : c ≠ 0 := by omega
  have c1 : size_addr P c = init_region_start P buffer buffer_size := by
    rw [size_addr_eq]
    omega
  have c13 : c + P + sz + offsetof_payload P = (buffer + buffer_size) / P * P := by
    unfold offsetof_payload
    omega
  have c9 : get_fl_index (freelists_mapping sz) < init_sl_size P buffer buffer_size := by
    omega
  clear hwrap hE hEd hsd hsg hhdr h0 hreg hr4 hest hestle hsl hst hend hr hS hS0 hB hc hsz hP4 hu
  obtain ⟨f1, f2, f3, f4, f5, f6, f7, f8⟩ := simpl_init_mem_facts P old.mem c sz hP0 hsz4 hszlt hmin
  have hcs0 : get_chunk_size P pool0.mem c = sz := by
    rw [hm0]
    simp (disch := omega) only [get_chunk_size, size_addr_eq, read_u32_write_u32_same,
      read_u32_write_u32_ne, chunk_flags_mask, word_mod_size, word_or1_size, word_raw_size]
  have hhead : pool0.freelists (freelists_mapping sz) = 0 := by rw [hf0, if_pos hfi]
  have hmem : pool.mem =
      write_ptr (write_ptr (write_u32 (write_u32 old.mem (c + P) (sz ||| 1)) (c + P + sz + P) 2)
        (c + 2 * P) 0) (c + 3 * P) 0 := by
    rw [← hpool, push_free_chunk_mem, hcs0, hhead, if_neg (by simp), hm0]
  have hfl : ∀ i, pool.freelists i =
      if i = freelists_mapping sz then c else
        if i < init_est P buffer buffer_size then 0 else old.freelists i := by
    intro i
    rw [← hpool, push_free_chunk_freelists, hcs0, hf0]
  have hnext : next_phys_chunk P pool.mem c = c + P + sz := by
    rw [next_phys_chunk, overhead_eq, hmem, f1]
  have c5 : freelist_walk P pool.mem 2 (pool.freelists (freelists_mapping sz)) = [c] := by
    rw [hfl, if_pos rfl, freelist_walk_succ P _ 1 c hc0, hmem, f5, freelist_walk_null]
  have c7 : ∀ i, i < init_est P buffer buffer_size → i ≠ freelists_mapping sz →
      pool.freelists i = 0 := by
    intro i hi hne
    rw [hfl, if_neg hne, if_pos hi]
  have c8 : pool.fl_bitmap = 1 <<< get_fl_index (freelists_mapping sz) := by
    rw [← hpool, push_free_chunk_fl_bitmap, hcs0, hfb0, Nat.zero_or, hcb.2.2.2.1]
  have c10 : pool.sl_bitmaps (get_fl_index (freelists_mapping sz)) =
      1 <<< get_sl_index (freelists_mapping sz) := by
    rw [← hpool, push_free_chunk_sl_bitmaps, if_pos (by rw [hcs0]), hcs0, hs0, if_pos c9,
      Nat.zero_or, hcb.2.2.2.2]
  have c11 : ∀ j, j < init_sl_size P buffer buffer_size →
      j ≠ get_fl_index (freelists_mapping sz) → pool.sl_bitmaps j = 0 := by
    intro j hj hne
    rw [← hpool, push_free_chunk_sl_bitmaps, hcs0, if_neg hne, hs0, if_pos hj]
  have c12 : pool.available = sz := by
    rw [← hpool, push_free_chunk_available, hcs0, hav0, Nat.zero_add, Nat.mod_eq_of_lt hszlt]
  rw [hnext, free_prev_addr_eq, hmem, f1, f2, f3, f4, f6, f7, f8]
  rw [← hmem]
  exact ⟨c1, rfl, by decide, rfl, hfi, c5, rfl, c7, c8, c9, c10, c11, c12, c13, rfl, rfl,
    by decide⟩

/-- Witness of C22: pointer size 8 and a buffer of 8192 bytes at 4096; the first
chunk is at 4656 with size 7608. -/
theorem simpl_init_post_state_witness :
    4096 + 8192 + sizeof_simpl_pool 8 + simplc_max_flsize + simplc_max_freelists * 8 + 4 * 8
        ≤ uptr 8 ∧
      pool_8k.1 ≠ 0 ∧
      4656 = init_region_start 8 4096 8192 - simplc_chunk_overlap_size 8 ∧
      7608 = init_region 8 4096 8192 - 2 * simplc_chunk_overhead 8 ∧
      (size_addr 8 4656 = init_region_start 8 4096 8192 ∧
      get_chunk_size 8 pool_8k.2.mem 4656 = 7608 ∧
      is_chunk_free 8 pool_8k.2.mem 4656 ≠ 0 ∧
      is_chunk_prev_free 8 pool_8k.2.mem 4656 = 0 ∧
      freelists_mapping 7608 < init_est 8 4096 8192 ∧
      freelist_walk 8 pool_8k.2.mem 2 (pool_8k.2.freelists (freelists_mapping 7608)) = [4656] ∧
      read_ptr pool_8k.2.mem (free_prev_addr 8 4656) = 0 ∧
      (∀ i, i < init_est 8 4096 8192 → i ≠ freelists_mapping 7608 →
        pool_8k.2.freelists i = 0) ∧
      pool_8k.2.fl_bitmap = 1 <<< get_fl_index (freelists_mapping 7608) ∧
      get_fl_index (freelists_mapping 7608) < init_sl_size 8 4096 8192 ∧
      pool_8k.2.sl_bitmaps (get_fl_index (freelists_mapping 7608)) =
        1 <<< get_sl_index (freelists_mapping 7608) ∧
      (∀ j, j < init_sl_size 8 4096 8192 → j ≠ get_fl_index (freelists_mapping 7608) →
        pool_8k.2.sl_bitmaps j = 0) ∧
      pool_8k.2.available = 7608 ∧
      next_phys_chunk 8 pool_8k.2.mem 4656 + offsetof_payload 8 = (4096 + 8192) / 8 * 8 ∧
      get_chunk_size 8 pool_8k.2.mem (next_phys_chunk 8 pool_8k.2.mem 4656) = 0 ∧
      is_chunk_free 8 pool_8k.2.mem (next_phys_chunk 8 pool_8k.2.mem 4656) = 0 ∧
      is_chunk_prev_free 8 pool_8k.2.mem (next_phys_chunk 8 pool_8k.2.mem 4656) ≠ 0) :=
  ⟨by decide, by decide, by decide, by decide,
    simpl_init_post_state 8 (Or.inr rfl) zero_pool pool_8k.2 4096 8192 pool_8k.1 4656 7608
      (by decide) rfl (by decide) (by decide) (by decide)⟩

/-! ## C23: the stores of `simpl_init` and the buffer -/

/-- On the buffer of `pool_8k` every store of `simpl_init` is inside the buffer. -/
theorem simpl_init_stores_pool_8k :
    ∀ s ∈ simpl_init_stores 8 zero_pool 4096 8192, 4096 ≤ s.1 ∧ s.1 + s.2 ≤ 4096 + 8192 := by
  decide

/-- C23: on the 8-byte buffer at 4096 (pointer size 8) `simpl_init` returns null, yet
it has stored the two table pointers of the pool header at 4104 and 4112, eight bytes
each: sixteen bytes behind the end 4104 of the buffer. -/
theorem simpl_init_stores_outside_buffer :
    (simpl_init 8 zero_pool 4096 8).1 = 0 ∧
      simpl_init_stores 8 zero_pool 4096 8 = [(4104, 8), (4112, 8)] ∧
      ¬ (∀ s ∈ simpl_init_stores 8 zero_pool 4096 8, 4096 ≤ s.1 ∧ s.1 + s.2 ≤ 4096 + 8) := by
  decide

/-! ## C29: table reads of `simpl_malloc` -/

/-- C29: the pool made from the 65536-byte buffer at 4096 (pointer size 8) has 80
list heads and 10 second-level bytes, and 64840 bytes available. The call
`simpl_malloc(pool, 62000)` passes the `available` check, rounds the size up to class
80 and reads `sl_bitmaps[10]`, one byte behind the table; when that byte, which
`simpl_init` never writes, holds a set bit 0, the call goes on to read `freelists[80]`,
one entry behind the table. -/
theorem simpl_malloc_reads_behind_tables :
    pool_64k.1 ≠ 0 ∧ init_est 8 4096 65536 = 80 ∧ init_sl_size 8 4096 65536 = 10 ∧
      adjust_alloc_size 8 62000 8 ≤ pool_64k.2.available ∧
      freelists_mapping (size_roundup (adjust_alloc_size 8 62000 8)) = 80 ∧
      simpl_malloc_sl_reads 8 pool_64k.1 pool_64k.2 62000 = [10] ∧
      pool_64k_stale.available = pool_64k.2.available ∧
      simpl_malloc_sl_reads 8 pool_64k.1 pool_64k_stale 62000 = [10] ∧
      simpl_malloc_freelists_reads 8 pool_64k.1 pool_64k_stale 62000 = [80] := by
  decide

/-! ## C26: the split rule of `trim_chunk_to_use` -/

/-- The memory after the split path of `trim_chunk_to_use`, read back: `h` is the old
head of the class of the rest. -/
theorem trim_split_mem_facts (P : Nat) (m : Mem) (c R cs h : Nat) (hP : 0 < P)
    (hP4 : P % 4 = 0) (hcs4 : cs % 4 = 0) (hcs : cs < u32) (hR4 : R % 4 = 0)
    (hsplit : 4 * P ≤ cs - R)
    (hh : h = 0 ∨ h + 4 * P ≤ c ∨ c + P + cs + 2 * P ≤ h) (M : Mem)
    (hM : M = write_ptr (write_ptr
        (if h ≠ 0 then
          write_ptr (write_u32 (write_ptr (write_u32 (write_u32 m (c + P)
            (R ||| (read_u32 m (c + P) &&& 2))) (c + P + R + P) ((cs - R - P) ||| 1))
            (c + P + cs) (c + P + R)) (c + P + cs + P) (read_u32 m (c + P + cs + P) ||| 2))
            (h + 2 * P) (c + P + R)
        else write_u32 (write_ptr (write_u32 (write_u32 m (c + P)
            (R ||| (read_u32 m (c + P) &&& 2))) (c + P + R + P) ((cs - R - P) ||| 1))
            (c + P + cs) (c + P + R)) (c + P + cs + P) (read_u32 m (c + P + cs + P) ||| 2))
        (c + P + R + 2 * P) 0) (c + P + R + 3 * P) h) :
    get_chunk_size P M c = R ∧
      is_chunk_free P M c = 0 ∧
      get_chunk_size P M (c + P + R) = cs - R - P ∧
      is_chunk_free P M (c + P + R) = 1 ∧
      is_chunk_prev_free P M (c + P + R) = 0 ∧
      read_ptr M (c + P + R + 2 * P) = 0 ∧
      read_ptr M (c + P + R + 3 * P) = h ∧
      (h ≠ 0 → read_ptr M (h + 2 * P) = c + P + R) ∧
      read_ptr M (c + P + cs) = c + P + R ∧
      is_chunk_prev_free P M (c + P + cs) = 2 ∧
      get_chunk_size P M (c + P + cs) = get_chunk_size P m (c + P + cs) ∧
      is_chunk_free P M (c + P + cs) = is_chunk_free P m (c + P + cs) := by
  have hu : u32 = 4294967296 := rfl
  have hr4 : (cs - R - P) % 4 = 0 := by omega
  have hrlt : cs - R - P < u32 := by omega
  have hRlt : R < u32 := by omega
  subst hM
  by_cases h0 : h = 0
  · subst h0
    simp (disch := omega) only [ne_eq, not_true_eq_false, if_false, false_implies,
      get_chunk_size, is_chunk_free, is_chunk_prev_free, size_addr_eq, chunk_flags_mask,
      chunk_flag_free_mask, chunk_flag_prev_free_mask, read_u32_write_u32_same,
      read_u32_write_u32_ne, read_u32_write_ptr_ne, read_ptr_write_ptr_same,
      read_ptr_write_ptr_ne, read_ptr_write_u32_ne, word_mod_size, word_mod_free,
      word_mod_pfree, word_keep2_size, word_keep2_free, word_or1_size, word_or1_free,
      word_or1_pfree, word_or2_size, word_or2_free, word_or2_pfree, word_raw_size,
      word_raw_pfree, and_self]
  · have hh2 : h + 4 * P ≤ c ∨ c + P + cs + 2 * P ≤ h := hh.resolve_left h0
    clear hh
    rw [if_pos h0]
    simp (disch := omega) only [ne_eq, h0, not_false_eq_true, true_implies,
      get_chunk_size, is_chunk_free, is_chunk_prev_free, size_addr_eq, chunk_flags_mask,
      chunk_flag_free_mask, chunk_flag_prev_free_mask, read_u32_write_u32_same,
      read_u32_write_u32_ne, read_u32_write_ptr_ne, read_ptr_write_ptr_same,
      read_ptr_write_ptr_ne, read_ptr_write_u32_ne, word_mod_size, word_mod_free,
      word_mod_pfree, word_keep2_size, word_keep2_free, word_or1_size, word_or1_free,
      word_or1_pfree, word_or2_size, word_or2_free, word_or2_pfree, word_raw_size,
      word_raw_pfree, and_self]

/-- The bit that `set_bitmap` sets in a second-level byte. -/
theorem sl_bit_set (a k : Nat) (hk : k ≤ 7) :
    ((a ||| ((1 <<< k) % u32)) % 256).testBit k = true := by
  have h1 : (1 : Nat) <<< k < u32 := by
    rw [Nat.shiftLeft_eq, Nat.one_mul]
    show 2 ^ k < 2 ^ 32
    exact Nat.pow_lt_pow_right (show 1 < 2 by decide) (show k < 32 by omega)
  rw [Nat.mod_eq_of_lt h1, show (256 : Nat) = 2 ^ 8 from rfl, Nat.testBit_mod_two_pow,
    Nat.testBit_or, Nat.shiftLeft_eq, Nat.one_mul, Nat.testBit_two_pow_self, Bool.or_true,
    Bool.and_true]
  exact decide_eq_true (by omega)

/-- C26: the split rule of `trim_chunk_to_use`.  Let the chunk `c` have size `cs`,
let its physical successor be in use, let the target `ts ≤ cs` be pointer-aligned, and
let the head of the class of the rest, if there is one, lie outside the span of `c` and
the header of its successor.  The call returns `c`, in use.  If
`cs - ts ≥ chunk_overhead + min_chunk_size`, then `c` has size `ts` and is followed at
`c + chunk_overhead + ts` by a free chunk of size `cs - ts - chunk_overhead`, which is
the new head of its class, linked in front of the old head, with both bitmap bits of the
class set and `available` grown by its size; the other heads are unchanged.  Otherwise
`c` keeps size `cs` and heads, bitmaps and `available` are unchanged.  In both cases the
chunk after the trimmed region is at the same address as before and still in use. -/
theorem trim_chunk_to_use_split_rule (P : Nat) (hP : P = 4 ∨ P = 8) (pool : simpl_pool)
    (c cs ts : Nat) (hcs : get_chunk_size P pool.mem c = cs)
    (hNN : is_chunk_free P pool.mem (next_phys_chunk P pool.mem c) = 0)
    (hal : ts % P = 0) (hle : ts ≤ cs)
    (hhd : pool.freelists (freelists_mapping (cs - ts - simplc_chunk_overhead P)) = 0 ∨
      outside P (pool.freelists (freelists_mapping (cs - ts - simplc_chunk_overhead P))) c
        (next_phys_chunk P pool.mem c + offsetof_payload P)) :
    (trim_chunk_to_use P pool c ts).1 = c ∧
      is_chunk_free P (trim_chunk_to_use P pool c ts).2.mem c = 0 ∧
      (cs - ts ≥ simplc_chunk_overhead P + simplc_chunk_min_size P →
        get_chunk_size P (trim_chunk_to_use P pool c ts).2.mem c = ts ∧
        next_phys_chunk P (trim_chunk_to_use P pool c ts).2.mem c =
          c + simplc_chunk_overhead P + ts ∧
        get_chunk_size P (trim_chunk_to_use P pool c ts).2.mem
          (c + simplc_chunk_overhead P + ts) = cs - ts - simplc_chunk_overhead P ∧
        is_chunk_free P (trim_chunk_to_use P pool c ts).2.mem
          (c + simplc_chunk_overhead P + ts) ≠ 0 ∧
        is_chunk_prev_free P (trim_chunk_to_use P pool c ts).2.mem
          (c + simplc_chunk_overhead P + ts) = 0 ∧
        (trim_chunk_to_use P pool c ts).2.freelists
          (freelists_mapping (cs - ts - simplc_chunk_overhead P)) =
            c + simplc_chunk_overhead P + ts ∧
        (∀ i, i ≠ freelists_mapping (cs - ts - simplc_chunk_overhead P) →
          (trim_chunk_to_use P pool c ts).2.freelists i = pool.freelists i) ∧
        read_ptr (trim_chunk_to_use P pool c ts).2.mem
          (free_prev_addr P (c + simplc_chunk_overhead P + ts)) = 0 ∧
        read_ptr (trim_chunk_to_use P pool c ts).2.mem
          (free_next_addr P (c + simplc_chunk_overhead P + ts)) =
            pool.freelists (freelists_mapping (cs - ts - simplc_chunk_overhead P)) ∧
        (pool.freelists (freelists_mapping (cs - ts - simplc_chunk_overhead P)) ≠ 0 →
          read_ptr (trim_chunk_to_use P pool c ts).2.mem (free_prev_addr P
            (pool.freelists (freelists_mapping (cs - ts - simplc_chunk_overhead P)))) =
              c + simplc_chunk_overhead P + ts) ∧
        (trim_chunk_to_use P pool c ts).2.fl_bitmap.testBit
          (get_fl_index (freelists_mapping (cs - ts - simplc_chunk_overhead P))) = true ∧
        ((trim_chunk_to_use P pool c ts).2.sl_bitmaps
          (get_fl_index (freelists_mapping (cs - ts - simplc_chunk_overhead P)))).testBit
            (get_sl_index (freelists_mapping (cs - ts - simplc_chunk_overhead P))) = true ∧
        (trim_chunk_to_use P pool c ts).2.available =
          (pool.available + (cs - ts - simplc_chunk_overhead P)) % u32 ∧
        (pool.available + (cs - ts - simplc_chunk_overhead P) < u32 →
          (trim_chunk_to_use P pool c ts).2.available =
            pool.available + (cs - ts - simplc_chunk_overhead P)) ∧
        next_phys_chunk P (trim_chunk_to_use P pool c ts).2.mem
          (c + simplc_chunk_overhead P + ts) = next_phys_chunk P pool.mem c ∧
        read_ptr (trim_chunk_to_use P pool c ts).2.mem (next_phys_chunk P pool.mem c) =
          c + simplc_chunk_overhead P + ts ∧
        is_chunk_prev_free P (trim_chunk_to_use P pool c ts).2.mem
          (next_phys_chunk P pool.mem c) ≠ 0) ∧
      (cs - ts < simplc_chunk_overhead P + simplc_chunk_min_size P →
        get_chunk_size P (trim_chunk_to_use P pool c ts).2.mem c = cs ∧
        next_phys_chunk P (trim_chunk_to_use P pool c ts).2.mem c =
          next_phys_chunk P pool.mem c ∧
        (trim_chunk_to_use P pool c ts).2.freelists = pool.freelists ∧
        (trim_chunk_to_use P pool c ts).2.fl_bitmap = pool.fl_bitmap ∧
        (trim_chunk_to_use P pool c ts).2.sl_bitmaps = pool.sl_bitmaps ∧
        (trim_chunk_to_use P pool c ts).2.available = pool.available ∧
        is_chunk_prev_free P (trim_chunk_to_use P pool c ts).2.mem
          (next_phys_chunk P pool.mem c) = 0) ∧
      get_chunk_size P (trim_chunk_to_use P pool c ts).2.mem (next_phys_chunk P pool.mem c) =
        get_chunk_size P pool.mem (next_phys_chunk P pool.mem c) ∧
      is_chunk_free P (trim_chunk_to_use P pool c ts).2.mem (next_phys_chunk P pool.mem c) =
        0 := by
  have hP0 : 0 < P := by rcases hP with rfl | rfl <;> decide
  have hP4 : P % 4 = 0 := by rcases hP with rfl | rfl <;> decide
  have hu : u32 = 4294967296 := rfl
  have hcs_lt : cs < u32 := by rw [← hcs]; exact word_size_lt _
  have hcs4 : cs % 4 = 0 := by rw [← hcs]; exact word_size_mod4 _
  have hts4 : ts % 4 = 0 := by
    rcases hP with rfl | rfl <;> omega
  have hnx : next_phys_chunk P pool.mem c = c + P + cs := by
    rw [next_phys_chunk, overhead_eq, hcs]
  rw [hnx] at hNN hhd ⊢
  simp only [overhead_eq, min_size_eq, outside, sizeof_chunk_eq, offsetof_payload,
    free_prev_addr_eq, free_next_addr_eq] at hhd ⊢
  clear hP hal hnx
  refine ⟨trim_chunk_to_use_fst P pool c ts, ?_⟩
  by_cases hsp : 4 * P ≤ cs - ts
  · have hge : cs - ts ≥ P + 3 * P := by omega
    have hnlt : ¬ cs - ts < P + 3 * P := by omega
    rw [trim_split P pool c ts cs hP0 hP4 hcs hts4 hle hsp hNN]
    simp only [hge, hnlt, true_implies, false_implies, and_true]
    have hrs := trim_split_remainder_size P pool.mem c ts cs hP0 hP4 hcs4 hcs_lt hts4 hsp
    have hfi : freelists_mapping (cs - ts - P) ≤ 191 := freelists_mapping_le_191 _ (by omega)
    have hcb := class_bits (freelists_mapping (cs - ts - P)) hfi
    rw [push_free_chunk_mem, push_free_chunk_fl_bitmap, push_free_chunk_available]
    simp only [push_free_chunk_freelists, push_free_chunk_sl_bitmaps, hrs, if_true]
    obtain ⟨f1, f2, f3, f4, f5, f6, f7, f8, f9, f10, f11, f12⟩ :=
      trim_split_mem_facts P pool.mem c ts cs
        (pool.freelists (freelists_mapping (cs - ts - P))) hP0 hP4 hcs4 hcs_lt hts4 hsp
        (by omega) _ rfl
    rw [next_phys_chunk, next_phys_chunk, overhead_eq, f1, f2, f3, f4, f5, f6, f7, f9, f10,
      f11, f12, hNN, hcb.2.2.2.1]
    refine ⟨rfl, ⟨rfl, rfl, rfl, by decide, rfl, trivial, ?_, rfl, rfl, f8, ?_, ?_, trivial,
      ?_, ?_, rfl, by decide⟩, trivial, rfl, rfl⟩
    · intro i hi
      rw [if_neg hi]
    · rw [Nat.testBit_or, Nat.shiftLeft_eq, Nat.one_mul, Nat.testBit_two_pow_self,
        Bool.or_true]
    · exact sl_bit_set _ _ hcb.2.2.1
    · intro h
      exact Nat.mod_eq_of_lt h
    · omega
  · have hge : ¬ cs - ts ≥ P + 3 * P := by omega
    have hnlt : cs - ts < P + 3 * P := by omega
    rw [trim_nosplit P pool c ts cs hcs hle (by omega)]
    simp only [hge, hnlt, true_implies, false_implies, true_and, and_true]
    rw [set_chunk_used_eq P _ c cs hP0 hcs]
    simp only [get_chunk_size, is_chunk_free, size_addr_eq, chunk_flags_mask,
      chunk_flag_free_mask] at hcs hNN
    simp (disch := omega) only [next_phys_chunk, overhead_eq, get_chunk_size, is_chunk_free,
      is_chunk_prev_free, size_addr_eq, read_u32_write_u32_same, read_u32_write_u32_ne,
      chunk_flags_mask, chunk_flag_free_mask, chunk_flag_prev_free_mask, word_mod_size,
      word_mod_free, word_mod_pfree, word_clr1_size, word_clr1_free, word_clr2_size,
      word_clr2_free, word_clr2_pfree, hcs, hNN, and_self]

/-- Witness of C26: the first chunk of `pool_8k` (at 4656, size 7608), popped from its
list as `simpl_malloc` does, is trimmed to 4000 bytes; the rest of 3600 bytes is split
off at 8664. -/
theorem trim_chunk_to_use_split_rule_witness :
    get_chunk_size 8 (pop_free_chunk 8 pool_8k.2 4656).mem 4656 = 7608 ∧
      is_chunk_free 8 (pop_free_chunk 8 pool_8k.2 4656).mem
        (next_phys_chunk 8 (pop_free_chunk 8 pool_8k.2 4656).mem 4656) = 0 ∧
      4000 % 8 = 0 ∧ 4000 ≤ 7608 ∧
      (pop_free_chunk 8 pool_8k.2 4656).freelists
        (freelists_mapping (7608 - 4000 - simplc_chunk_overhead 8)) = 0 ∧
      7608 - 4000 ≥ simplc_chunk_overhead 8 + simplc_chunk_min_size 8 ∧
      (trim_chunk_to_use 8 (pop_free_chunk 8 pool_8k.2 4656) 4656 4000).1 = 4656 ∧
      get_chunk_size 8 (trim_chunk_to_use 8 (pop_free_chunk 8 pool_8k.2 4656) 4656 4000).2.mem
        4656 = 4000 ∧
      get_chunk_size 8 (trim_chunk_to_use 8 (pop_free_chunk 8 pool_8k.2 4656) 4656 4000).2.mem
        (4656 + simplc_chunk_overhead 8 + 4000) = 7608 - 4000 - simplc_chunk_overhead 8 := by
  have h := trim_chunk_to_use_split_rule 8 (Or.inr rfl) (pop_free_chunk 8 pool_8k.2 4656)
    4656 7608 4000 (by decide) (by decide) (by decide) (by decide) (Or.inl (by decide))
  exact ⟨by decide, by decide, by decide, by decide, by decide, by decide, h.1,
    (h.2.2.1 (by decide)).1, (h.2.2.1 (by decide)).2.2.1⟩

/-! ## C25: `search_freelists` and the bitmaps -/

theorem testBit_double_succ (a i : Nat) : (2 * a).testBit (i + 1) = a.testBit i := by
  rw [Nat.testBit_succ, Nat.mul_div_cancel_left a (by decide : 0 < 2)]

theorem testBit_double_zero (a : Nat) : (2 * a).testBit 0 = false := by
  rw [Nat.testBit_zero]
  simp

/-- The lowest set bit: `w & -w` on `n`-bit words. -/
theorem lowest_bit (n : Nat) : ∀ w : Nat, 0 < w → w < 2 ^ n →
    ∃ k, k < n ∧ w &&& (2 ^ n - w) = 2 ^ k ∧ w.testBit k = true ∧
      ∀ i, i < k → w.testBit i = false := by
  induction n with
  | zero =>
    intro w h0 hlt
    simp at hlt
    omega
  | succ n ih =>
    intro w h0 hlt
    have hp : 2 ^ (n + 1) = 2 * 2 ^ n := by rw [Nat.pow_succ, Nat.mul_comm]
    rcases Nat.mod_two_eq_zero_or_one w with hev | hod
    · obtain ⟨q, hq⟩ : ∃ q, w = 2 * q := ⟨w / 2, by omega⟩
      subst hq
      obtain ⟨k, hk, e, hb, hlow⟩ := ih q (by omega) (by omega)
      refine ⟨k + 1, by omega, ?_, ?_, ?_⟩
      · rw [hp, show 2 * 2 ^ n - 2 * q = 2 * (2 ^ n - q) by omega, Nat.pow_succ,
          Nat.mul_comm (2 ^ k) 2, ← e]
        apply Nat.eq_of_testBit_eq
        intro i
        cases i with
        | zero => rw [Nat.testBit_and, testBit_double_zero, testBit_double_zero, testBit_double_zero]; rfl
        | succ i =>
          rw [Nat.testBit_and, testBit_double_succ, testBit_double_succ, testBit_double_succ,
            Nat.testBit_and]
      · rw [testBit_double_succ]
        exact hb
      · intro i hi
        cases i with
        | zero => exact testBit_double_zero q
        | succ i =>
          rw [testBit_double_succ]
          exact hlow i (by omega)
    · refine ⟨0, by omega, ?_, ?_, ?_⟩
      · have hw0 : w.testBit 0 = true := by
          rw [Nat.testBit_zero]
          exact decide_eq_true hod
        have e1 : 2 ^ (n + 1) - w = 2 ^ (n + 1) - ((w - 1) + 1) := by omega
        apply Nat.eq_of_testBit_eq
        intro i
        rw [Nat.testBit_and, e1, Nat.testBit_two_pow_sub_succ (by omega)]
        cases i with
        | zero =>
          have : (w - 1).testBit 0 = false := by
            rw [Nat.testBit_zero]
            exact decide_eq_false (by omega)
          rw [hw0, this]
          simp
        | succ i =>
          have : (w - 1).testBit (i + 1) = w.testBit (i + 1) := by
            rw [Nat.testBit_succ, Nat.testBit_succ, show (w - 1) / 2 = w / 2 by omega]
          rw [this]
          have h1 : (2 ^ 0).testBit (i + 1) = false := by
            rw [Nat.testBit_two_pow]
            exact decide_eq_false (by omega)
          rw [h1]
          cases w.testBit (i + 1) <;> simp
      · rw [Nat.testBit_zero]
        exact decide_eq_true hod
      · intro i hi
        omega

theorem not32_eq (w : Nat) (h : w < u32) : not32 w = u32 - 1 - w := by
  have hu : u32 = 2 ^ 32 := rfl
  unfold not32
  rw [Nat.mod_eq_of_lt h, hu]
  rw [hu] at h
  apply Nat.eq_of_testBit_eq
  intro i
  rw [Nat.testBit_xor, Nat.testBit_two_pow_sub_one,
    show 2 ^ 32 - 1 - w = 2 ^ 32 - (w + 1) by omega, Nat.testBit_two_pow_sub_succ h]
  by_cases hi : i < 32
  · simp [hi]
  · have : w.testBit i = false := by
      apply Nat.testBit_lt_two_pow
      have : (2 : Nat) ^ 32 ≤ 2 ^ i := Nat.pow_le_pow_right (by decide) (by omega)
      omega
    simp [hi, this]

theorem fls_generic_two_pow : ∀ k, k < 32 → fls_generic (2 ^ k) = k + 1 := by
  decide

/-- The function `ffs` returns 0 for 0. -/
theorem ffs_zero : ffs 0 = 0 := by decide

/-- The function `ffs` returns the position, counted from 1, of the lowest set bit. -/
theorem ffs_spec (w : Nat) (h0 : w ≠ 0) (hlt : w < u32) :
    ∃ k, k < 32 ∧ ffs w = k + 1 ∧ w.testBit k = true ∧ ∀ i, i < k → w.testBit i = false := by
  have hu : u32 = 2 ^ 32 := rfl
  have hu2 : u32 = 4294967296 := rfl
  obtain ⟨k, hk, e, hb, hlow⟩ := lowest_bit 32 w (by omega) (by rw [← hu]; exact hlt)
  refine ⟨k, hk, ?_, hb, hlow⟩
  unfold ffs
  rw [not32_eq w hlt, show u32 - 1 - w + 1 = u32 - w by omega,
    Nat.mod_eq_of_lt (by omega), hu, e]
  exact fls_generic_two_pow k hk

theorem ffs_eq_zero_iff (w : Nat) (hlt : w < u32) : ffs w = 0 ↔ w = 0 := by
  constructor
  · intro h
    by_contra h0
    obtain ⟨k, _, e, _, _⟩ := ffs_spec w h0 hlt
    omega
  · intro h
    rw [h]
    exact ffs_zero

/-- The mask `~0U << s` keeps the bits from position `s` on. -/
theorem masked_testBit (x s i : Nat) (hx : x < u32) :
    (x &&& ((not32 0 <<< s) % u32)).testBit i = (x.testBit i && decide (s ≤ i)) := by
  have hu : u32 = 2 ^ 32 := rfl
  have h0 : not32 0 = 2 ^ 32 - 1 := by decide
  rw [Nat.testBit_and, h0, hu, Nat.testBit_mod_two_pow, Nat.testBit_shiftLeft,
    Nat.testBit_two_pow_sub_one]
  by_cases hi : i < 32
  · by_cases hs : s ≤ i
    · have : i - s < 32 := by omega
      simp [hi, hs, this]
    · simp [hi, hs]
  · have : x.testBit i = false := by
      apply Nat.testBit_lt_two_pow
      have : (2 : Nat) ^ 32 ≤ 2 ^ i := Nat.pow_le_pow_right (by decide) (by omega)
      rw [hu] at hx
      omega
    simp [this]

theorem masked_lt (x s : Nat) (hx : x < u32) : x &&& ((not32 0 <<< s) % u32) < u32 :=
  lt_of_le_of_lt Nat.and_le_left hx

theorem get_freelist_index_eq : ∀ j, j < 32 → ∀ k, k < 8 → get_freelist_index j k = 8 * j + k := by
  decide

theorem class_index_split : ∀ fi, fi < 256 →
    get_fl_index fi = fi / 8 ∧ get_sl_index fi = fi % 8 := by
  decide

theorem testBit_lt_of_lt (x k n : Nat) (hx : x < 2 ^ n) (hb : x.testBit k = true) : k < n := by
  by_contra h
  have : x.testBit k = false := by
    apply Nat.testBit_lt_two_pow
    have : (2 : Nat) ^ n ≤ 2 ^ k := Nat.pow_le_pow_right (by decide) (by omega)
    omega
  rw [this] at hb
  exact Bool.noConfusion hb

/-- The two-level bitmap search of `search_freelists`: either no bit is set from the
class of the size on, and the result is 0, or the result is the first set bit from
there on, in row-major order. -/
theorem search_freelists_bits (pool : simpl_pool) (size n : Nat) (hn : n ≤ 32)
    (hfl : pool.fl_bitmap < 2 ^ n) (hrows : ∀ j, j < n → pool.sl_bitmaps j < 256)
    (hI1 : ∀ j, j < n → (pool.fl_bitmap.testBit j = true ↔ pool.sl_bitmaps j ≠ 0))
    (hsz : get_fl_index (freelists_mapping size) < n) :
    ((∀ j k, j < n → k < 8 → freelists_mapping size ≤ 8 * j + k →
        (pool.sl_bitmaps j).testBit k = false) ∧ search_freelists pool size = 0) ∨
      (∃ j k, j < n ∧ k < 8 ∧ search_freelists pool size = 8 * j + k ∧
        freelists_mapping size ≤ 8 * j + k ∧ (pool.sl_bitmaps j).testBit k = true ∧
        ∀ j1 k1, j1 < n → k1 < 8 → freelists_mapping size ≤ 8 * j1 + k1 →
          8 * j1 + k1 < 8 * j + k → (pool.sl_bitmaps j1).testBit k1 = false) := by
  have hu : u32 = 4294967296 := rfl
  have hfi : freelists_mapping size < 256 := by
    have e : get_fl_index (freelists_mapping size) = freelists_mapping size / 2 ^ 3 := by
      unfold get_fl_index simplc_fl_shift
      rw [Nat.shiftRight_eq_div_pow]
    rw [e] at hsz
    omega
  obtain ⟨e1, e2⟩ := class_index_split _ hfi
  obtain ⟨j0, hj0⟩ : ∃ j0, j0 = get_fl_index (freelists_mapping size) := ⟨_, rfl⟩
  obtain ⟨s0, hs0⟩ : ∃ s0, s0 = get_sl_index (freelists_mapping size) := ⟨_, rfl⟩
  have hfi_eq : freelists_mapping size = 8 * j0 + s0 := by omega
  have hs8 : s0 < 8 := by omega
  have hj0n : j0 < n := by omega
  have hflu : pool.fl_bitmap < u32 := by
    have : (2 : Nat) ^ n ≤ 2 ^ 32 := Nat.pow_le_pow_right (by decide) hn
    omega
  have hrowu : ∀ j, j < n → pool.sl_bitmaps j < u32 := by
    intro j hj
    have := hrows j hj
    omega
  have hrow8 : ∀ j k, j < n → (pool.sl_bitmaps j).testBit k = true → k < 8 :=
    fun j k hj hb => testBit_lt_of_lt _ k 8 (hrows j hj) hb
  unfold search_freelists
  simp only []
  rw [← hj0, ← hs0, hfi_eq]
  clear e1 e2 hj0 hs0 hfi hsz hfi_eq
  by_cases h1 : pool.sl_bitmaps j0 &&& ((not32 0 <<< s0) % u32) = 0
  · -- nothing in the row of the class
    have hrow0 : ∀ k, s0 ≤ k → (pool.sl_bitmaps j0).testBit k = false := by
      intro k hk
      have := masked_testBit (pool.sl_bitmaps j0) s0 k (hrowu j0 hj0n)
      rw [h1, Nat.zero_testBit] at this
      cases hb : (pool.sl_bitmaps j0).testBit k
      · rfl
      · rw [hb] at this
        simp [hk] at this
    rw [h1, ffs_zero, if_neg (by simp)]
    by_cases h2 : pool.fl_bitmap &&& ((not32 0 <<< (j0 + 1)) % u32) = 0
    · left
      have hfl0 : ∀ j, j0 + 1 ≤ j → pool.fl_bitmap.testBit j = false := by
        intro j hj
        have := masked_testBit pool.fl_bitmap (j0 + 1) j hflu
        rw [h2, Nat.zero_testBit] at this
        cases hb : pool.fl_bitmap.testBit j
        · rfl
        · rw [hb] at this
          simp [hj] at this
      refine ⟨?_, ?_⟩
      · intro j k hj hk hle
        by_cases hjj : j = j0
        · subst hjj
          exact hrow0 k (by omega)
        · have hz : pool.sl_bitmaps j = 0 := by
            by_contra hne
            have := (hI1 j hj).mpr hne
            rw [hfl0 j (by omega)] at this
            exact Bool.noConfusion this
          rw [hz, Nat.zero_testBit]
      · rw [h2, ffs_zero, if_pos rfl]
    · right
      obtain ⟨j, hj32, ej, hbj, hlowj⟩ := ffs_spec _ h2 (masked_lt _ _ hflu)
      rw [masked_testBit _ _ _ hflu] at hbj
      simp only [Bool.and_eq_true, decide_eq_true_eq] at hbj
      have hjn : j < n := testBit_lt_of_lt _ j n hfl hbj.1
      have hrne : pool.sl_bitmaps j ≠ 0 := (hI1 j hjn).mp hbj.1
      obtain ⟨k, hk32, ek, hbk, hlowk⟩ := ffs_spec _ hrne (hrowu j hjn)
      have hk8 : k < 8 := hrow8 j k hjn hbk
      rw [ej, if_neg (by omega), show j + 1 - 1 = j by omega, ek,
        show (k + 1 + u32 - 1) % u32 = k by rw [hu]; omega, get_freelist_index_eq j (by omega) k hk8]
      refine ⟨j, k, hjn, hk8, rfl, by omega, hbk, ?_⟩
      intro j1 k1 hj1 hk1 hle hlt
      by_cases hjj : j1 = j0
      · subst hjj
        exact hrow0 k1 (by omega)
      · by_cases hjj2 : j1 = j
        · subst hjj2
          exact hlowk k1 (by omega)
        · have hfb : pool.fl_bitmap.testBit j1 = false := by
            have := hlowj j1 (by omega)
            rw [masked_testBit _ _ _ hflu] at this
            cases hb : pool.fl_bitmap.testBit j1
            · rfl
            · rw [hb] at this
              have hle1 : j0 + 1 ≤ j1 := by omega
              simp [hle1] at this
          have hz : pool.sl_bitmaps j1 = 0 := by
            by_contra hne
            have := (hI1 j1 hj1).mpr hne
            rw [hfb] at this
            exact Bool.noConfusion this
          rw [hz, Nat.zero_testBit]
  · right
    obtain ⟨k, hk32, ek, hbk, hlowk⟩ := ffs_spec _ h1 (masked_lt _ _ (hrowu j0 hj0n))
    rw [masked_testBit _ _ _ (hrowu j0 hj0n)] at hbk
    simp only [Bool.and_eq_true, decide_eq_true_eq] at hbk
    have hk8 : k < 8 := hrow8 j0 k hj0n hbk.1
    rw [ek, if_pos (by omega), show k + 1 - 1 = k by omega,
      get_freelist_index_eq j0 (by omega) k hk8]
    refine ⟨j0, k, hj0n, hk8, rfl, by omega, hbk.1, ?_⟩
    intro j1 k1 hj1 hk1 hle hlt
    have hjj : j1 = j0 := by omega
    subst hjj
    have := hlowk k1 (by omega)
    rw [masked_testBit _ _ _ (hrowu j1 hj0n)] at this
    cases hb : (pool.sl_bitmaps j1).testBit k1
    · rfl
    · rw [hb] at this
      have hle1 : s0 ≤ k1 := by omega
      simp [hle1] at this

/-- The class `search_freelists` finds: let the tables of the pool have `n ≤ 32`
second-level bytes and `est ≤ 8 * n` list heads, let bit `j` of `fl_bitmap` be set
exactly when
`sl_bitmaps[j]` is not zero, and bit `k` of `sl_bitmaps[j]` exactly when class
`8 * j + k` is inside the table with a non-null head, and let the first-level index
of the class of `size` be inside the table.  If some class from
`freelists_mapping(size)` on has a non-null head, `search_freelists(pool, size)`
returns the least such class.  If moreover the class of `size` is not 0, or class 0 is
empty, it returns 0 if and only if there is no such class. -/
theorem search_freelists_least_class (pool : simpl_pool) (size n est : Nat) (hn : n ≤ 32)
    (hest : est ≤ 8 * n) (hfl : pool.fl_bitmap < 2 ^ n)
    (hrows : ∀ j, j < n → pool.sl_bitmaps j < 256)
    (hI1 : ∀ j, j < n → (pool.fl_bitmap.testBit j = true ↔ pool.sl_bitmaps j ≠ 0))
    (hI2 : ∀ j, j < n → ∀ k, k < 8 → ((pool.sl_bitmaps j).testBit k = true ↔
      get_freelist_index j k < est ∧ pool.freelists (get_freelist_index j k) ≠ 0))
    (hsz : get_fl_index (freelists_mapping size) < n) :
    ((∃ i, freelists_mapping size ≤ i ∧ i < est ∧ pool.freelists i ≠ 0) →
        freelists_mapping size ≤ search_freelists pool size ∧
        search_freelists pool size < est ∧
        pool.freelists (search_freelists pool size) ≠ 0 ∧
        ∀ i, freelists_mapping size ≤ i → i < search_freelists pool size →
          pool.freelists i = 0) ∧
      (freelists_mapping size ≠ 0 ∨ pool.freelists 0 = 0 →
        (search_freelists pool size = 0 ↔
          ¬ ∃ i, freelists_mapping size ≤ i ∧ i < est ∧ pool.freelists i ≠ 0)) := by
  have hidx : ∀ i, i < est → i / 8 < n ∧ i % 8 < 8 ∧ get_freelist_index (i / 8) (i % 8) = i := by
    intro i hi
    have h1 : i / 8 < n := by omega
    have h2 : i % 8 < 8 := by omega
    refine ⟨h1, h2, ?_⟩
    rw [get_freelist_index_eq (i / 8) (by omega) (i % 8) h2]
    omega
  rcases search_freelists_bits pool size n hn hfl hrows hI1 hsz with
    ⟨hnone, hr⟩ | ⟨j, k, hj, hk, hr, hle, hb, hmin⟩
  · have hno : ¬ ∃ i, freelists_mapping size ≤ i ∧ i < est ∧ pool.freelists i ≠ 0 := by
      rintro ⟨i, hi1, hi2, hi3⟩
      obtain ⟨h1, h2, h3⟩ := hidx i hi2
      have hbit := (hI2 (i / 8) h1 (i % 8) h2).mpr (by rw [h3]; exact ⟨hi2, hi3⟩)
      rw [hnone (i / 8) (i % 8) h1 h2 (by omega)] at hbit
      exact Bool.noConfusion hbit
    exact ⟨fun h => absurd h hno, fun _ => ⟨fun _ => hno, fun _ => hr⟩⟩
  · have hg : get_freelist_index j k = 8 * j + k := get_freelist_index_eq j (by omega) k hk
    have hhead := (hI2 j hj k hk).mp hb
    rw [hg, ← hr] at hhead
    rw [← hr] at hle hmin
    have hmin2 : ∀ i, freelists_mapping size ≤ i → i < search_freelists pool size →
        pool.freelists i = 0 := by
      intro i hi1 hi2
      obtain ⟨h1, h2, h3⟩ := hidx i (by omega)
      have hbit := hmin (i / 8) (i % 8) h1 h2 (by omega) (by omega)
      by_contra hne
      have := (hI2 (i / 8) h1 (i % 8) h2).mpr (by rw [h3]; exact ⟨by omega, hne⟩)
      rw [hbit] at this
      exact Bool.noConfusion this
    refine ⟨fun _ => ⟨hle, hhead.1, hhead.2, hmin2⟩, fun h0 => ⟨fun hz => ?_, fun hno => ?_⟩⟩
    · exfalso
      rcases h0 with h0 | h0
      · omega
      · rw [hz] at hhead
        exact hhead.2 h0
    · exact absurd ⟨search_freelists pool size, hle, hhead.1, hhead.2⟩ hno

/-- The search on `pool_8k` (9 second-level bytes, 66 heads) with the size 4000. -/
theorem search_freelists_least_class_witness :
    (9 ≤ 32 ∧ 66 ≤ 8 * 9 ∧ pool_8k.2.fl_bitmap < 2 ^ 9) ∧
      ((∃ i, freelists_mapping 4000 ≤ i ∧ i < 66 ∧ pool_8k.2.freelists i ≠ 0) →
        freelists_mapping 4000 ≤ search_freelists pool_8k.2 4000 ∧
        search_freelists pool_8k.2 4000 < 66 ∧
        pool_8k.2.freelists (search_freelists pool_8k.2 4000) ≠ 0 ∧
        ∀ i, freelists_mapping 4000 ≤ i → i < search_freelists pool_8k.2 4000 →
          pool_8k.2.freelists i = 0) ∧
      (freelists_mapping 4000 ≠ 0 ∨ pool_8k.2.freelists 0 = 0 →
        (search_freelists pool_8k.2 4000 = 0 ↔
          ¬ ∃ i, freelists_mapping 4000 ≤ i ∧ i < 66 ∧ pool_8k.2.freelists i ≠ 0)) :=
  ⟨by decide, search_freelists_least_class pool_8k.2 4000 9 66 (by decide) (by decide)
    (by decide) (by decide) (by decide) (by decide) (by decide)⟩

/-- C25, evaluated: `pool_4104` has 80 heads and 10 second-level bytes.  After the
successful call `simpl_memalign(pool, 16, 16)` the bitmaps agree with the heads (bit
`j` of `fl_bitmap` is set exactly when `sl_bitmaps[j]` is not zero, bit `k` of
`sl_bitmaps[j]` exactly when class `8 * j + k` is inside the table with a non-null
head), and the classes 0 and 79 have non-null heads.  The call
`simpl_malloc(pool, 4000)` passes the `available` check and searches with the size
`size_roundup(4000) = 0`, whose class 0 is in row 0 of the table:
`search_freelists(pool, 0)` returns 0, the value its callers read as "not found",
and `simpl_malloc` returns null. -/
theorem search_freelists_zero_with_nonempty_classes :
    pool_4104.1 ≠ 0 ∧ pool_4104_memalign.1 ≠ 0 ∧
      init_est 8 4104 65536 = 80 ∧ init_sl_size 8 4104 65536 = 10 ∧
      pool_4104_memalign.2.fl_bitmap < 2 ^ 10 ∧
      (∀ j, j < 10 → pool_4104_memalign.2.sl_bitmaps j < 256) ∧
      (∀ j, j < 10 → (pool_4104_memalign.2.fl_bitmap.testBit j = true ↔
        pool_4104_memalign.2.sl_bitmaps j ≠ 0)) ∧
      (∀ j, j < 10 → ∀ k, k < 8 → ((pool_4104_memalign.2.sl_bitmaps j).testBit k = true ↔
        get_freelist_index j k < 80 ∧
          pool_4104_memalign.2.freelists (get_freelist_index j k) ≠ 0)) ∧
      adjust_alloc_size 8 4000 8 ≤ pool_4104_memalign.2.available ∧
      size_roundup (adjust_alloc_size 8 4000 8) = 0 ∧
      get_fl_index (freelists_mapping 0) < 10 ∧
      freelists_mapping 0 ≤ 0 ∧ pool_4104_memalign.2.freelists 0 ≠ 0 ∧
      freelists_mapping 0 ≤ 79 ∧ pool_4104_memalign.2.freelists 79 ≠ 0 ∧
      search_freelists pool_4104_memalign.2 0 = 0 ∧
      (simpl_malloc 8 pool_4104.1 pool_4104_memalign.2 4000).1 = 0 := by
  decide

/-! ## C27: `merge_free_neighbor_chunk` and the free lists -/

/-- The check `back_linked` reads only the `free_prev` links of the chunks of the list. -/
theorem back_linked_congr (P : Nat) (m1 m2 : Mem) :
    ∀ (L : List Nat) (prev : Nat), (∀ y ∈ L, m2 (y + 2 * P) = m1 (y + 2 * P)) →
      back_linked P m2 prev L = back_linked P m1 prev L := by
  intro L
  induction L with
  | nil => intro prev _; rfl
  | cons a L ih =>
    intro prev h
    simp only [back_linked, free_prev_addr_eq]
    have h1 : read_ptr m2 (a + 2 * P) = read_ptr m1 (a + 2 * P) := h a (List.mem_cons_self _ _)
    rw [ih a (fun y hy => h y (List.mem_cons_of_mem _ hy))]
    simp only [h1]

/-- The `free_prev` link of another chunk after `pop_free_chunk`. -/
theorem pop_free_chunk_read_prev (P : Nat) (pool : simpl_pool) (c y : Nat) (hy : y ≠ 0)
    (hfp : read_ptr pool.mem (c + 2 * P) = 0 ∨ y + 2 * P ≠ read_ptr pool.mem (c + 2 * P) + 3 * P) :
    read_ptr (pop_free_chunk P pool c).mem (y + 2 * P) =
      if y = read_ptr pool.mem (c + 3 * P) then read_ptr pool.mem (c + 2 * P)
      else read_ptr pool.mem (y + 2 * P) := by
  rw [pop_free_chunk_mem]
  by_cases h2 : read_ptr pool.mem (c + 3 * P) = 0
  · have hne : y ≠ read_ptr pool.mem (c + 3 * P) := by rw [h2]; exact hy
    rw [if_neg hne]
    by_cases h1 : read_ptr pool.mem (c + 2 * P) = 0
    · simp only [h1, h2, ne_eq, not_true_eq_false, if_false]
    · simp only [h1, h2, ne_eq, not_true_eq_false, if_false, not_false_eq_true, if_true]
      rw [read_ptr_write_ptr_ne _ _ _ _ (hfp.resolve_left h1)]
  · by_cases hyn : y = read_ptr pool.mem (c + 3 * P)
    · rw [if_pos hyn]
      by_cases h1 : read_ptr pool.mem (c + 2 * P) = 0
      · simp only [h1, h2, ne_eq, not_true_eq_false, if_false, not_false_eq_true, if_true]
        rw [← hyn, read_ptr_write_ptr_same]
      · simp only [h1, h2, ne_eq, not_false_eq_true, if_true]
        rw [← hyn, read_ptr_write_ptr_same]
    · rw [if_neg hyn]
      have hne : y + 2 * P ≠ read_ptr pool.mem (c + 3 * P) + 2 * P := by omega
      by_cases h1 : read_ptr pool.mem (c + 2 * P) = 0
      · simp only [h1, h2, ne_eq, not_true_eq_false, if_false, not_false_eq_true, if_true]
        rw [read_ptr_write_ptr_ne _ _ _ _ hne]
      · simp only [h1, h2, ne_eq, not_false_eq_true, if_true]
        rw [read_ptr_write_ptr_ne _ _ _ _ hne,
          read_ptr_write_ptr_ne _ _ _ _ (hfp.resolve_left h1)]

/-- After `pop_free_chunk` the rest of a walk is back-linked again. -/
theorem pop_free_chunk_back_linked_from (P : Nat) (pool : simpl_pool) (x : Nat) :
    ∀ (f h prev : Nat),
      (freelist_walk P pool.mem f h).length < f →
      x ∈ freelist_walk P pool.mem f h →
      back_linked P pool.mem prev (freelist_walk P pool.mem f h) = true →
      (freelist_walk P pool.mem f h).Nodup →
      (read_ptr pool.mem (x + 2 * P) = 0 ∨
        ∀ y ∈ freelist_walk P pool.mem f h, y + 2 * P ≠ read_ptr pool.mem (x + 2 * P) + 3 * P) →
      back_linked P (pop_free_chunk P pool x).mem prev
        ((freelist_walk P pool.mem f h).erase x) = true := by
  intro f
  induction f with
  | zero => intro h prev hf; simp at hf
  | succ f ih =>
    intro h prev hf hx hb hnd hsep
    by_cases hh : h = 0
    · rw [hh, freelist_walk_null] at hx
      simp at hx
    · rw [freelist_walk_succ P pool.mem f h hh] at hf hx hb hnd hsep ⊢
      simp only [List.length_cons, Nat.add_lt_add_iff_right] at hf
      simp only [back_linked, Bool.and_eq_true, decide_eq_true_eq, free_prev_addr_eq] at hb
      have hnd1 := List.nodup_cons.mp hnd
      have hsep1 : ∀ y ∈ freelist_walk P pool.mem f (read_ptr pool.mem (h + 3 * P)),
          read_ptr pool.mem (x + 2 * P) = 0 ∨
            y + 2 * P ≠ read_ptr pool.mem (x + 2 * P) + 3 * P := by
        intro y hy
        rcases hsep with h0 | h1
        · exact Or.inl h0
        · exact Or.inr (h1 y (List.mem_cons_of_mem _ hy))
      have hnz : ∀ y ∈ freelist_walk P pool.mem f (read_ptr pool.mem (h + 3 * P)), y ≠ 0 :=
        fun y hy => freelist_walk_ne_zero P pool.mem f _ y hy
      by_cases hx1 : h = x
      · subst hx1
        rw [List.erase_cons_head]
        cases f with
        | zero => rfl
        | succ f =>
          by_cases hz : read_ptr pool.mem (h + 3 * P) = 0
          · rw [hz, freelist_walk_null]
            rfl
          · rw [freelist_walk_succ P pool.mem f _ hz] at hb hnd1 hsep1 hnz ⊢
            simp only [back_linked, Bool.and_eq_true, decide_eq_true_eq,
              free_prev_addr_eq] at hb ⊢
            have hnd2 := List.nodup_cons.mp hnd1.2
            refine ⟨?_, ?_⟩
            · rw [pop_free_chunk_read_prev P pool h _ hz (hsep1 _ (List.mem_cons_self _ _)),
                if_pos rfl]
              exact hb.1
            · rw [back_linked_congr P pool.mem (pop_free_chunk P pool h).mem]
              · exact hb.2.2
              · intro y hy
                have hy1 := List.mem_cons_of_mem (read_ptr pool.mem (h + 3 * P)) hy
                have e := pop_free_chunk_read_prev P pool h y (hnz y hy1) (hsep1 y hy1)
                have hne : y ≠ read_ptr pool.mem (h + 3 * P) := by
                  intro hyp
                  rw [hyp] at hy
                  exact hnd2.1 hy
                rw [if_neg hne] at e
                exact e
      · have hxr : x ∈ freelist_walk P pool.mem f (read_ptr pool.mem (h + 3 * P)) := by
          rcases List.mem_cons.mp hx with e | e
          · exact absurd e.symm hx1
          · exact e
        rw [List.erase_cons_tail (by simpa using hx1)]
        simp only [back_linked, Bool.and_eq_true, decide_eq_true_eq, free_prev_addr_eq]
        refine ⟨?_, ?_⟩
        · have hhsep : read_ptr pool.mem (x + 2 * P) = 0 ∨
              h + 2 * P ≠ read_ptr pool.mem (x + 2 * P) + 3 * P := by
            rcases hsep with h0 | h1
            · exact Or.inl h0
            · exact Or.inr (h1 h (List.mem_cons_self _ _))
          rw [pop_free_chunk_read_prev P pool x h hh hhsep, if_neg]
          · exact hb.1
          · intro hyp
            rcases freelist_walk_next_mem P pool.mem x f _ hf hxr with h0 | h1
            · exact hh (hyp.trans h0)
            · rw [← hyp] at h1
              exact hnd1.1 h1
        · exact ih _ h hf hxr hb.2 hnd1.2 (by
            rcases hsep with h0 | h1
            · exact Or.inl h0
            · exact Or.inr (fun y hy => h1 y (List.mem_cons_of_mem _ hy)))

theorem get_chunk_size_congr (P : Nat) (m1 m2 : Mem) (y : Nat)
    (h : m2 (y + P) = m1 (y + P)) : get_chunk_size P m2 y = get_chunk_size P m1 y := by
  unfold get_chunk_size read_u32
  rw [size_addr_eq, h]

/-- The lists stay what they are when the heads and the three cells (size word and
links) of each of their chunks keep their content. -/
theorem lists_ok_of_mem (P : Nat) (pool pool2 : simpl_pool) (fuel K : Nat)
    (Ls : Nat → List Nat) (h : lists_ok P pool fuel K Ls)
    (hfl : ∀ i, i < K → pool2.freelists i = pool.freelists i)
    (hm : ∀ i, i < K → ∀ y ∈ Ls i, pool2.mem (y + P) = pool.mem (y + P) ∧
      pool2.mem (y + 2 * P) = pool.mem (y + 2 * P) ∧
      pool2.mem (y + 3 * P) = pool.mem (y + 3 * P)) :
    lists_ok P pool2 fuel K Ls := by
  obtain ⟨hA, hE⟩ := h
  refine ⟨fun i hi => ?_, hE⟩
  obtain ⟨w, l, n, b, c⟩ := hA i hi
  have hw : freelist_walk P pool2.mem fuel (pool2.freelists i) = Ls i := by
    rw [hfl i hi, freelist_walk_congr P pool.mem pool2.mem fuel _ (by
      rw [w]
      exact fun y hy => (hm i hi y hy).2.2), w]
  refine ⟨hw, l, n, ?_, ?_⟩
  · rw [back_linked_congr P pool.mem pool2.mem _ _ (fun y hy => (hm i hi y hy).2.1)]
    exact b
  · intro y hy
    rw [get_chunk_size_congr P pool.mem pool2.mem y (hm i hi y hy).1]
    exact c y hy

/-- After `pop_free_chunk` of a chunk of one of the lists, the lists are the old ones
without that chunk. -/
theorem pop_free_chunk_lists_ok (P : Nat) (pool : simpl_pool) (fuel K : Nat)
    (Ls : Nat → List Nat) (x k : Nat) (hP : 0 < P) (h : lists_ok P pool fuel K Ls)
    (hk : k < K) (hx : x ∈ Ls k) :
    lists_ok P (pop_free_chunk P pool x) fuel K (fun i => (Ls i).erase x) := by
  obtain ⟨hA, hE⟩ := h
  obtain ⟨wk, lk, nk, bk, ck⟩ := hA k hk
  have hcx : freelists_mapping (get_chunk_size P pool.mem x) = k := ck x hx
  have hfp := back_linked_prev_ne P pool.mem x (Ls k) 0 bk hx nk
  have hfn : read_ptr pool.mem (x + 3 * P) = 0 ∨
      (read_ptr pool.mem (x + 3 * P) ∈ Ls k ∧ read_ptr pool.mem (x + 3 * P) ≠ x) := by
    have h := freelist_walk_next_ne P pool.mem x fuel (pool.freelists k) (by rw [wk]; exact lk)
      (by rw [wk]; exact hx) (by rw [wk]; exact nk)
    rw [wk] at h
    exact h
  have hsz : sizeof_simpl_chunk P = 4 * P := rfl
  -- cells of the chunks of the lists
  have hcell : ∀ i, i < K → ∀ y ∈ Ls i, y ≠ 0 ∧
      (pop_free_chunk P pool x).mem (y + P) = pool.mem (y + P) ∧
      (read_ptr pool.mem (x + 2 * P) = 0 ∨ y + 2 * P ≠ read_ptr pool.mem (x + 2 * P) + 3 * P) ∧
      (read_ptr pool.mem (x + 3 * P) = 0 ∨ y + 3 * P ≠ read_ptr pool.mem (x + 3 * P) + 2 * P) := by
    intro i hi y hy
    have hy0 : y ≠ 0 := by
      have := (hA i hi).1
      rw [← this] at hy
      exact freelist_walk_ne_zero P pool.mem _ _ y hy
    have h1 : read_ptr pool.mem (x + 2 * P) = 0 ∨
        (y = read_ptr pool.mem (x + 2 * P) ∨ apart P y (read_ptr pool.mem (x + 2 * P))) := by
      rcases hfp with h0 | h1
      · exact Or.inl h0
      · exact Or.inr (hE i hi k hk y hy _ h1.1)
    have h2 : read_ptr pool.mem (x + 3 * P) = 0 ∨
        (y = read_ptr pool.mem (x + 3 * P) ∨ apart P y (read_ptr pool.mem (x + 3 * P))) := by
      rcases hfn with h0 | h1
      · exact Or.inl h0
      · exact Or.inr (hE i hi k hk y hy _ h1.1)
    unfold apart at h1 h2
    rw [hsz] at h1 h2
    refine ⟨hy0, ?_, ?_, ?_⟩
    · apply pop_free_chunk_frame
      · rcases h1 with h | h
        · exact Or.inl h
        · right; omega
      · rcases h2 with h | h
        · exact Or.inl h
        · right; omega
    · rcases h1 with h | h
      · exact Or.inl h
      · right; omega
    · rcases h2 with h | h
      · exact Or.inl h
      · right; omega
  refine ⟨fun i hi => ?_, ?_⟩
  · obtain ⟨w, l, n, b, c⟩ := hA i hi
    have hlen : ((Ls i).erase x).length < fuel :=
      lt_of_le_of_lt (List.erase_sublist x (Ls i)).length_le l
    have hcls : ∀ y ∈ (Ls i).erase x,
        freelists_mapping (get_chunk_size P (pop_free_chunk P pool x).mem y) = i := by
      intro y hy
      have hy1 := List.mem_of_mem_erase hy
      rw [get_chunk_size_congr P pool.mem _ y (hcell i hi y hy1).2.1]
      exact c y hy1
    by_cases hik : i = k
    · subst hik
      refine ⟨?_, hlen, List.Nodup.erase x n, ?_, hcls⟩
      · have := pop_free_chunk_walk P pool x fuel hP (by rw [hcx, w]; exact l)
          (by rw [hcx, w]; exact hx) (by rw [hcx, w]; exact n) (by rw [hcx, w]; exact b)
          (by rw [hcx, w]; exact hE i hi i hi)
        rw [hcx, w] at this
        exact this
      · have := pop_free_chunk_back_linked_from P pool x fuel (pool.freelists i) 0
          (by rw [w]; exact l) (by rw [w]; exact hx) (by rw [w]; exact b) (by rw [w]; exact n)
          (by
            rw [w]
            by_cases h0 : read_ptr pool.mem (x + 2 * P) = 0
            · exact Or.inl h0
            · exact Or.inr (fun y hy => (hcell i hi y hy).2.2.1.resolve_left h0))
        rw [w] at this
        exact this
    · have hxi : x ∉ Ls i := by
        intro hxi
        exact hik ((c x hxi).symm.trans hcx)
      have her : (Ls i).erase x = Ls i := List.erase_of_not_mem hxi
      have hnotin : ∀ y ∈ Ls i, ∀ z, (z = 0 ∨ z ∈ Ls k) → y ≠ 0 → y ≠ z := by
        intro y hy z hz hy0 hyz
        rcases hz with hz | hz
        · exact hy0 (hyz.trans hz)
        · rw [← hyz] at hz
          exact hik ((c y hy).symm.trans (ck y hz))
      have hfpz : read_ptr pool.mem (x + 2 * P) = 0 ∨ read_ptr pool.mem (x + 2 * P) ∈ Ls k := by
        rcases hfp with h | h
        · exact Or.inl h
        · exact Or.inr h.1
      have hfnz : read_ptr pool.mem (x + 3 * P) = 0 ∨ read_ptr pool.mem (x + 3 * P) ∈ Ls k := by
        rcases hfn with h | h
        · exact Or.inl h
        · exact Or.inr h.1
      have hmem : ∀ y ∈ Ls i, (pop_free_chunk P pool x).mem (y + 2 * P) = pool.mem (y + 2 * P) ∧
          (pop_free_chunk P pool x).mem (y + 3 * P) = pool.mem (y + 3 * P) := by
        intro y hy
        obtain ⟨hy0, _, s2, s3⟩ := hcell i hi y hy
        constructor
        · have e := pop_free_chunk_read_prev P pool x y hy0 s2
          rw [if_neg (hnotin y hy _ hfnz hy0)] at e
          exact e
        · have e := pop_free_chunk_read_next P pool x y hy0 s3
          rw [if_neg (hnotin y hy _ hfpz hy0)] at e
          exact e
      have hhead : (pop_free_chunk P pool x).freelists i = pool.freelists i := by
        rw [pop_free_chunk_freelists, hcx, if_neg (fun h => hik h.2)]
      simp only [her]
      refine ⟨?_, l, n, ?_, ?_⟩
      · rw [hhead, freelist_walk_congr P pool.mem _ fuel _ (by
          rw [w]
          exact fun y hy => (hmem y hy).2), w]
      · rw [back_linked_congr P pool.mem _ _ _ (fun y hy => (hmem y hy).1)]
        exact b
      · intro y hy
        have := hcls y (by rw [her]; exact hy)
        exact this
  · intro i hi j hj y hy z hz
    exact hE i hi j hj y (List.mem_of_mem_erase hy) z (List.mem_of_mem_erase hz)

theorem pop_free_chunk_available (P : Nat) (pool : simpl_pool) (c : Nat) :
    (pop_free_chunk P pool c).available =
      (pool.available + u32 - get_chunk_size P pool.mem c % u32) % u32 := by
  unfold pop_free_chunk clr_bitmap
  simp only []
  split_ifs <;> rfl

/-- The memory after one neighbour was absorbed: the chunk at `a` swallows the chunk at
`b` behind it; `Lm` is the memory after the `pop_free_chunk` of one of the two. -/
theorem absorb_mem (P : Nat) (m Lm : Mem) (a b sa sb : Nat) (hP : 0 < P)
    (hsa : get_chunk_size P m a = sa) (hsb : get_chunk_size P m b = sb)
    (hab : b = a + P + sa) (hminb : 3 * P ≤ sb) (h32 : sa + P + sb < u32)
    (ha : Lm (a + P) = m (a + P)) (hb : Lm (b + P) = m (b + P)) :
    set_chunk_size P (write_ptr Lm (next_phys_chunk P Lm b) a) a
        ((get_chunk_size P (write_ptr Lm (next_phys_chunk P Lm b) a) a + simplc_chunk_overhead P +
          get_chunk_size P (write_ptr Lm (next_phys_chunk P Lm b) a) b) % u32) =
      write_u32 (write_ptr Lm (b + P + sb) a) (a + P)
        ((sa + P + sb) ||| (read_u32 m (a + P) &&& 3)) := by
  have hu : u32 = 4294967296 := rfl
  have e1 : get_chunk_size P Lm a = sa := by
    rw [get_chunk_size_congr P m Lm a ha, hsa]
  have e2 : get_chunk_size P Lm b = sb := by
    rw [get_chunk_size_congr P m Lm b hb, hsb]
  have e3 : next_phys_chunk P Lm b = b + P + sb := by
    rw [next_phys_chunk, overhead_eq, e2]
  have n1 : a + P ≠ b + P + sb := by omega
  have n2 : b + P ≠ b + P + sb := by omega
  have e4 : get_chunk_size P (write_ptr Lm (b + P + sb) a) a = sa := by
    rw [get_chunk_size_congr P Lm _ a (write_ptr_ne Lm (b + P + sb) a (a + P) n1), e1]
  have e5 : get_chunk_size P (write_ptr Lm (b + P + sb) a) b = sb := by
    rw [get_chunk_size_congr P Lm _ b (write_ptr_ne Lm (b + P + sb) a (b + P) n2), e2]
  rw [e3, e4, e5, overhead_eq, Nat.mod_eq_of_lt h32]
  unfold set_chunk_size get_chunk_flags read_u32
  rw [size_addr_eq, write_ptr_ne Lm (b + P + sb) a (a + P) n1, ha]
  rfl

/-- The chunk at `a` and the cells around it after one neighbour was absorbed. -/
theorem absorb_mem_facts (P : Nat) (m Lm : Mem) (a b sa sb : Nat) (hP : 0 < P)
    (hP4 : P % 4 = 0) (hsa : get_chunk_size P m a = sa) (hsb : get_chunk_size P m b = sb)
    (hab : b = a + P + sa) (h32 : sa + P + sb < u32) :
    get_chunk_size P (write_u32 (write_ptr Lm (b + P + sb) a) (a + P)
        ((sa + P + sb) ||| (read_u32 m (a + P) &&& 3))) a = sa + P + sb ∧
      is_chunk_free P (write_u32 (write_ptr Lm (b + P + sb) a) (a + P)
        ((sa + P + sb) ||| (read_u32 m (a + P) &&& 3))) a = is_chunk_free P m a ∧
      is_chunk_prev_free P (write_u32 (write_ptr Lm (b + P + sb) a) (a + P)
        ((sa + P + sb) ||| (read_u32 m (a + P) &&& 3))) a = is_chunk_prev_free P m a ∧
      read_ptr (write_u32 (write_ptr Lm (b + P + sb) a) (a + P)
        ((sa + P + sb) ||| (read_u32 m (a + P) &&& 3))) (b + P + sb) = a ∧
      ∀ t, t ≠ a + P → t ≠ b + P + sb →
        (write_u32 (write_ptr Lm (b + P + sb) a) (a + P)
          ((sa + P + sb) ||| (read_u32 m (a + P) &&& 3))) t = Lm t := by
  have hu : u32 = 4294967296 := rfl
  have hsa4 : sa % 4 = 0 := by rw [← hsa]; exact word_size_mod4 _
  have hsb4 : sb % 4 = 0 := by rw [← hsb]; exact word_size_mod4 _
  have hv4 : (sa + P + sb) % 4 = 0 := by omega
  refine ⟨?_, ?_, ?_, ?_, ?_⟩
  · simp (disch := omega) only [get_chunk_size, size_addr_eq, read_u32_write_u32_same,
      chunk_flags_mask, word_mod_size, word_set_size]
  · simp (disch := omega) only [is_chunk_free, size_addr_eq, read_u32_write_u32_same,
      chunk_flag_free_mask, word_mod_free, word_set_free]
  · simp (disch := omega) only [is_chunk_prev_free, size_addr_eq, read_u32_write_u32_same,
      chunk_flag_prev_free_mask, word_mod_pfree, word_set_pfree]
  · rw [read_ptr_write_u32_ne _ _ _ _ (by omega), read_ptr_write_ptr_same]
  · intro t h1 h2
    rw [write_u32_ne _ _ _ _ h1, write_ptr_ne _ _ _ _ h2]

/-- The two links of a chunk of one of the lists are null or other chunks of its list. -/
theorem lists_ok_links (P : Nat) (pool : simpl_pool) (fuel K : Nat) (Ls : Nat → List Nat)
    (x k : Nat) (h : lists_ok P pool fuel K Ls) (hk : k < K) (hx : x ∈ Ls k) :
    (read_ptr pool.mem (x + 2 * P) = 0 ∨
        (read_ptr pool.mem (x + 2 * P) ∈ Ls k ∧ read_ptr pool.mem (x + 2 * P) ≠ x)) ∧
      (read_ptr pool.mem (x + 3 * P) = 0 ∨
        (read_ptr pool.mem (x + 3 * P) ∈ Ls k ∧ read_ptr pool.mem (x + 3 * P) ≠ x)) := by
  obtain ⟨wk, lk, nk, bk, _⟩ := h.1 k hk
  refine ⟨back_linked_prev_ne P pool.mem x (Ls k) 0 bk hx nk, ?_⟩
  have h := freelist_walk_next_ne P pool.mem x fuel (pool.freelists k) (by rw [wk]; exact lk)
    (by rw [wk]; exact hx) (by rw [wk]; exact nk)
  rw [wk] at h
  exact h

/-- A cell that is no link of another chunk of the lists keeps its content in
`pop_free_chunk`. -/
theorem pop_free_chunk_frame_lists (P : Nat) (pool : simpl_pool) (fuel K : Nat)
    (Ls : Nat → List Nat) (x k t : Nat) (h : lists_ok P pool fuel K Ls) (hk : k < K)
    (hx : x ∈ Ls k)
    (ht : ∀ i, i < K → ∀ y ∈ Ls i, y ≠ x → t ≠ y + 2 * P ∧ t ≠ y + 3 * P) :
    (pop_free_chunk P pool x).mem t = pool.mem t := by
  obtain ⟨hfp, hfn⟩ := lists_ok_links P pool fuel K Ls x k h hk hx
  apply pop_free_chunk_frame
  · rcases hfp with h0 | h1
    · exact Or.inl h0
    · exact Or.inr (ht k hk _ h1.1 h1.2).2
  · rcases hfn with h0 | h1
    · exact Or.inl h0
    · exact Or.inr (ht k hk _ h1.1 h1.2).1

/-- One neighbour absorbed: the chunk at `a` swallows the chunk at `b` behind it, after
the one of the two that was in a free list (`x`) has been popped. -/
theorem absorb_facts (P : Nat) (pool Q : simpl_pool) (a b x sa sb fuel K k : Nat)
    (Ls : Nat → List Nat) (hP : 0 < P) (hP4 : P % 4 = 0)
    (hsa : get_chunk_size P pool.mem a = sa) (hsb : get_chunk_size P pool.mem b = sb)
    (hab : b = a + P + sa) (hminb : 3 * P ≤ sb) (h32 : sa + P + sb < u32)
    (hl : lists_ok P pool fuel K Ls) (hk : k < K) (hxk : x ∈ Ls k)
    (hout : ∀ i, i < K → ∀ y ∈ Ls i, y = x ∨ y + 4 * P ≤ a ∨ b + P + sb ≤ y)
    (hQ : Q = { pop_free_chunk P pool x with
      mem := set_chunk_size P
        (write_ptr (pop_free_chunk P pool x).mem
          (next_phys_chunk P (pop_free_chunk P pool x).mem b) a) a
        ((get_chunk_size P (write_ptr (pop_free_chunk P pool x).mem
            (next_phys_chunk P (pop_free_chunk P pool x).mem b) a) a +
          simplc_chunk_overhead P +
          get_chunk_size P (write_ptr (pop_free_chunk P pool x).mem
            (next_phys_chunk P (pop_free_chunk P pool x).mem b) a) b) % u32) }) :
    get_chunk_size P Q.mem a = sa + P + sb ∧
      is_chunk_free P Q.mem a = is_chunk_free P pool.mem a ∧
      is_chunk_prev_free P Q.mem a = is_chunk_prev_free P pool.mem a ∧
      read_ptr Q.mem (b + P + sb) = a ∧
      (∀ t, t ≠ a + P → t ≠ b + P + sb →
        (∀ i, i < K → ∀ y ∈ Ls i, y ≠ x → t ≠ y + 2 * P ∧ t ≠ y + 3 * P) →
        Q.mem t = pool.mem t) ∧
      lists_ok P Q fuel K (fun i => (Ls i).erase x) ∧
      Q.available = (pool.available + u32 - get_chunk_size P pool.mem x % u32) % u32 := by
  have hspan : ∀ t, a ≤ t → t ≤ b + P + sb + P →
      ∀ i, i < K → ∀ y ∈ Ls i, y ≠ x → t ≠ y + 2 * P ∧ t ≠ y + 3 * P := by
    intro t h1 h2 i hi y hy hyx
    rcases hout i hi y hy with h | h | h
    · exact absurd h hyx
    · constructor <;> omega
    · constructor <;> omega
  have ha := pop_free_chunk_frame_lists P pool fuel K Ls x k (a + P) hl hk hxk
    (hspan _ (by omega) (by omega))
  have hb := pop_free_chunk_frame_lists P pool fuel K Ls x k (b + P) hl hk hxk
    (hspan _ (by omega) (by omega))
  have hmem : Q.mem = write_u32 (write_ptr (pop_free_chunk P pool x).mem (b + P + sb) a) (a + P)
      ((sa + P + sb) ||| (read_u32 pool.mem (a + P) &&& 3)) := by
    rw [hQ]
    exact absorb_mem P pool.mem _ a b sa sb hP hsa hsb hab hminb h32 ha hb
  have hfl : Q.freelists = (pop_free_chunk P pool x).freelists := by rw [hQ]
  have hav : Q.available = (pop_free_chunk P pool x).available := by rw [hQ]
  obtain ⟨f1, f2, f3, f4, f5⟩ := absorb_mem_facts P pool.mem (pop_free_chunk P pool x).mem
    a b sa sb hP hP4 hsa hsb hab h32
  rw [← hmem] at f1 f2 f3 f4 f5
  refine ⟨f1, f2, f3, f4, ?_, ?_, ?_⟩
  · intro t h1 h2 h3
    rw [f5 t h1 h2]
    exact pop_free_chunk_frame_lists P pool fuel K Ls x k t hl hk hxk h3
  · have hpop := pop_free_chunk_lists_ok P pool fuel K Ls x k hP hl hk hxk
    refine lists_ok_of_mem P _ Q fuel K _ hpop (fun i _ => by rw [hfl]) ?_
    intro i hi y hy
    have hn := (hl.1 i hi).2.2.1
    have hy2 := (List.Nodup.mem_erase_iff hn).mp hy
    have hc : y + 4 * P ≤ a ∨ b + P + sb ≤ y := by
      rcases hout i hi y hy2.2 with h | h
      · exact absurd h hy2.1
      · exact h
    refine ⟨f5 _ ?_ ?_, f5 _ ?_ ?_, f5 _ ?_ ?_⟩ <;> omega
  · rw [hav, pop_free_chunk_available]

/-- The second half of `merge_free_neighbor_chunk`: the chunk `r` (of size `rs`, whose
physical successor `nx` has the back pointer `r`) absorbs `nx` when `nx` is free. -/
theorem merge_next_facts (P : Nat) (Q : simpl_pool) (X : Nat × simpl_pool)
    (r rs nx ns gn fuel K : Nat) (Ls : Nat → List Nat) (hP : 0 < P) (hP4 : P % 4 = 0)
    (hrs : get_chunk_size P Q.mem r = rs) (hnx : nx = r + P + rs)
    (hns : get_chunk_size P Q.mem nx = ns)
    (hgn : gn = if is_chunk_free P Q.mem nx ≠ 0 then P + ns else 0)
    (hnext : is_chunk_free P Q.mem nx ≠ 0 → 3 * P ≤ ns ∧ ∃ k, k < K ∧ nx ∈ Ls k)
    (hlast : is_chunk_free P Q.mem (nx + gn) = 0)
    (hpp : read_ptr Q.mem nx = r) (h32 : rs + gn < u32)
    (hl : lists_ok P Q fuel K Ls)
    (hout : ∀ i, i < K → ∀ y ∈ Ls i,
      (is_chunk_free P Q.mem nx ≠ 0 ∧ y = nx) ∨ y + 4 * P ≤ r ∨ nx + gn ≤ y)
    (hX : X = if is_chunk_free P Q.mem (next_phys_chunk P Q.mem r) ≠ 0 then
        (r, { pop_free_chunk P Q (next_phys_chunk P Q.mem r) with
          mem := set_chunk_size P
            (write_ptr (pop_free_chunk P Q (next_phys_chunk P Q.mem r)).mem
              (next_phys_chunk P (pop_free_chunk P Q (next_phys_chunk P Q.mem r)).mem
                (next_phys_chunk P Q.mem r)) r) r
            ((get_chunk_size P (write_ptr (pop_free_chunk P Q (next_phys_chunk P Q.mem r)).mem
                (next_phys_chunk P (pop_free_chunk P Q (next_phys_chunk P Q.mem r)).mem
                  (next_phys_chunk P Q.mem r)) r) r +
              simplc_chunk_overhead P +
              get_chunk_size P (write_ptr (pop_free_chunk P Q (next_phys_chunk P Q.mem r)).mem
                (next_phys_chunk P (pop_free_chunk P Q (next_phys_chunk P Q.mem r)).mem
                  (next_phys_chunk P Q.mem r)) r) (next_phys_chunk P Q.mem r)) % u32) })
      else (r, Q)) :
    X.1 = r ∧
      get_chunk_size P X.2.mem r = rs + gn ∧
      is_chunk_free P X.2.mem r = is_chunk_free P Q.mem r ∧
      is_chunk_prev_free P X.2.mem r = is_chunk_prev_free P Q.mem r ∧
      next_phys_chunk P X.2.mem r = nx + gn ∧
      is_chunk_free P X.2.mem (nx + gn) = 0 ∧
      read_ptr X.2.mem (nx + gn) = r ∧
      lists_ok P X.2 fuel K
        (fun i => if is_chunk_free P Q.mem nx ≠ 0 then (Ls i).erase nx else Ls i) ∧
      X.2.available =
        (if is_chunk_free P Q.mem nx ≠ 0 then (Q.available + u32 - ns % u32) % u32
         else Q.available) := by
  have hnx2 : next_phys_chunk P Q.mem r = nx := by
    rw [next_phys_chunk, overhead_eq, hrs, hnx]
  rw [hnx2] at hX
  by_cases hf : is_chunk_free P Q.mem nx ≠ 0
  · rw [if_pos hf] at hX hgn
    simp only [if_pos hf]
    obtain ⟨hmin, k, hk, hxk⟩ := hnext hf
    obtain ⟨Q2, hQ2⟩ : ∃ Q2 : simpl_pool, Q2 = X.2 := ⟨_, rfl⟩
    have hX1 : X.1 = r := by rw [hX]
    have hX2 := hQ2
    rw [hX] at hX2
    simp only [] at hX2
    have hout2 : ∀ i, i < K → ∀ y ∈ Ls i, y = nx ∨ y + 4 * P ≤ r ∨ nx + P + ns ≤ y := by
      intro i hi y hy
      rcases hout i hi y hy with h | h | h
      · exact Or.inl h.2
      · exact Or.inr (Or.inl h)
      · right; right; omega
    obtain ⟨f1, f2, f3, f4, f5, f6, f7⟩ := absorb_facts P Q Q2 r nx nx rs ns fuel K k Ls hP hP4
      hrs hns hnx hmin (by omega) hl hk hxk hout2 hX2
    rw [← hQ2]
    refine ⟨hX1, ?_, f2, f3, ?_, ?_, ?_, f6, ?_⟩
    · rw [f1, hgn]
      omega
    · rw [next_phys_chunk, overhead_eq, f1, hgn]
      omega
    · have e : Q2.mem (nx + gn + P) = Q.mem (nx + gn + P) := by
        apply f5
        · omega
        · omega
        · intro i hi y hy hyx
          rcases hout2 i hi y hy with h | h | h
          · exact absurd h hyx
          · constructor <;> omega
          · constructor <;> omega
      unfold is_chunk_free read_u32 at hlast ⊢
      rw [size_addr_eq] at hlast ⊢
      rw [e]
      exact hlast
    · rw [hgn, show nx + (P + ns) = nx + P + ns by omega]
      exact f4
    · rw [f7, hns]
  · rw [if_neg hf] at hX hgn
    simp only [if_neg hf]
    subst hgn
    rw [hX]
    refine ⟨rfl, ?_, rfl, rfl, ?_, hlast, ?_, hl, rfl⟩
    · simp only []
      rw [hrs]
      rfl
    · simp only []
      rw [hnx2]
      rfl
    · exact hpp

/-- The function `merge_free_neighbor_chunk` when the P flag of the chunk is clear. -/
theorem merge_of_no_prev (P : Nat) (pool : simpl_pool) (c : Nat)
    (hpf : is_chunk_prev_free P pool.mem c = 0) :
    merge_free_neighbor_chunk P pool c =
      if is_chunk_free P pool.mem (next_phys_chunk P pool.mem c) ≠ 0 then
        (c, { pop_free_chunk P pool (next_phys_chunk P pool.mem c) with
          mem := set_chunk_size P (write_ptr (pop_free_chunk P pool
              (next_phys_chunk P pool.mem c)).mem (next_phys_chunk P (pop_free_chunk P pool
              (next_phys_chunk P pool.mem c)).mem (next_phys_chunk P pool.mem c)) c) c
            ((get_chunk_size P (write_ptr (pop_free_chunk P pool
                (next_phys_chunk P pool.mem c)).mem (next_phys_chunk P (pop_free_chunk P pool
                (next_phys_chunk P pool.mem c)).mem
                (next_phys_chunk P pool.mem c)) c) c + simplc_chunk_overhead P +
              get_chunk_size P (write_ptr (pop_free_chunk P pool
                  (next_phys_chunk P pool.mem c)).mem (next_phys_chunk P (pop_free_chunk P pool
                  (next_phys_chunk P pool.mem c)).mem (next_phys_chunk P pool.mem c)) c)
                  (next_phys_chunk P pool.mem c)) % u32) })
      else (c, pool) := by
  unfold merge_free_neighbor_chunk
  simp only [hpf, ne_eq, not_true_eq_false, if_false]

/-- The function `merge_free_neighbor_chunk` when the P flag of the chunk is set: `Q` is
the pool after the predecessor has absorbed the chunk. -/
theorem merge_of_prev (P : Nat) (pool Q : simpl_pool) (c : Nat)
    (hpf : is_chunk_prev_free P pool.mem c ≠ 0)
    (hQ : Q = { pop_free_chunk P pool (prev_phys_chunk pool.mem c) with
        mem := set_chunk_size P (write_ptr (pop_free_chunk P pool
            (prev_phys_chunk pool.mem c)).mem (next_phys_chunk P (pop_free_chunk P pool
            (prev_phys_chunk pool.mem c)).mem c) (prev_phys_chunk pool.mem c))
            (prev_phys_chunk pool.mem c)
          ((get_chunk_size P (write_ptr (pop_free_chunk P pool (prev_phys_chunk pool.mem c)).mem
              (next_phys_chunk P (pop_free_chunk P pool (prev_phys_chunk pool.mem c)).mem c)
              (prev_phys_chunk pool.mem c)) (prev_phys_chunk pool.mem c) + simplc_chunk_overhead P +
            get_chunk_size P (write_ptr (pop_free_chunk P pool (prev_phys_chunk pool.mem c)).mem
                (next_phys_chunk P (pop_free_chunk P pool (prev_phys_chunk pool.mem c)).mem c)
                (prev_phys_chunk pool.mem c)) c) % u32) }) :
    merge_free_neighbor_chunk P pool c =
      if is_chunk_free P Q.mem (next_phys_chunk P Q.mem (prev_phys_chunk pool.mem c)) ≠ 0 then
        ((prev_phys_chunk pool.mem c), { pop_free_chunk P Q (next_phys_chunk P Q.mem
            (prev_phys_chunk pool.mem c)) with
          mem := set_chunk_size P (write_ptr (pop_free_chunk P Q (next_phys_chunk P Q.mem
              (prev_phys_chunk pool.mem c))).mem (next_phys_chunk P (pop_free_chunk P Q
              (next_phys_chunk P Q.mem (prev_phys_chunk pool.mem c))).mem (next_phys_chunk P Q.mem
              (prev_phys_chunk pool.mem c))) (prev_phys_chunk pool.mem c))
              (prev_phys_chunk pool.mem c)
            ((get_chunk_size P (write_ptr (pop_free_chunk P Q (next_phys_chunk P Q.mem
                (prev_phys_chunk pool.mem c))).mem (next_phys_chunk P (pop_free_chunk P Q
                (next_phys_chunk P Q.mem (prev_phys_chunk pool.mem c))).mem
                (next_phys_chunk P Q.mem (prev_phys_chunk pool.mem c)))
                (prev_phys_chunk pool.mem c))
                (prev_phys_chunk pool.mem c) + simplc_chunk_overhead P +
              get_chunk_size P (write_ptr (pop_free_chunk P Q (next_phys_chunk P Q.mem
                  (prev_phys_chunk pool.mem c))).mem (next_phys_chunk P (pop_free_chunk P Q
                  (next_phys_chunk P Q.mem (prev_phys_chunk pool.mem c))).mem
                  (next_phys_chunk P Q.mem (prev_phys_chunk pool.mem c)))
                  (prev_phys_chunk pool.mem c)) (next_phys_chunk P Q.mem
                  (prev_phys_chunk pool.mem c))) % u32) })
      else ((prev_phys_chunk pool.mem c), Q) := by
  subst hQ
  unfold merge_free_neighbor_chunk
  simp only [hpf, ne_eq, not_false_eq_true, if_true]

theorem is_chunk_free_congr (P : Nat) (m1 m2 : Mem) (y : Nat)
    (h : m2 (y + P) = m1 (y + P)) : is_chunk_free P m2 y = is_chunk_free P m1 y := by
  unfold is_chunk_free read_u32
  rw [size_addr_eq, h]

theorem available_one (av s : Nat) (h1 : av < u32) (h2 : s ≤ av) :
    (av + u32 - s % u32) % u32 + s = av := by
  have hu : u32 = 4294967296 := rfl
  rw [hu] at h1 ⊢
  omega

theorem available_two (av s t : Nat) (h1 : av < u32) (h2 : s + t ≤ av) :
    ((av + u32 - s % u32) % u32 + u32 - t % u32) % u32 + s + t = av := by
  have hu : u32 = 4294967296 := rfl
  rw [hu] at h1 ⊢
  omega

theorem not_mem_erase_erase (l : List Nat) (a b : Nat) (h : l.Nodup) :
    a ∉ (l.erase a).erase b ∧ b ∉ (l.erase a).erase b := by
  constructor
  · intro hm
    exact ((List.Nodup.mem_erase_iff h).mp (List.mem_of_mem_erase hm)).1 rfl
  · intro hm
    exact ((List.Nodup.mem_erase_iff (List.Nodup.erase a h)).mp hm).1 rfl

/-- C27: `merge_free_neighbor_chunk` conserves the physical span.  Let the free lists
of the classes below `K` be the lists `Ls` (null-terminated, without repetition,
back-linked, each chunk in the list of the class of its size, headers not
overlapping).  Let `c` be a free chunk of size `cs` (at least the minimum) that is in
none of the lists, with physical successor `nx` (of size `ns`) whose `phys_prev` is
`c`.  When P(c) is set, let `pv = c->phys_prev` (of size `ps`) be a free chunk of one of
the lists that ends where `c` begins; when `nx` is free, let it have at least the
minimum size and be in one of the lists.  Let the chunk after the last chunk absorbed
be in use, let the sizes add up to less than 2^32, let `available` hold at least the
sizes of the neighbours absorbed, and let every other chunk of the lists lie before the
first or from the chunk after the last chunk absorbed on.  Then the chunk returned is
`pv` when P(c) is set and `c` otherwise; it is free, and its size is `cs` plus
`chunk_overhead` and the size of each neighbour absorbed; the free lists are the old
ones without the neighbours absorbed, which no walk from a head meets any more;
`available` has gone down by their sizes; and the chunk physically after the returned
one is the chunk after the last chunk absorbed, still in use, with the returned chunk
in its `phys_prev`. -/
theorem merge_free_neighbor_chunk_span (P : Nat) (hP : P = 4 ∨ P = 8) (pool : simpl_pool)
    (c cs pv ps nx ns gp gn fuel K : Nat) (Ls : Nat → List Nat)
    (hcs : get_chunk_size P pool.mem c = cs) (hmin : simplc_chunk_min_size P ≤ cs)
    (hfree : is_chunk_free P pool.mem c ≠ 0)
    (hpv : prev_phys_chunk pool.mem c = pv) (hps : get_chunk_size P pool.mem pv = ps)
    (hnx : next_phys_chunk P pool.mem c = nx) (hns : get_chunk_size P pool.mem nx = ns)
    (hgp : gp = if is_chunk_prev_free P pool.mem c ≠ 0 then simplc_chunk_overhead P + ps else 0)
    (hgn : gn = if is_chunk_free P pool.mem nx ≠ 0 then simplc_chunk_overhead P + ns else 0)
    (hprev : is_chunk_prev_free P pool.mem c ≠ 0 →
      next_phys_chunk P pool.mem pv = c ∧ is_chunk_free P pool.mem pv ≠ 0 ∧
        ∃ k, k < K ∧ pv ∈ Ls k)
    (hnext : is_chunk_free P pool.mem nx ≠ 0 →
      simplc_chunk_min_size P ≤ ns ∧ ∃ k, k < K ∧ nx ∈ Ls k)
    (hlast : is_chunk_free P pool.mem (nx + gn) = 0)
    (hpp : prev_phys_chunk pool.mem nx = c)
    (h32 : gp + cs + gn < u32) (havl : pool.available < u32)
    (hav : (if is_chunk_prev_free P pool.mem c ≠ 0 then ps else 0) +
      (if is_chunk_free P pool.mem nx ≠ 0 then ns else 0) ≤ pool.available)
    (hl : lists_ok P pool fuel K Ls)
    (hout : ∀ i, i < K → ∀ y ∈ Ls i,
      (is_chunk_prev_free P pool.mem c ≠ 0 ∧ y = pv) ∨
      (is_chunk_free P pool.mem nx ≠ 0 ∧ y = nx) ∨
      outside P y (if is_chunk_prev_free P pool.mem c ≠ 0 then pv else c) (nx + gn)) :
    (merge_free_neighbor_chunk P pool c).1 =
        (if is_chunk_prev_free P pool.mem c ≠ 0 then pv else c) ∧
      get_chunk_size P (merge_free_neighbor_chunk P pool c).2.mem
        (merge_free_neighbor_chunk P pool c).1 = gp + cs + gn ∧
      is_chunk_free P (merge_free_neighbor_chunk P pool c).2.mem
        (merge_free_neighbor_chunk P pool c).1 ≠ 0 ∧
      next_phys_chunk P (merge_free_neighbor_chunk P pool c).2.mem
        (merge_free_neighbor_chunk P pool c).1 = nx + gn ∧
      is_chunk_free P (merge_free_neighbor_chunk P pool c).2.mem (nx + gn) = 0 ∧
      prev_phys_chunk (merge_free_neighbor_chunk P pool c).2.mem (nx + gn) =
        (merge_free_neighbor_chunk P pool c).1 ∧
      lists_ok P (merge_free_neighbor_chunk P pool c).2 fuel K
        (fun i => (Ls i).diff
          ((if is_chunk_prev_free P pool.mem c ≠ 0 then [pv] else []) ++
            (if is_chunk_free P pool.mem nx ≠ 0 then [nx] else []))) ∧
      (is_chunk_prev_free P pool.mem c ≠ 0 → ∀ i, i < K →
        pv ∉ freelist_walk P (merge_free_neighbor_chunk P pool c).2.mem fuel
          ((merge_free_neighbor_chunk P pool c).2.freelists i)) ∧
      (is_chunk_free P pool.mem nx ≠ 0 → ∀ i, i < K →
        nx ∉ freelist_walk P (merge_free_neighbor_chunk P pool c).2.mem fuel
          ((merge_free_neighbor_chunk P pool c).2.freelists i)) ∧
      (merge_free_neighbor_chunk P pool c).2.available +
        (if is_chunk_prev_free P pool.mem c ≠ 0 then ps else 0) +
        (if is_chunk_free P pool.mem nx ≠ 0 then ns else 0) = pool.available := by
  have hP0 : 0 < P := by rcases hP with rfl | rfl <;> decide
  have hP4 : P % 4 = 0 := by rcases hP with rfl | rfl <;> decide
  have hu : u32 = 4294967296 := rfl
  clear hP
  rw [overhead_eq] at hgp hgn
  rw [min_size_eq] at hmin hnext
  have hnxa : nx = c + P + cs := by rw [← hnx, next_phys_chunk, overhead_eq, hcs]
  have hns_lt : ns < u32 := by rw [← hns]; exact word_size_lt _
  have hps_lt : ps < u32 := by rw [← hps]; exact word_size_lt _
  simp only [outside, sizeof_chunk_eq] at hout
  unfold prev_phys_chunk at hpp ⊢
  obtain ⟨X, hX⟩ : ∃ X, X = merge_free_neighbor_chunk P pool c := ⟨_, rfl⟩
  rw [← hX]
  by_cases hpf : is_chunk_prev_free P pool.mem c ≠ 0
  · obtain ⟨hpvn, hpvf, kp, hkp, hpvL⟩ := hprev hpf
    simp only [if_pos hpf] at hgp hav hout ⊢
    have hca : c = pv + P + ps := by rw [← hpvn, next_phys_chunk, overhead_eq, hps]
    obtain ⟨Q, hQ⟩ : ∃ Q : simpl_pool, Q = { pop_free_chunk P pool (prev_phys_chunk pool.mem c) with
        mem := set_chunk_size P (write_ptr (pop_free_chunk P pool
            (prev_phys_chunk pool.mem c)).mem (next_phys_chunk P (pop_free_chunk P pool
            (prev_phys_chunk pool.mem c)).mem c) (prev_phys_chunk pool.mem c))
            (prev_phys_chunk pool.mem c)
          ((get_chunk_size P (write_ptr (pop_free_chunk P pool (prev_phys_chunk pool.mem c)).mem
              (next_phys_chunk P (pop_free_chunk P pool (prev_phys_chunk pool.mem c)).mem c)
              (prev_phys_chunk pool.mem c)) (prev_phys_chunk pool.mem c) + simplc_chunk_overhead P +
            get_chunk_size P (write_ptr (pop_free_chunk P pool (prev_phys_chunk pool.mem c)).mem
                (next_phys_chunk P (pop_free_chunk P pool (prev_phys_chunk pool.mem c)).mem c)
                (prev_phys_chunk pool.mem c)) c) % u32) } := ⟨_, rfl⟩
    have hm := merge_of_prev P pool Q c hpf hQ
    unfold prev_phys_chunk at hpv hQ hm
    rw [hpv] at hQ hm
    have hgc : (is_chunk_free P pool.mem nx ≠ 0 ∧ gn = P + ns ∧ 3 * P ≤ ns) ∨
        (¬ is_chunk_free P pool.mem nx ≠ 0 ∧ gn = 0) := by
      by_cases hf : is_chunk_free P pool.mem nx ≠ 0
      · rw [if_pos hf] at hgn
        exact Or.inl ⟨hf, hgn, (hnext hf).1⟩
      · rw [if_neg hf] at hgn
        exact Or.inr ⟨hf, hgn⟩
    have hout1 : ∀ i, i < K → ∀ y ∈ Ls i, y = pv ∨ y + 4 * P ≤ pv ∨ c + P + cs ≤ y := by
      intro i hi y hy
      rcases hout i hi y hy with h | h | h | h
      · exact Or.inl h.2
      · right; right; omega
      · exact Or.inr (Or.inl h)
      · right; right; omega
    obtain ⟨f1, f2, f3, f4, f5, f6, f7⟩ := absorb_facts P pool Q pv c pv ps cs fuel K kp Ls
      hP0 hP4 hps hcs hca hmin (by omega) hl hkp hpvL hout1 hQ
    have hcells : ∀ t, t = nx + P ∨ t = nx + gn + P → Q.mem t = pool.mem t := by
      intro t ht
      apply f5 t (by omega) (by omega)
      intro i hi y hy hyx
      rcases hout i hi y hy with h | h | h | h
      · exact absurd h.2 hyx
      · have h2 := h.2
        have h1 := h.1
        clear hout hout1 f5 hav h
        constructor <;> omega
      · clear hout hout1 f5 hav
        constructor <;> omega
      · clear hout hout1 f5 hav
        constructor <;> omega
    have hnsQ : get_chunk_size P Q.mem nx = ns := by
      rw [get_chunk_size_congr P pool.mem Q.mem nx (hcells _ (Or.inl rfl)), hns]
    have hfQ : is_chunk_free P Q.mem nx = is_chunk_free P pool.mem nx :=
      is_chunk_free_congr P pool.mem Q.mem nx (hcells _ (Or.inl rfl))
    have hlastQ : is_chunk_free P Q.mem (nx + gn) = 0 := by
      rw [is_chunk_free_congr P pool.mem Q.mem (nx + gn) (hcells _ (Or.inr rfl))]
      exact hlast
    have hppQ : read_ptr Q.mem nx = pv := by
      rw [hnxa]
      exact f4
    have hnextQ : is_chunk_free P Q.mem nx ≠ 0 →
        3 * P ≤ ns ∧ ∃ k, k < K ∧ nx ∈ (fun i => (Ls i).erase pv) k := by
      intro hf
      rw [hfQ] at hf
      obtain ⟨h1, k, hk, hxk⟩ := hnext hf
      exact ⟨h1, k, hk, (List.mem_erase_of_ne (by omega)).mpr hxk⟩
    have houtQ : ∀ i, i < K → ∀ y ∈ (fun i => (Ls i).erase pv) i,
        (is_chunk_free P Q.mem nx ≠ 0 ∧ y = nx) ∨ y + 4 * P ≤ pv ∨ nx + gn ≤ y := by
      intro i hi y hy
      have hy2 := (List.Nodup.mem_erase_iff (hl.1 i hi).2.2.1).mp hy
      rw [hfQ]
      rcases hout i hi y hy2.2 with h | h | h
      · exact absurd h.2 hy2.1
      · exact Or.inl h
      · exact Or.inr h
    have hgnQ : gn = if is_chunk_free P Q.mem nx ≠ 0 then P + ns else 0 := by
      rw [hfQ]
      exact hgn
    obtain ⟨g1, g2, g3, g4, g5, g6, g7, g8, g9⟩ := merge_next_facts P Q X pv (ps + P + cs) nx
      ns gn fuel K (fun i => (Ls i).erase pv) hP0 hP4 f1 (by omega) hnsQ hgnQ hnextQ hlastQ
      hppQ (by omega) f6 houtQ (hX.trans hm)
    rw [hfQ] at g8 g9
    clear hQ hm hX hout hout1 houtQ hnextQ hcells f5 f6 f4 f3 f1 hppQ hlastQ hnsQ hgnQ hprev
      hnext hpp hlast hgc hfQ g4
    subst hgp
    rw [g1, g2, g3, g5, g9, f2, f7, hps, Nat.add_comm ps P]
    refine ⟨rfl, rfl, hpvf, rfl, g6, g7, ?_, ?_, ?_, ?_⟩
    · by_cases hf : is_chunk_free P pool.mem nx ≠ 0
      · simp only [if_pos hf, List.singleton_append, List.diff_cons, List.diff_nil] at g8 ⊢
        exact g8
      · simp only [if_neg hf, List.append_nil, List.diff_cons, List.diff_nil] at g8 ⊢
        exact g8
    · intro _ i hi
      have hw := (g8.1 i hi).1
      have hn := (hl.1 i hi).2.2.1
      rw [hw]
      by_cases hf : is_chunk_free P pool.mem nx ≠ 0
      · simp only [if_pos hf]
        exact (not_mem_erase_erase (Ls i) pv nx hn).1
      · simp only [if_neg hf]
        intro hm2
        exact ((List.Nodup.mem_erase_iff hn).mp hm2).1 rfl
    · intro hf i hi
      have hw := (g8.1 i hi).1
      have hn := (hl.1 i hi).2.2.1
      simp only [if_pos hf] at hw
      rw [hw]
      exact (not_mem_erase_erase (Ls i) pv nx hn).2
    · by_cases hf : is_chunk_free P pool.mem nx ≠ 0
      · simp only [if_pos hf] at hav ⊢
        exact available_two _ _ _ havl hav
      · simp only [if_neg hf, Nat.add_zero] at hav ⊢
        exact available_one _ _ havl hav
  · have hpf0 : is_chunk_prev_free P pool.mem c = 0 := by
      by_contra h
      exact hpf h
    simp only [if_neg hpf] at hgp hav hout ⊢
    subst hgp
    rw [merge_of_no_prev P pool c hpf0] at hX
    have hout1 : ∀ i, i < K → ∀ y ∈ Ls i,
        (is_chunk_free P pool.mem nx ≠ 0 ∧ y = nx) ∨ y + 4 * P ≤ c ∨ nx + gn ≤ y := by
      intro i hi y hy
      rcases hout i hi y hy with h | h | h
      · exact absurd h.1 hpf
      · exact Or.inl h
      · exact Or.inr h
    obtain ⟨g1, g2, g3, g4, g5, g6, g7, g8, g9⟩ := merge_next_facts P pool X c cs nx ns gn
      fuel K Ls hP0 hP4 hcs hnxa hns hgn hnext hlast hpp (by omega) hl hout1 hX
    rw [g1, g2, g3, g5, g9]
    refine ⟨rfl, by omega, hfree, rfl, g6, g7, ?_, fun h => absurd h hpf, ?_, ?_⟩
    · by_cases hf : is_chunk_free P pool.mem nx ≠ 0
      · simp only [if_pos hf, List.nil_append, List.diff_cons, List.diff_nil] at g8 ⊢
        exact g8
      · simp only [if_neg hf, List.nil_append, List.diff_nil] at g8 ⊢
        exact g8
    · intro hf i hi
      have hw := (g8.1 i hi).1
      simp only [if_pos hf] at hw
      rw [hw]
      intro hm
      exact ((List.Nodup.mem_erase_iff (hl.1 i hi).2.2.1).mp hm).1 rfl
    · by_cases hf : is_chunk_free P pool.mem nx ≠ 0
      · simp only [if_pos hf] at hav ⊢
        rw [hu]
        rw [hu] at havl hns_lt
        omega
      · simp only [if_neg hf]
        omega

/-- Witness of C27: after `five_blocks_free_AC`, `simpl_free(pool, B)` calls
`merge_free_neighbor_chunk` on the chunk of B (at 4840, size 64) with both neighbours
free: A at 4768 and C at 4912, the two chunks of the list of class 16. -/
theorem merge_free_neighbor_chunk_span_witness :
    lists_ok 8 five_blocks_freeing_B.2 4 17 (fun i => if i = 16 then [4912, 4768] else []) ∧
      is_chunk_prev_free 8 five_blocks_freeing_B.2.mem 4840 ≠ 0 ∧
      is_chunk_free 8 five_blocks_freeing_B.2.mem 4912 ≠ 0 ∧
      (merge_free_neighbor_chunk 8 five_blocks_freeing_B.2 4840).1 =
        (if is_chunk_prev_free 8 five_blocks_freeing_B.2.mem 4840 ≠ 0 then 4768 else 4840) ∧
      get_chunk_size 8 (merge_free_neighbor_chunk 8 five_blocks_freeing_B.2 4840).2.mem
        (merge_free_neighbor_chunk 8 five_blocks_freeing_B.2 4840).1 = 72 + 64 + 72 ∧
      next_phys_chunk 8 (merge_free_neighbor_chunk 8 five_blocks_freeing_B.2 4840).2.mem
        (merge_free_neighbor_chunk 8 five_blocks_freeing_B.2 4840).1 = 4912 + 72 := by
  have h := merge_free_neighbor_chunk_span 8 (Or.inr rfl) five_blocks_freeing_B.2
    4840 64 4768 64 4912 64 72 72 4 17 (fun i => if i = 16 then [4912, 4768] else [])
    (by decide) (by decide) (by decide) (by decide) (by decide) (by decide) (by decide)
    (by decide) (by decide)
    (fun _ => ⟨by decide, by decide, 16, by decide, by decide⟩)
    (fun _ => ⟨by decide, 16, by decide, by decide⟩)
    (by decide) (by decide) (by decide) (by decide) (by decide) (by decide) (by decide)
  exact ⟨by decide, by decide, by decide, h.1, h.2.1, h.2.2.2.1⟩

/-! ## C31: free chunks below the minimum size -/

/-- C31, evaluated: `pool_64k` comes from a successful `simpl_init`, and its only
free chunk, at 4768, has at least `simplc_chunk_min_size` bytes.  After the call
`simpl_memalign(pool, 32, 32)`, which returns the payload 4800, the chunk at 4768
has F = 1 and size 8, below `simplc_chunk_min_size` = 24; its physical successor is
the chunk of the payload returned, and the cell of its `free_next` field is the
cell of the size word of that successor. -/
theorem memalign_free_chunk_below_min_size :
    pool_64k.1 ≠ 0 ∧
      simplc_chunk_min_size 8 ≤ get_chunk_size 8 pool_64k.2.mem pool_64k_first ∧
      pool_64k_memalign.1 = 4800 ∧
      is_chunk_free 8 pool_64k_memalign.2.mem pool_64k_first ≠ 0 ∧
      get_chunk_size 8 pool_64k_memalign.2.mem pool_64k_first = 8 ∧
      get_chunk_size 8 pool_64k_memalign.2.mem pool_64k_first < simplc_chunk_min_size 8 ∧
      next_phys_chunk 8 pool_64k_memalign.2.mem pool_64k_first =
        get_payload_chunk 8 pool_64k_memalign.1 ∧
      free_next_addr 8 pool_64k_first =
        size_addr 8 (next_phys_chunk 8 pool_64k_memalign.2.mem pool_64k_first) := by
  decide

end Simpl
